import Mathlib

/-!
# DataPocessorC: the streaming record pipeline of `src/main.c`

A shallow embedding of the CSV pipeline (tokenizer, normalizer, validator,
duplicate filter, serializer, per-line step) and theorems about it.

Conventions of the embedding.
* A byte is a natural number (`0 .. 255`); a buffer is a `List Nat`.  A C string
  held in a buffer is the part of the buffer before the first NUL byte (`cstr`).
* The classification functions of `<ctype.h>` are those of the "C" locale, the
  locale a program that never calls `setlocale` runs in.
* Loops whose termination is not structural carry a fuel argument; the callers
  pass the length of the text, which is enough (every iteration shortens it).
-/

namespace DataProcessor

/-! ## Constants of `src/main.c` -/

def MAX_LINE_LENGTH : Nat := 8192
def MAX_FIELDS : Nat := 32
def MIN_TEXT_LENGTH : Nat := 5
def MAX_SCHEMA_FIELDS : Nat := 16

/-! ## C strings and `<ctype.h>` -/

/-- The C string stored in a buffer: the bytes before the first NUL. -/
def cstr (mem : List Nat) : List Nat := mem.takeWhile (fun c => c != 0)

/-- The bytes of an ASCII string literal. -/
def str (s : String) : List Nat := s.toList.map Char.toNat

/-- `isspace` in the "C" locale: space, `\t`, `\n`, `\v`, `\f`, `\r`. -/
def isspace (c : Nat) : Bool := c == 32 || (9 ≤ c && c ≤ 13)

/-- `ispunct` in the "C" locale: printable, neither alphanumeric nor space. -/
def ispunct (c : Nat) : Bool :=
  (33 ≤ c && c ≤ 47) || (58 ≤ c && c ≤ 64) || (91 ≤ c && c ≤ 96) || (123 ≤ c && c ≤ 126)

/-- `tolower` in the "C" locale. -/
def tolower (c : Nat) : Nat := if 65 ≤ c ∧ c ≤ 90 then c + 32 else c

/-- `safe_strcpy(dest, src, dest_size)`: the new content of `dest`. -/
def safe_strcpy (dest src : List Nat) (dest_size : Nat) : List Nat :=
  if dest_size = 0 then dest else (cstr src).take (dest_size - 1)

/-! ## Tokenizer: `parse_csv_line` -/

/-- The guarded append `if (buf_pos < MAX_LINE_LENGTH - 1) buffer[buf_pos++] = c`. -/
def buf_push (buffer : List Nat) (c : Nat) : List Nat :=
  if buffer.length < MAX_LINE_LENGTH - 1 then buffer ++ [c] else buffer

/-- The "handle last field" block after the loop of `parse_csv_line`. -/
def parse_finish (max_fields : Nat) (fields : List (List Nat)) (buffer : List Nat) :
    List (List Nat) :=
  if fields.length < max_fields then
    fields ++ [safe_strcpy [] (buffer ++ [0]) MAX_LINE_LENGTH]
  else fields

/-- The `while (*ptr && field_count < max_fields)` loop of `parse_csv_line`, followed by
the last-field block.  `fields` are the fields stored so far (`field_count` is their
number), `buffer` is `buffer[0 .. buf_pos)`. -/
def parse_loop (quote_char delimiter max_fields : Nat) :
    List Nat → List (List Nat) → Bool → List Nat → List (List Nat)
  | [], fields, _, buffer => parse_finish max_fields fields buffer
  | [c], fields, in_quotes, buffer =>
    if c = 0 ∨ ¬ fields.length < max_fields then parse_finish max_fields fields buffer
    else if c = quote_char then
      -- `*(ptr + 1)` is the terminating NUL, never the quote character
      parse_loop quote_char delimiter max_fields [] fields (!in_quotes) buffer
    else if c = delimiter ∧ in_quotes = false then
      parse_loop quote_char delimiter max_fields []
        (fields ++ [safe_strcpy [] (buffer ++ [0]) MAX_LINE_LENGTH]) in_quotes []
    else
      parse_loop quote_char delimiter max_fields [] fields in_quotes (buf_push buffer c)
  | c :: c1 :: ptr, fields, in_quotes, buffer =>
    if c = 0 ∨ ¬ fields.length < max_fields then parse_finish max_fields fields buffer
    else if c = quote_char then
      if in_quotes = true ∧ c1 = quote_char then
        parse_loop quote_char delimiter max_fields ptr fields in_quotes
          (buf_push buffer quote_char)
      else
        parse_loop quote_char delimiter max_fields (c1 :: ptr) fields (!in_quotes) buffer
    else if c = delimiter ∧ in_quotes = false then
      parse_loop quote_char delimiter max_fields (c1 :: ptr)
        (fields ++ [safe_strcpy [] (buffer ++ [0]) MAX_LINE_LENGTH]) in_quotes []
    else
      parse_loop quote_char delimiter max_fields (c1 :: ptr) fields in_quotes
        (buf_push buffer c)

/-- The quote character chosen by `parse_csv_line`:
`if (strchr(line, '\'') && !strchr(line, '"')) quote_char = '\''`. -/
def select_quote (line : List Nat) : Nat :=
  if 39 ∈ cstr line ∧ 34 ∉ cstr line then 39 else 34

/-- `parse_csv_line(line, fields, max_fields, delimiter)`: the fields written to
`fields[0 .. field_count)`, in order; the returned `field_count` is the length. -/
def parse_csv_line (line : List Nat) (max_fields delimiter : Nat) : List (List Nat) :=
  parse_loop (select_quote line) delimiter max_fields line [] false []

/-! ## Normalizer: `clean_text` -/

/-- `strcasecmp_portable(s1, s2)` on two buffers (the NULL-pointer guard is not modelled:
both arguments are buffers).  A buffer that has run out reads as the terminating NUL. -/
def strcasecmp_portable : List Nat → List Nat → Int
  | c1 :: s1, c2 :: s2 =>
    if c1 ≠ 0 ∧ c2 ≠ 0 then
      if tolower c1 ≠ tolower c2 then (tolower c1 : Int) - (tolower c2 : Int)
      else strcasecmp_portable s1 s2
    else (tolower c1 : Int) - (tolower c2 : Int)
  | s1, s2 => (tolower (s1.headD 0) : Int) - (tolower (s2.headD 0) : Int)

/-- The first test of `clean_text`: empty text or one of the null markers. -/
def is_null_marker (text : List Nat) : Bool :=
  (cstr text).length == 0 || strcasecmp_portable text (str "nan") == 0 ||
    strcasecmp_portable text (str "null") == 0 || strcasecmp_portable text (str "n/a") == 0

/-- The trimming block of `clean_text`: `start` skips leading whitespace; `end` walks
back from the last byte while `end > start` and `*end` is whitespace.  When `start`
stops on a byte, that byte is not whitespace, so the walk removes exactly the trailing
whitespace of what `start` left; when `start` reaches the NUL, the result is empty. -/
def trim (text : List Nat) : List Nat :=
  ((text.dropWhile isspace).reverse.dropWhile isspace).reverse

/-- The table `entities[]` of `clean_text`, in table order. -/
def entities : List (List Nat × List Nat) :=
  [(str "&lt;", str "<"), (str "&gt;", str ">"), (str "&amp;", str "&"),
   (str "&quot;", str "\""), (str "&apos;", str "'"), (str "&nbsp;", str " "),
   (str "&#39;", str "'"), (str "&#34;", str "\""), (str "&hellip;", str "..."),
   (str "&mdash;", str "--"), (str "&ndash;", str "-"), (str "&lsquo;", str "'"),
   (str "&rsquo;", str "'"), (str "&ldquo;", str "\""), (str "&rdquo;", str "\"")]

/-- One iteration of `while ((pos = strstr(text, entity)) != NULL) { memmove; memcpy }`:
`none` when `strstr` finds nothing, else the text with the first occurrence replaced. -/
def replace_first (entity replacement : List Nat) : List Nat → Option (List Nat)
  | [] => if entity.isPrefixOf [] then some replacement else none
  | c :: text =>
    if entity.isPrefixOf (c :: text) then
      some (replacement ++ (c :: text).drop entity.length)
    else (replace_first entity replacement text).map (fun t => c :: t)

/-- The `while` loop over one entity, with fuel. -/
def replace_all (entity replacement : List Nat) : Nat → List Nat → List Nat
  | 0, text => text
  | fuel + 1, text =>
    match replace_first entity replacement text with
    | none => text
    | some t => replace_all entity replacement fuel t

/-- The `for` loop over the entity table. -/
def decode_entities (text : List Nat) : List Nat :=
  entities.foldl (fun t er => replace_all er.1 er.2 t.length t) text

/-- The tag-stripping loop `while ((tag_start = strchr(text, '<')) != NULL)`, with fuel:
no matching `>` truncates at the `<` and stops, else the span is removed and the search
restarts from the beginning of the text. -/
def strip_tags : Nat → List Nat → List Nat
  | 0, text => text
  | fuel + 1, text =>
    match text.dropWhile (fun c => c != 60) with
    | [] => text
    | _ :: after_lt =>
      match after_lt.dropWhile (fun c => c != 62) with
      | [] => text.takeWhile (fun c => c != 60)
      | _ :: after_gt => strip_tags fuel (text.takeWhile (fun c => c != 60) ++ after_gt)

/-- The read/write loop "remove control characters and normalize whitespace".
`written` is `wr != text`, `last_space` is the flag of the source; the result is what
the loop appends at `wr`. -/
def normalize_ws : List Nat → Bool → Bool → List Nat
  | [], _, _ => []
  | c :: rd, written, last_space =>
    if c < 32 ∧ c ≠ 9 ∧ c ≠ 10 ∧ c ≠ 13 then normalize_ws rd written last_space
    else if isspace c then
      if last_space = false ∧ written = true then 32 :: normalize_ws rd true true
      else normalize_ws rd written last_space
    else c :: normalize_ws rd true false

/-- The strict-mode loop "remove excessive punctuation"; the second argument is
`punct_count`. -/
def limit_punct : List Nat → Nat → List Nat
  | [], _ => []
  | c :: src, punct_count =>
    if ispunct c then
      if punct_count + 1 ≤ 3 then c :: limit_punct src (punct_count + 1)
      else limit_punct src (punct_count + 1)
    else c :: limit_punct src 0

/-- The text of `clean_text` when it reaches "final length checks" (after trimming,
entity decoding, tag stripping, whitespace normalization and the strict-mode pass). -/
def clean_stages (text : List Nat) (strict : Bool) : List Nat :=
  let t1 := trim (cstr text)
  let t2 := decode_entities t1
  let t3 := strip_tags t2.length t2
  let t4 := normalize_ws t3 false false
  if strict then limit_punct t4 0 else t4

/-- `clean_text(text, max_len, strict)`: the C string left in `text`. -/
def clean_text (text : List Nat) (max_len : Nat) (strict : Bool) : List Nat :=
  if is_null_marker text then []
  else
    let t := clean_stages text strict
    if t.length < MIN_TEXT_LENGTH then []
    else if t.length ≥ max_len then t.take (max_len - 1)
    else t

/-! ## Validator: `validate_field` -/

/-- One entry of `config->fields`. -/
structure FieldSchema where
  name : List Nat
  index : Int
  required : Bool
  is_label : Bool
  min_length : Int
  max_length : Int
deriving DecidableEq, Repr

/-- The conversion of `int len = strlen(field)`: the low 32 bits of the `size_t`,
read as a two's-complement `int`. -/
def size_to_int (n : Nat) : Int :=
  if n % 2 ^ 32 < 2 ^ 31 then ((n % 2 ^ 32 : Nat) : Int) else ((n % 2 ^ 32 : Nat) : Int) - 2 ^ 32

/-- `validate_field(field, schema)` for non-NULL arguments. -/
def validate_field (field : List Nat) (schema : FieldSchema) : Bool :=
  let len := size_to_int (cstr field).length
  if schema.required = true ∧ len = 0 then false
  else if len < schema.min_length ∨ (schema.max_length > 0 ∧ len > schema.max_length) then false
  else true

/-! ## Duplicate filter: `hash_string`, `is_duplicate` -/

/-- `hash_string(str)`: `hash = ((hash << 5) + hash) + byte` in `unsigned int`. -/
def hash_string (s : List Nat) : Nat :=
  (cstr s).foldl (fun hash c => ((hash * 2 ^ 5 % 2 ^ 32 + hash) % 2 ^ 32 + c % 256) % 2 ^ 32) 5381

/-- `is_duplicate(text, seen_hashes, &hash_count, max_hashes)`: the returned flag and
`seen_hashes[0 .. hash_count)` after the call. -/
def is_duplicate (text : List Nat) (seen_hashes : List Nat) (max_hashes : Int) :
    Bool × List Nat :=
  if hash_string text ∈ seen_hashes then (true, seen_hashes)
  else if (seen_hashes.length : Int) < max_hashes then (false, seen_hashes ++ [hash_string text])
  else (false, seen_hashes)

/-! ## Configuration, statistics and the state of one run -/

/-- The enumeration `DatasetType`. -/
inductive DatasetType where
  | TYPE_UNDEFINED
  | TYPE_SENTIMENT
  | TYPE_LEETCODE
  | TYPE_CUSTOM
  | TYPE_CLASSIFICATION
  | TYPE_QA
deriving DecidableEq, Repr

/-- The members of `ProcessingConfig` that `process_file_enhanced` reads once the
delimiter has been decided.  `fields` lists the entries of `config->fields` in order; an
entry past the end of the list is a zero-filled entry, as `main` creates it, and
`field_count` is expected to stay within `MAX_SCHEMA_FIELDS`. -/
structure ProcessingConfig where
  type : DatasetType
  delimiter : Nat
  has_header : Bool
  strict_mode : Bool
  remove_duplicates : Bool
  validate_data : Bool
  max_lines : Int
  skip_lines : Int
  fields : List FieldSchema
  field_count : Int
  output_format : List Nat
deriving DecidableEq, Repr

/-- The counters of `ProcessingStats`.  `avg_text_length` is the running sum the loop
accumulates (a `double` in the source, exact for sums below `2 ^ 53`); the counters are
`int` in the source and are not modelled past `INT_MAX`. -/
structure ProcessingStats where
  total_lines : Nat
  processed_lines : Nat
  skipped_lines : Nat
  error_lines : Nat
  duplicate_lines : Nat
  avg_text_length : Nat
deriving DecidableEq, Repr

/-- The locals of `process_file_enhanced` that live across lines, and the output written.
* `fields`: the rows of `char fields[MAX_FIELDS][MAX_LINE_LENGTH]` written so far, as C
  strings (row `i` is written before `field_ptrs[i]` is);
* `ptrs`: the number of entries of `field_ptrs` assigned so far; the loop assigns them
  from index 0 upwards, so the assigned entries are `field_ptrs[0 .. ptrs)`, and
  `field_ptrs[i]`, once assigned, always points to row `i` of `fields`;
* `seen_hashes`: `seen_hashes[0 .. hash_count)`;
* `out`: the units written to the output stream, one per serializer call, oldest first. -/
structure RunState where
  stats : ProcessingStats
  fields : List (List Nat)
  ptrs : Nat
  seen_hashes : List Nat
  out : List (List Nat)
deriving DecidableEq, Repr

/-- A zero-filled entry of `config->fields`. -/
def zero_schema : FieldSchema :=
  { name := [], index := 0, required := false, is_label := false, min_length := 0,
    max_length := 0 }

/-- The entry `config->fields[i]`. -/
def schema_at (config : ProcessingConfig) (i : Nat) : FieldSchema :=
  config.fields.getD i zero_schema

/-- Reading `field_ptrs[i]` as a string: `none` when the pointer was never assigned
(its value is indeterminate and the read is undefined behaviour). -/
def field_ptr (fields : List (List Nat)) (ptrs : Nat) (i : Nat) : Option (List Nat) :=
  if i < ptrs then some (fields.getD i []) else none

/-! ## Serializer: `write_output_json`, `write_output_txt` -/

/-- The bytes printed by one iteration of the loop of `write_output_json`. -/
def json_pair (schema : FieldSchema) (value : List Nat) (i : Nat) : List Nat :=
  (if i > 0 then str "," else []) ++ str "\"" ++ cstr schema.name ++ str "\":\"" ++ cstr value
    ++ str "\""

/-- `write_output_json(out, fields, schema, field_count)`: the bytes written, `none` when
an unassigned pointer is read. -/
def write_output_json (fields : Nat → Option (List Nat)) (schema : Nat → FieldSchema)
    (field_count : Nat) : Option (List Nat) :=
  ((List.range field_count).mapM (fun i => (fields i).map (fun v => json_pair (schema i) v i))).map
    (fun pairs => str "\x7b" ++ pairs.flatten ++ str "\x7d\n")

/-- `write_output_txt(out, fields, schema, field_count, type)`: the bytes written, `none`
when an unassigned pointer is read. -/
def write_output_txt (fields : Nat → Option (List Nat)) (schema : Nat → FieldSchema)
    (field_count : Nat) (type : DatasetType) : Option (List Nat) :=
  match type with
  | .TYPE_SENTIMENT =>
    (fields 0).bind (fun f0 => (fields 1).map (fun f1 =>
      str "Text: " ++ cstr f0 ++ str "\nSentiment: " ++ cstr f1 ++ str "\n---\n"))
  | .TYPE_LEETCODE =>
    (fields 0).bind (fun f0 => (fields 1).bind (fun f1 => (fields 2).map (fun f2 =>
      str "Problem: " ++ cstr f0 ++ str "\nDifficulty: " ++ cstr f1 ++ str "\nDescription: "
        ++ cstr f2 ++ str "\n---\n")))
  | .TYPE_QA =>
    (fields 0).bind (fun f0 => (fields 1).map (fun f1 =>
      str "Question: " ++ cstr f0 ++ str "\nAnswer: " ++ cstr f1 ++ str "\n---\n"))
  | .TYPE_CLASSIFICATION =>
    (fields 0).bind (fun f0 => (fields 1).map (fun f1 =>
      str "Text: " ++ cstr f0 ++ str "\nCategory: " ++ cstr f1 ++ str "\n---\n"))
  | _ =>
    ((List.range field_count).mapM (fun i => (fields i).map (fun v =>
      cstr (schema i).name ++ str ": " ++ cstr v ++ str "\n"))).map
      (fun rows => rows.flatten ++ str "---\n")

/-- The output block of the loop body: `strcmp(config->output_format, "json") == 0`
selects the JSON writer, anything else the text writer. -/
def write_record (config : ProcessingConfig) (fields : List (List Nat)) (ptrs : Nat)
    (field_count : Nat) : Option (List Nat) :=
  if cstr config.output_format = str "json" then
    write_output_json (field_ptr fields ptrs) (schema_at config) field_count
  else
    write_output_txt (field_ptr fields ptrs) (schema_at config) field_count config.type

/-! ## Orchestrator: the loop of `process_file_enhanced` -/

/-- `line[strcspn(line, "\r\n")] = '\0'`: the line up to its first CR or LF. -/
def strip_newline (line : List Nat) : List Nat :=
  (cstr line).takeWhile (fun c => c != 13 && c != 10)

/-- The loop "clean and validate fields", started at index `i` with `n` iterations left
(`n` is what remains of `min(field_count, config->field_count)`).  Result: the rows of
`fields`, the number of leading entries of `field_ptrs` assigned by this loop, and
whether the loop ended without `valid = false; break`. -/
def clean_loop (config : ProcessingConfig) :
    Nat → Nat → List (List Nat) → List (List Nat) × Nat × Bool
  | 0, i, fields => (fields, i, true)
  | n + 1, i, fields =>
    let cleaned := clean_text (fields.getD i []) MAX_LINE_LENGTH config.strict_mode
    let fields1 := fields.set i cleaned
    if config.validate_data = true ∧ validate_field cleaned (schema_at config i) = false then
      (fields1, i + 1, false)
    else clean_loop config n (i + 1) fields1

/-- `alloc_size`, the capacity of the hash table. -/
def alloc_size (config : ProcessingConfig) : Int :=
  if config.max_lines > 0 then config.max_lines else 100000

/-- The loop body of `process_file_enhanced` from "validate minimum field count" on:
`parsed` are the rows `parse_csv_line` has just written (`field_count` is their number)
and `st.stats` already counts the line in `total_lines`.  `none` is undefined behaviour:
the serializer read an entry of `field_ptrs` that was never assigned.  Output to `stdout`
(the progress report) is not modelled, and the `calloc` of the hash table is taken to
succeed. -/
def process_record (config : ProcessingConfig) (st : RunState) (parsed : List (List Nat)) :
    Option RunState :=
  let field_count := parsed.length
  let fields0 := parsed ++ st.fields.drop field_count
  let short : Bool := decide ((field_count : Int) < config.field_count)
  let stats1 :=
    if short then { st.stats with error_lines := st.stats.error_lines + 1 } else st.stats
  if short = true ∧ config.strict_mode = true then
    some { st with stats := stats1, fields := fields0 }
  else
    let r := clean_loop config (min field_count config.field_count.toNat) 0 fields0
    let fields1 := r.1
    let ptrs1 := max st.ptrs r.2.1
    let valid : Bool := !short && r.2.2
    let stats2 := if valid then stats1 else { stats1 with error_lines := stats1.error_lines + 1 }
    if valid = false ∧ config.strict_mode = true then
      some { st with stats := stats2, fields := fields1, ptrs := ptrs1 }
    else
      let dup :=
        if config.remove_duplicates = true ∧ field_count > 0 then
          is_duplicate (fields1.getD 0 []) st.seen_hashes (alloc_size config)
        else (false, st.seen_hashes)
      if dup.1 = true then
        some { stats := { stats2 with duplicate_lines := stats2.duplicate_lines + 1 },
               fields := fields1, ptrs := ptrs1, seen_hashes := dup.2, out := st.out }
      else
        (write_record config fields1 ptrs1 field_count).map (fun unit =>
          { stats := { stats2 with
                        processed_lines := stats2.processed_lines + 1,
                        avg_text_length :=
                          stats2.avg_text_length + (cstr (fields1.getD 0 [])).length },
            fields := fields1, ptrs := ptrs1, seen_hashes := dup.2,
            out := st.out ++ [unit] })

/-- One iteration of the `while` loop of `process_file_enhanced` on the line `fgets`
returned (the loop condition is in `stream`): count the line, cut it at its first CR or
LF, skip it when empty, else tokenize it and run the rest of the body. -/
def process_line (config : ProcessingConfig) (st : RunState) (raw : List Nat) :
    Option RunState :=
  let st0 := { st with stats := { st.stats with total_lines := st.stats.total_lines + 1 } }
  let line := strip_newline raw
  if line.length = 0 then some st0
  else process_record config st0 (parse_csv_line line MAX_FIELDS config.delimiter)

/-- The loop condition evaluated after a successful `fgets`. -/
def may_process (config : ProcessingConfig) (st : RunState) : Bool :=
  decide (config.max_lines = 0 ∨ (st.stats.processed_lines : Int) < config.max_lines)

/-- The `while` loop over the lines `fgets` returns: the state when the loop is left,
`none` when an iteration is undefined. -/
def stream (config : ProcessingConfig) : List (List Nat) → RunState → Option RunState
  | [], st => some st
  | raw :: rest, st =>
    if may_process config st then (process_line config st raw).bind (stream config rest)
    else some st

/-- The states the `while` loop goes through: the state at each evaluation of the loop
condition, from the first on, up to the exit of the loop or the first undefined
iteration. -/
def stream_states (config : ProcessingConfig) : List (List Nat) → RunState → List RunState
  | [], st => [st]
  | raw :: rest, st =>
    if may_process config st then
      match process_line config st raw with
      | none => [st]
      | some st1 => st :: stream_states config rest st1
    else [st]

/-- The state at the start of `process_file_enhanced`: zeroed statistics (as `main`
passes them), nothing written to `fields`, `field_ptrs`, the hash table or the output. -/
def initial_state : RunState :=
  { stats := { total_lines := 0, processed_lines := 0, skipped_lines := 0, error_lines := 0,
               duplicate_lines := 0, avg_text_length := 0 },
    fields := [], ptrs := 0, seen_hashes := [], out := [] }

/-- The part of `process_file_enhanced` after both files are open and encoding and
delimiter are decided, on the list of lines `fgets` returns and from the state `st`: skip
`skip_lines` lines, read the header (counted in `total_lines`), run the `while` loop. -/
def process_lines (config : ProcessingConfig) (st : RunState) (input : List (List Nat)) :
    Option RunState :=
  let rest := input.drop config.skip_lines.toNat
  match config.has_header, rest with
  | true, _ :: data =>
    stream config data { st with stats := { st.stats with total_lines := st.stats.total_lines + 1 } }
  | _, _ => stream config rest st

/-- Rounding to the nearest integer, a tie going to the even one. -/
def round_half_even (x : ℚ) : ℤ :=
  if x - ⌊x⌋ < 1 / 2 then ⌊x⌋
  else if 1 / 2 < x - ⌊x⌋ then ⌊x⌋ + 1
  else if ⌊x⌋ % 2 = 0 then ⌊x⌋ else ⌊x⌋ + 1

/-- The two schema entries `setup_sentiment_config` fills in. -/
def sentiment_schema : List FieldSchema :=
  [{ zero_schema with name := str "text", index := 0, required := true,
                      min_length := MIN_TEXT_LENGTH },
   { zero_schema with name := str "sentiment", index := 1, required := true, is_label := true }]

/-- The configuration `main` builds for `--type sentiment` with a comma delimiter. -/
def sentiment_config : ProcessingConfig :=
  { type := .TYPE_SENTIMENT, delimiter := 44, has_header := true, strict_mode := false,
    remove_duplicates := false, validate_data := false, max_lines := 0, skip_lines := 0,
    fields := sentiment_schema, field_count := 2, output_format := str "txt" }

/-! ## Example configurations and states -/

/-- The sentiment preset with duplicate removal. -/
def dedup_config : ProcessingConfig := { sentiment_config with remove_duplicates := true }

/-- The state after the line `Great stuff! ,positive` from the initial state. -/
def after_first_line : RunState :=
  { stats := { total_lines := 1, processed_lines := 1, skipped_lines := 0, error_lines := 0,
               duplicate_lines := 0, avg_text_length := 12 },
    fields := [str "Great stuff!", str "positive"], ptrs := 2,
    seen_hashes := [hash_string (str "Great stuff!")],
    out := [str "Text: Great stuff!\nSentiment: positive\n---\n"] }

/-- The sentiment preset without header and with `max_lines = 2`. -/
def capped_config : ProcessingConfig :=
  { sentiment_config with has_header := false, max_lines := 2 }

/-! ## The record of one line, as the loop body computes it -/

/-- The fields the tokenizer returns for a line as `fgets` returned it. -/
def line_tokens (config : ProcessingConfig) (raw : List Nat) : List (List Nat) :=
  parse_csv_line (strip_newline raw) MAX_FIELDS config.delimiter

/-- The loop "clean and validate fields" on the rows the tokenizer wrote. -/
def record_loop (config : ProcessingConfig) (parsed : List (List Nat)) :
    List (List Nat) × Nat × Bool :=
  clean_loop config (min parsed.length config.field_count.toNat) 0 parsed

/-- The value of `valid` after the loop. -/
def record_valid (config : ProcessingConfig) (parsed : List (List Nat)) : Bool :=
  !decide ((parsed.length : Int) < config.field_count) && (record_loop config parsed).2.2

/-- Row 0 of `fields` when the duplicate check runs: the cleaned primary field. -/
def primary_field (config : ProcessingConfig) (parsed : List (List Nat)) : List Nat :=
  (record_loop config parsed).1.getD 0 []

/-- A record fails validation: the tokenizer produced fewer fields than declared, or
`validate_data` is on and some declared field of the record fails `validate_field` on its
cleaned text. -/
def record_fails (config : ProcessingConfig) (parsed : List (List Nat)) : Prop :=
  (parsed.length : Int) < config.field_count ∨
    (config.validate_data = true ∧ ∃ i : Nat, i < parsed.length ∧
      (i : Int) < config.field_count ∧
      validate_field (clean_text (parsed.getD i []) MAX_LINE_LENGTH config.strict_mode)
        (schema_at config i) = false)

/-- The table after the duplicate check of a record that is not a duplicate. -/
def seen_after (config : ProcessingConfig) (st : RunState) (parsed : List (List Nat)) :
    List Nat :=
  if config.remove_duplicates = true ∧ 0 < parsed.length ∧
      (st.seen_hashes.length : Int) < alloc_size config then
    st.seen_hashes ++ [hash_string (primary_field config parsed)]
  else st.seen_hashes

/-- The number of times the loop body counts an error for a record: once for a field
shortfall and once more when `valid` is false after the loop. -/
def record_errors (config : ProcessingConfig) (parsed : List (List Nat)) : Nat :=
  (if (parsed.length : Int) < config.field_count then 1 else 0) +
    (if record_valid config parsed = true then 0 else 1)

/-- A line survives validation: it is not empty once the line terminator is cut, and in
strict mode its record is valid. -/
def survives (config : ProcessingConfig) (raw : List Nat) : Prop :=
  strip_newline raw ≠ [] ∧
    ¬ (record_valid config (line_tokens config raw) = false ∧ config.strict_mode = true)

/-- The loop body run on a list of lines in turn, without the loop condition. -/
def process_all (config : ProcessingConfig) : List (List Nat) → RunState → Option RunState
  | [], st => some st
  | raw :: rest, st => (process_line config st raw).bind (process_all config rest)

/-! ## Written form of a record (the quoting convention the tokenizer reads) -/

/-- The body of a double-quoted field: every double quote doubled. -/
def csv_escape : List Nat → List Nat
  | [] => []
  | c :: f => if c = 34 then 34 :: 34 :: csv_escape f else c :: csv_escape f

/-- A field as written on a line: bare, or (flag set) wrapped in double quotes. -/
def csv_write (w : List Nat × Bool) : List Nat :=
  if w.2 then 34 :: (csv_escape w.1 ++ [34]) else w.1

/-- The written fields joined with the delimiter. -/
def csv_join (d : Nat) : List (List Nat × Bool) → List Nat
  | [] => []
  | [w] => csv_write w
  | w :: w1 :: ws => csv_write w ++ d :: csv_join d (w1 :: ws)

/-- The admissible written fields of the round trip: NUL-free, at most 8191 bytes, and
bare only without delimiter, double quote and single quote. -/
abbrev field_ok (d : Nat) (w : List Nat × Bool) : Prop :=
  0 ∉ w.1 ∧ w.1.length ≤ 8191 ∧ (w.2 = false → d ∉ w.1 ∧ 34 ∉ w.1 ∧ 39 ∉ w.1)

/-- Replace every single quote by a double quote. -/
def to_double (c : Nat) : Nat := if c = 39 then 34 else c

/-- Replace every double quote by a single quote. -/
def to_single (c : Nat) : Nat := if c = 34 then 39 else c

/-! ## Shape of a normalized text -/

/-- Whitespace-normal form: every byte is at least 32, no two spaces are adjacent, and
the text begins with a space only when `sp` is set. -/
def ws_ok : List Nat → Bool → Bool
  | [], _ => true
  | c :: z, sp => decide (32 ≤ c) && (if c = 32 then sp && ws_ok z false else ws_ok z true)

/-- No run of punctuation is longer than three, the text continuing a run of `n`. -/
def punct_ok : List Nat → Nat → Bool
  | [], _ => true
  | c :: z, n => if ispunct c then decide (n + 1 ≤ 3) && punct_ok z (n + 1) else punct_ok z 0

/-- What `clean_text` guarantees of a non-empty result. -/
def clean_shape (y : List Nat) (max_len : Nat) (strict : Bool) : Prop :=
  y = [] ∨ (MIN_TEXT_LENGTH ≤ y.length ∧ y.length < max_len ∧ ws_ok y false = true ∧ 60 ∉ y ∧
    (strict = true → punct_ok y 0 = true))

/-- ASCII letters. -/
def is_ascii_letter (c : Nat) : Bool := (65 ≤ c && c ≤ 90) || (97 ≤ c && c ≤ 122)

/-- ASCII letters and digits. -/
def is_ascii_alnum (c : Nat) : Bool := is_ascii_letter c || (48 ≤ c && c ≤ 57)

/-- The sentiment preset with JSON output. -/
def json_config : ProcessingConfig := { sentiment_config with output_format := str "json" }

/-- The rows of `fields` after the clean loop of a record: the rows of the record as the
loop left them, then the rows earlier lines wrote beyond the record. -/
def rows_after (config : ProcessingConfig) (st : RunState) (parsed : List (List Nat)) :
    List (List Nat) :=
  (record_loop config parsed).1 ++ st.fields.drop parsed.length

/-- The number of assigned entries of `field_ptrs` after the clean loop of a record. -/
def ptrs_after (config : ProcessingConfig) (st : RunState) (parsed : List (List Nat)) : Nat :=
  max st.ptrs (record_loop config parsed).2.1

/-- The duplicate check finds the hash of the primary field in the table. -/
def is_repeat (config : ProcessingConfig) (st : RunState) (parsed : List (List Nat)) : Prop :=
  config.remove_duplicates = true ∧ 0 < parsed.length ∧
    hash_string (primary_field config parsed) ∈ st.seen_hashes

/-- A line is processed (serialized) from the state `st`: it is not empty once cut at its
line terminator, it survives validation, and its primary field is not a recorded
duplicate. -/
def line_emitted (config : ProcessingConfig) (st : RunState) (raw : List Nat) : Bool :=
  decide (strip_newline raw ≠ [] ∧
    ¬ (record_valid config (line_tokens config raw) = false ∧ config.strict_mode = true) ∧
    ¬ (config.remove_duplicates = true ∧ 0 < (line_tokens config raw).length ∧
      hash_string (primary_field config (line_tokens config raw)) ∈ st.seen_hashes))

/-- The lengths of field 0 of the records the streaming loop processes, in order. -/
def processed_lengths (config : ProcessingConfig) : List (List Nat) → RunState → List Nat
  | [], _ => []
  | raw :: rest, st =>
    if may_process config st then
      match process_line config st raw with
      | none => []
      | some st1 =>
        (if line_emitted config st raw then
          [(cstr (primary_field config (line_tokens config raw))).length] else []) ++
          processed_lengths config rest st1
    else []

/-- The sentiment preset without header line. -/
def headerless_config : ProcessingConfig := { sentiment_config with has_header := false }

/-- The tokenizer state machine as the specification words it, without any bound: two
states (Unquoted, Quoted), quote character `q`, delimiter `d`.  In Quoted state two
consecutive quote characters append one quote and stay Quoted, a lone quote toggles; in
Unquoted state the delimiter ends the field, a quote toggles, any other byte is appended;
the end of the line flushes the current field.  `inq` is the state, `buf` the current
field. -/
def tokenize_unbounded (q d : Nat) : List Nat → Bool → List Nat → List (List Nat)
  | [], _, buf => [buf]
  | [c], inq, buf =>
    if c = q then tokenize_unbounded q d [] (!inq) buf
    else if c = d ∧ inq = false then buf :: tokenize_unbounded q d [] inq []
    else tokenize_unbounded q d [] inq (buf ++ [c])
  | c :: c1 :: rest, inq, buf =>
    if c = q then
      if inq = true ∧ c1 = q then tokenize_unbounded q d rest inq (buf ++ [q])
      else tokenize_unbounded q d (c1 :: rest) (!inq) buf
    else if c = d ∧ inq = false then buf :: tokenize_unbounded q d (c1 :: rest) inq []
    else tokenize_unbounded q d (c1 :: rest) inq (buf ++ [c])

/-- The sentiment preset without header line, in strict mode. -/
def strict_config : ProcessingConfig := { headerless_config with strict_mode := true }

/-- The sentiment preset without header line, with validation on (non-strict mode). -/
def validating_config : ProcessingConfig := { headerless_config with validate_data := true }


theorem cstr_nil : cstr [] = [] := rfl

theorem cstr_cons_zero (l : List Nat) : cstr (0 :: l) = [] := by
  simp [cstr]

theorem cstr_cons_ne (c : Nat) (l : List Nat) (h : c ≠ 0) : cstr (c :: l) = c :: cstr l := by
  simp [cstr, h]

theorem cstr_eq_self (l : List Nat) (h : 0 ∉ l) : cstr l = l := by
  induction l with
  | nil => rfl
  | cons c l ih =>
    simp only [List.mem_cons, not_or] at h
    rw [cstr_cons_ne c l (Ne.symm h.1), ih h.2]

theorem cstr_append_zero (l r : List Nat) (h : 0 ∉ l) : cstr (l ++ 0 :: r) = l := by
  induction l with
  | nil => simp [cstr]
  | cons c l ih =>
    simp only [List.mem_cons, not_or] at h
    rw [List.cons_append, cstr_cons_ne c _ (Ne.symm h.1), ih h.2]

theorem zero_not_mem_cstr (l : List Nat) : 0 ∉ cstr l := by
  induction l with
  | nil => simp [cstr]
  | cons c l ih =>
    by_cases h : c = 0
    · subst h; simp [cstr]
    · rw [cstr_cons_ne c l h]
      simp only [List.mem_cons, not_or]
      exact ⟨Ne.symm h, ih⟩

theorem cstr_idem (l : List Nat) : cstr (cstr l) = cstr l :=
  cstr_eq_self _ (zero_not_mem_cstr l)

/-! ## Lemmas: the tokenizer loop -/

/-- One iteration of the loop of `parse_csv_line`, whatever follows the current byte. -/
theorem parse_loop_cons (q d m c : Nat) (ptr : List Nat) (acc : List (List Nat)) (inq : Bool)
    (b : List Nat) :
    parse_loop q d m (c :: ptr) acc inq b =
      if c = 0 ∨ ¬ acc.length < m then parse_finish m acc b
      else if c = q then
        if inq = true ∧ ptr.head? = some q then parse_loop q d m ptr.tail acc inq (buf_push b q)
        else parse_loop q d m ptr acc (!inq) b
      else if c = d ∧ inq = false then
        parse_loop q d m ptr (acc ++ [safe_strcpy [] (b ++ [0]) MAX_LINE_LENGTH]) inq []
      else parse_loop q d m ptr acc inq (buf_push b c) := by
  cases ptr with
  | nil => simp [parse_loop]
  | cons c1 ptr => simp [parse_loop]

theorem parse_loop_nil (q d m : Nat) (acc : List (List Nat)) (inq : Bool) (b : List Nat) :
    parse_loop q d m [] acc inq b = parse_finish m acc b := by
  simp [parse_loop]

theorem buf_push_of_lt (b : List Nat) (c : Nat) (h : b.length < 8191) :
    buf_push b c = b ++ [c] := by
  simp [buf_push, MAX_LINE_LENGTH, h]

theorem flush_eq (b : List Nat) (h0 : 0 ∉ b) (hl : b.length ≤ 8191) :
    safe_strcpy [] (b ++ [0]) MAX_LINE_LENGTH = b := by
  simp only [safe_strcpy, MAX_LINE_LENGTH, cstr_append_zero b [] h0]
  simp only [Nat.reduceEqDiff, ↓reduceIte, Nat.add_one_sub_one]
  exact List.take_of_length_le hl

theorem parse_finish_eq (m : Nat) (acc : List (List Nat)) (b : List Nat) (hacc : acc.length < m)
    (h0 : 0 ∉ b) (hl : b.length ≤ 8191) : parse_finish m acc b = acc ++ [b] := by
  simp [parse_finish, hacc, flush_eq b h0 hl]

/-- A run of bytes that are neither NUL, quote nor delimiter is appended to the buffer. -/
theorem parse_loop_bare (q d m : Nat) (rest : List Nat) (acc : List (List Nat))
    (hacc : acc.length < m) :
    ∀ (f b : List Nat), (∀ c ∈ f, c ≠ 0 ∧ c ≠ q ∧ c ≠ d) → (b ++ f).length ≤ 8191 →
      parse_loop q d m (f ++ rest) acc false b = parse_loop q d m rest acc false (b ++ f) := by
  intro f
  induction f with
  | nil => intro b _ _; simp
  | cons c f ih =>
    intro b hf hl
    have hc := hf c (List.mem_cons_self c f)
    have hb : b.length < 8191 := by
      simp only [List.length_append, List.length_cons] at hl; omega
    rw [List.cons_append, parse_loop_cons]
    simp only [hc.1, hacc, not_true_eq_false, or_self, ↓reduceIte, hc.2.1, hc.2.2, false_and]
    rw [buf_push_of_lt b c hb, ih (b ++ [c]) (fun x hx => hf x (List.mem_cons_of_mem c hx))
      (by simpa using hl)]
    simp

/-- Inside double quotes: the escaped body and the closing quote restore the field. -/
theorem parse_loop_quoted (d m : Nat) (rest : List Nat) (acc : List (List Nat))
    (hacc : acc.length < m) (hrest : rest.head? ≠ some 34) :
    ∀ (f b : List Nat), 0 ∉ f → (b ++ f).length ≤ 8191 →
      parse_loop 34 d m (csv_escape f ++ 34 :: rest) acc true b =
        parse_loop 34 d m rest acc false (b ++ f) := by
  intro f
  induction f with
  | nil =>
    intro b _ _
    simp only [csv_escape, List.nil_append, List.append_nil]
    rw [parse_loop_cons]
    simp [hacc, hrest]
  | cons c f ih =>
    intro b hf hl
    simp only [List.mem_cons, not_or] at hf
    have hb : b.length < 8191 := by
      simp only [List.length_append, List.length_cons] at hl; omega
    have hl2 : (b ++ [c] ++ f).length ≤ 8191 := by simpa using hl
    by_cases hc : c = 34
    · subst hc
      simp only [csv_escape, ↓reduceIte, List.cons_append]
      rw [parse_loop_cons]
      simp only [OfNat.ofNat_ne_zero, hacc, not_true_eq_false, or_self, ↓reduceIte,
        List.head?_cons, and_self, List.tail_cons]
      rw [buf_push_of_lt b 34 hb, ih (b ++ [34]) hf.2 hl2]
      simp
    · simp only [csv_escape, hc, ↓reduceIte, List.cons_append]
      rw [parse_loop_cons]
      simp only [Ne.symm hf.1, hacc, not_true_eq_false, or_self, ↓reduceIte, hc,
        Bool.true_eq_false, and_false]
      rw [buf_push_of_lt b c hb, ih (b ++ [c]) hf.2 hl2]
      simp

theorem parse_loop_field (d m : Nat) (rest : List Nat) (acc : List (List Nat))
    (hacc : acc.length < m) (hrest : rest.head? ≠ some 34) (w : List Nat × Bool)
    (hw : field_ok d w) :
    parse_loop 34 d m (csv_write w ++ rest) acc false [] = parse_loop 34 d m rest acc false w.1 := by
  obtain ⟨f, quoted⟩ := w
  obtain ⟨h0, hl, hbare⟩ := hw
  cases quoted with
  | true =>
    simp only [csv_write, ↓reduceIte, List.cons_append, List.append_assoc, List.singleton_append,
      List.nil_append]
    rw [parse_loop_cons]
    simp only [OfNat.ofNat_ne_zero, hacc, not_true_eq_false, or_self, ↓reduceIte,
      Bool.false_eq_true, false_and, Bool.not_false]
    rw [parse_loop_quoted d m rest acc hacc hrest f [] h0 (by simpa using hl)]
    simp
  | false =>
    simp only [csv_write, Bool.false_eq_true, ↓reduceIte]
    have hb := hbare rfl
    rw [parse_loop_bare 34 d m rest acc hacc f [] ?_ (by simpa using hl)]
    · simp
    · intro c hc
      refine ⟨?_, ?_, ?_⟩
      · rintro rfl; exact h0 hc
      · rintro rfl; exact hb.2.1 hc
      · rintro rfl; exact hb.1 hc

theorem parse_loop_join (d m : Nat) (hd34 : d ≠ 34) (hd0 : d ≠ 0) :
    ∀ (ws : List (List Nat × Bool)) (acc : List (List Nat)), ws ≠ [] →
      acc.length + ws.length ≤ m → (∀ w ∈ ws, field_ok d w) →
      parse_loop 34 d m (csv_join d ws) acc false [] = acc ++ ws.map Prod.fst := by
  intro ws
  induction ws with
  | nil => intro acc h; exact absurd rfl h
  | cons w ws ih =>
    intro acc _ hlen hok
    have hw := hok w (List.mem_cons_self w ws)
    have hacc : acc.length < m := by simp only [List.length_cons] at hlen; omega
    cases ws with
    | nil =>
      have h := parse_loop_field d m [] acc hacc (by simp) w hw
      simp only [List.append_nil] at h
      simp only [csv_join, List.map_cons, List.map_nil]
      rw [h, parse_loop_nil, parse_finish_eq m acc w.1 hacc hw.1 hw.2.1]
    | cons w1 ws =>
      simp only [csv_join, List.map_cons]
      rw [parse_loop_field d m _ acc hacc (by simp [hd34]) w hw, parse_loop_cons]
      simp only [hd0, hacc, not_true_eq_false, or_self, ↓reduceIte, hd34, and_self]
      rw [flush_eq w.1 hw.1 hw.2.1]
      have hlen2 : (acc ++ [w.1]).length + (w1 :: ws).length ≤ m := by
        simp only [List.length_append, List.length_cons, List.length_nil] at hlen ⊢
        omega
      rw [ih (acc ++ [w.1]) (by simp) hlen2 (fun x hx => hok x (List.mem_cons_of_mem w hx))]
      simp

theorem mem_csv_escape (c : Nat) : ∀ (f : List Nat), c ∈ csv_escape f → c ∈ f ∨ c = 34 := by
  intro f
  induction f with
  | nil => simp [csv_escape]
  | cons a f ih =>
    intro h
    by_cases ha : a = 34
    · subst ha
      simp only [csv_escape, ↓reduceIte, List.mem_cons] at h
      rcases h with h | h | h
      · exact Or.inr h
      · exact Or.inr h
      · rcases ih h with h | h
        · exact Or.inl (List.mem_cons_of_mem _ h)
        · exact Or.inr h
    · simp only [csv_escape, ha, ↓reduceIte, List.mem_cons] at h
      rcases h with h | h
      · exact Or.inl (by simp [h])
      · rcases ih h with h | h
        · exact Or.inl (List.mem_cons_of_mem _ h)
        · exact Or.inr h

theorem mem_csv_write (c : Nat) (w : List Nat × Bool) (h : c ∈ csv_write w) :
    c ∈ w.1 ∨ (c = 34 ∧ w.2 = true) := by
  obtain ⟨f, quoted⟩ := w
  cases quoted with
  | false => simp only [csv_write, Bool.false_eq_true, ↓reduceIte] at h; exact Or.inl h
  | true =>
    simp only [csv_write, ↓reduceIte, List.mem_cons, List.mem_append, List.mem_singleton,
      List.not_mem_nil, or_false] at h
    rcases h with h | h | h
    · exact Or.inr ⟨h, rfl⟩
    · rcases mem_csv_escape c f h with h | h
      · exact Or.inl h
      · exact Or.inr ⟨h, rfl⟩
    · exact Or.inr ⟨h, rfl⟩

theorem quote_mem_csv_write (w : List Nat × Bool) (h : w.2 = true) : 34 ∈ csv_write w := by
  simp [csv_write, h]

theorem mem_csv_join (d c : Nat) : ∀ (ws : List (List Nat × Bool)),
    c ∈ csv_join d ws ↔ (∃ w ∈ ws, c ∈ csv_write w) ∨ (c = d ∧ 2 ≤ ws.length) := by
  intro ws
  induction ws with
  | nil => simp [csv_join]
  | cons w ws ih =>
    cases ws with
    | nil => simp [csv_join]
    | cons w1 ws =>
      simp only [csv_join, List.mem_append, List.mem_cons, ih]
      simp only [List.mem_cons, exists_eq_or_imp, List.length_cons]
      constructor
      · rintro (h | h | h | h)
        · exact Or.inl (Or.inl h)
        · exact Or.inr ⟨h, by omega⟩
        · exact Or.inl (Or.inr h)
        · exact Or.inr ⟨h.1, by omega⟩
      · rintro ((h | h) | h)
        · exact Or.inl h
        · exact Or.inr (Or.inr (Or.inl h))
        · exact Or.inr (Or.inl h.1)

theorem select_quote_join (d : Nat) (ws : List (List Nat × Bool)) (hd0 : d = 0 → ws.length = 1)
    (hq : d = 39 → 39 ∈ csv_join d ws → 34 ∈ csv_join d ws)
    (hok : ∀ w ∈ ws, field_ok d w) :
    cstr (csv_join d ws) = csv_join d ws ∧ select_quote (csv_join d ws) = 34 := by
  have h0 : 0 ∉ csv_join d ws := by
    rw [mem_csv_join]
    rintro (⟨w, hw, hc⟩ | ⟨h, h2⟩)
    · rcases mem_csv_write 0 w hc with h | h
      · exact (hok w hw).1 h
      · exact absurd h.1 (by decide)
    · have := hd0 h.symm
      omega
  have hc := cstr_eq_self _ h0
  refine ⟨hc, ?_⟩
  unfold select_quote
  rw [hc]
  by_cases h39 : 39 ∈ csv_join d ws
  · have h34 : 34 ∈ csv_join d ws := by
      by_cases hd : d = 39
      · exact hq hd h39
      · rcases (mem_csv_join d 39 ws).1 h39 with ⟨w, hw, hcw⟩ | ⟨h, _⟩
        · rcases mem_csv_write 39 w hcw with h | h
          · have hquoted : w.2 = true := by
              by_contra hb
              have hb2 : w.2 = false := by simpa using hb
              exact ((hok w hw).2.2 hb2).2.2 h
            exact (mem_csv_join d 34 ws).2 (Or.inl ⟨w, hw, quote_mem_csv_write w hquoted⟩)
          · exact absurd h.1 (by decide)
        · exact absurd h.symm hd
    simp [h34]
  · simp [h39]

theorem cstr_map (f : Nat → Nat) (hf : ∀ c, f c = 0 ↔ c = 0) (l : List Nat) :
    cstr (l.map f) = (cstr l).map f := by
  induction l with
  | nil => rfl
  | cons c l ih =>
    by_cases hc : c = 0
    · subst hc
      have : f 0 = 0 := (hf 0).2 rfl
      simp [cstr, this]
    · have hfc : f c ≠ 0 := fun h => hc ((hf c).1 h)
      rw [List.map_cons, cstr_cons_ne _ _ hfc, cstr_cons_ne _ _ hc, ih, List.map_cons]

theorem to_single_eq_zero (c : Nat) : to_single c = 0 ↔ c = 0 := by
  unfold to_single; split <;> omega

theorem to_double_eq_zero (c : Nat) : to_double c = 0 ↔ c = 0 := by
  unfold to_double; split <;> omega

theorem buf_push_map (f : Nat → Nat) (b : List Nat) (c : Nat) :
    (buf_push b c).map f = buf_push (b.map f) (f c) := by
  unfold buf_push
  by_cases h : b.length < MAX_LINE_LENGTH - 1 <;> simp [h]

theorem safe_strcpy_map (f : Nat → Nat) (hf : ∀ c, f c = 0 ↔ c = 0) (b : List Nat) (n : Nat) :
    (safe_strcpy [] (b ++ [0]) n).map f = safe_strcpy [] (b.map f ++ [0]) n := by
  have h0 : f 0 = 0 := (hf 0).2 rfl
  have : b.map f ++ [0] = (b ++ [0]).map f := by simp [h0]
  unfold safe_strcpy
  split
  · rfl
  · rw [this, cstr_map f hf, List.map_take]

theorem parse_finish_map (f : Nat → Nat) (hf : ∀ c, f c = 0 ↔ c = 0) (m : Nat)
    (acc : List (List Nat)) (b : List Nat) :
    (parse_finish m acc b).map (List.map f) = parse_finish m (acc.map (List.map f)) (b.map f) := by
  unfold parse_finish
  split
  · rename_i h
    simp [h, safe_strcpy_map f hf]
  · rename_i h
    simp [h]

/-- Tokenizing with the single quote as quote character is tokenizing the line whose
single quotes are turned into double quotes, up to the same renaming in the fields. -/
theorem parse_loop_to_single (d m : Nat) :
    ∀ (n : Nat) (L : List Nat), L.length ≤ n → 34 ∉ cstr L →
      ∀ (acc : List (List Nat)) (inq : Bool) (b : List Nat),
        (parse_loop 34 d m (L.map to_double) acc inq b).map (List.map to_single) =
          parse_loop 39 d m L (acc.map (List.map to_single)) inq (b.map to_single) := by
  intro n
  induction n with
  | zero =>
    intro L hL _ acc inq b
    have : L = [] := List.length_eq_zero.mp (Nat.le_zero.mp hL)
    subst this
    simp only [List.map_nil, parse_loop_nil]
    exact parse_finish_map to_single to_single_eq_zero m acc b
  | succ n ih =>
    intro L hL h34 acc inq b
    cases L with
    | nil =>
      simp only [List.map_nil, parse_loop_nil]
      exact parse_finish_map to_single to_single_eq_zero m acc b
    | cons c ptr =>
      have hptr : ptr.length ≤ n := by simp only [List.length_cons] at hL; omega
      rw [List.map_cons, parse_loop_cons, parse_loop_cons]
      by_cases hc0 : c = 0
      · subst hc0
        simp only [to_double, OfNat.zero_ne_ofNat, ↓reduceIte, true_or]
        exact parse_finish_map to_single to_single_eq_zero m acc b
      · rw [cstr_cons_ne c ptr hc0] at h34
        simp only [List.mem_cons, not_or] at h34
        have hc34 : c ≠ 34 := Ne.symm h34.1
        by_cases hm : acc.length < m
        · have hd0 : to_double c ≠ 0 := fun h => hc0 ((to_double_eq_zero c).1 h)
          simp only [hd0, hc0, List.length_map, hm, not_true_eq_false, or_self, ↓reduceIte]
          by_cases hc39 : c = 39
          · subst hc39
            simp only [to_double, ↓reduceIte]
            cases ptr with
            | nil =>
              simp only [List.map_nil, List.head?_nil, and_false, ↓reduceIte, reduceCtorEq]
              exact ih [] (by simp) (by simp [cstr]) acc (!inq) b
            | cons c1 ptr1 =>
              have hc1 : c1 ≠ 34 := by
                rintro rfl
                rw [cstr_cons_ne 34 ptr1 (by decide)] at h34
                exact h34.2 (List.mem_cons_self _ _)
              have hhead : (to_double c1 = 34) ↔ c1 = 39 := by
                unfold to_double
                split <;> simp_all
              simp only [List.map_cons, List.head?_cons, Option.some.injEq, hhead, List.tail_cons]
              by_cases hesc : inq = true ∧ c1 = 39
              · have h1 : 34 ∉ cstr ptr1 := by
                  have := h34.2
                  rw [hesc.2, cstr_cons_ne 39 ptr1 (by decide)] at this
                  simp only [List.mem_cons, not_or] at this
                  exact this.2
                have hp1 : ptr1.length ≤ n := by simp only [List.length_cons] at hptr; omega
                simp only [hesc, and_self, ↓reduceIte]
                have := ih ptr1 hp1 h1 acc true (buf_push b 34)
                rw [buf_push_map] at this
                simpa [to_single] using this
              · simp only [hesc, ↓reduceIte]
                have := ih (c1 :: ptr1) hptr h34.2 acc (!inq) b
                simpa using this
          · have hdc : to_double c = c := by simp [to_double, hc39]
            simp only [hdc, hc34, hc39, ↓reduceIte]
            by_cases hdel : c = d ∧ inq = false
            · simp only [hdel, and_self, ↓reduceIte]
              have := ih ptr hptr h34.2 (acc ++ [safe_strcpy [] (b ++ [0]) MAX_LINE_LENGTH]) false []
              simpa [safe_strcpy_map to_single to_single_eq_zero] using this
            · simp only [hdel, ↓reduceIte]
              have := ih ptr hptr h34.2 acc inq (buf_push b c)
              rw [buf_push_map] at this
              simpa [to_single, hc34] using this
        · simp only [List.length_map, hm, not_false_eq_true, or_true, ↓reduceIte]
          exact parse_finish_map to_single to_single_eq_zero m acc b

theorem select_quote_to_double (line : List Nat) : select_quote (line.map to_double) = 34 := by
  unfold select_quote
  rw [cstr_map to_double to_double_eq_zero]
  have : 39 ∉ (cstr line).map to_double := by
    simp only [List.mem_map, not_exists, not_and]
    intro c _
    unfold to_double
    split <;> omega
  simp [this]

/-! ## C1: tokenizer quoting round trip -/

/-- C1 (as stated, refuted): with the single quote as delimiter, the bare fields `a` and
`b` are written `a'b`; the line holds a single quote and no double quote, so the single
quote is taken as the quote character and the tokenizer returns the one field `ab`.
With the NUL byte as delimiter the joined line ends, as a C string, after the first
field, and the tokenizer returns the one field `a`. -/
theorem parse_csv_line_roundtrip_fails :
    ((39 : Nat) ≠ 34 ∧ (∀ w ∈ [(str "a", false), (str "b", false)], field_ok 39 w) ∧
      csv_join 39 [(str "a", false), (str "b", false)] = str "a'b" ∧
      parse_csv_line (str "a'b") 32 39 = [str "ab"] ∧
      parse_csv_line (str "a'b") 32 39 ≠ [str "a", str "b"]) ∧
    ((0 : Nat) ≠ 34 ∧ (∀ w ∈ [(str "a", false), (str "b", false)], field_ok 0 w) ∧
      parse_csv_line (csv_join 0 [(str "a", false), (str "b", false)]) 32 0 = [str "a"]) := by
  decide

/-- C1 (amended): for every delimiter `d` other than the double quote, and every list of
1 to 32 NUL-free fields of at most 8191 bytes, each written bare (only when free of `d`,
double quote and single quote) or double-quoted with inner double quotes doubled,
tokenizing the fields joined with `d` returns exactly the fields, in order, provided that
when `d` is the NUL byte there is a single field, and when `d` is the single quote the
joined line holds a double quote or no single quote. -/
theorem parse_csv_line_roundtrip (d : Nat) (ws : List (List Nat × Bool))
    (hd34 : d ≠ 34) (hd0 : d = 0 → ws.length = 1)
    (hq : d = 39 → 39 ∈ csv_join d ws → 34 ∈ csv_join d ws)
    (hlen : 1 ≤ ws.length ∧ ws.length ≤ 32)
    (hok : ∀ w ∈ ws, field_ok d w) :
    parse_csv_line (csv_join d ws) 32 d = ws.map Prod.fst := by
  have hsel := select_quote_join d ws hd0 hq hok
  have hne : ws ≠ [] := by
    rintro rfl
    simp at hlen
  unfold parse_csv_line
  rw [hsel.2]
  by_cases h0 : d = 0
  · obtain ⟨w, rfl⟩ := List.length_eq_one.1 (hd0 h0)
    have hw := hok w (List.mem_singleton_self w)
    have h := parse_loop_field d 32 [] [] (by decide) (by simp) w hw
    simp only [List.append_nil] at h
    simp only [csv_join, List.map_cons, List.map_nil]
    rw [h, parse_loop_nil, parse_finish_eq 32 [] w.1 (by decide) hw.1 hw.2.1]
    simp
  · rw [parse_loop_join d 32 hd34 h0 ws [] hne (by simpa using hlen.2) hok]
    simp

/-- C1 (witness): the line `a,"b,c",d` tokenized with `,` gives `a`, `b,c`, `d`. -/
theorem parse_csv_line_roundtrip_witness :
    csv_join 44 [(str "a", false), (str "b,c", true), (str "d", false)] = str "a,\"b,c\",d" ∧
      parse_csv_line (str "a,\"b,c\",d") 32 44 = [str "a", str "b,c", str "d"] :=
  ⟨by decide,
    parse_csv_line_roundtrip 44 [(str "a", false), (str "b,c", true), (str "d", false)]
      (by decide) (by decide) (by decide) (by decide) (by decide)⟩

/-! ## C2: quote-character selection -/

/-- C2: on a line with a single quote and no double quote the single quote is the quote
character: the fields are those of the line with every single quote turned into a double
quote, with the double quotes of the fields turned back into single quotes.  On every
other line the tokenizer runs its loop with the double quote as quote character, and in
that loop a single quote never opens or closes quotes: it is handled as any byte other
than the quote character (it ends the field when it is the delimiter outside quotes, and
is appended to the current field otherwise).  The line `a,'b''c',d` gives `a`, `b'c`,
`d`. -/
theorem parse_csv_line_quote_selection (m d : Nat) :
    (∀ line : List Nat, 39 ∈ cstr line → 34 ∉ cstr line →
      parse_csv_line line m d =
        (parse_csv_line (line.map to_double) m d).map (List.map to_single)) ∧
    (∀ line : List Nat, ¬ (39 ∈ cstr line ∧ 34 ∉ cstr line) →
      parse_csv_line line m d = parse_loop 34 d m line [] false []) ∧
    (∀ (ptr : List Nat) (acc : List (List Nat)) (inq : Bool) (b : List Nat),
      parse_loop 34 d m (39 :: ptr) acc inq b =
        if ¬ acc.length < m then parse_finish m acc b
        else if 39 = d ∧ inq = false then
          parse_loop 34 d m ptr (acc ++ [safe_strcpy [] (b ++ [0]) MAX_LINE_LENGTH]) inq []
        else parse_loop 34 d m ptr acc inq (buf_push b 39)) ∧
    parse_csv_line (str "a,'b''c',d") 32 44 = [str "a", str "b'c", str "d"] := by
  refine ⟨?_, ?_, ?_, by decide⟩
  · intro line h39 h34
    have hsel : select_quote line = 39 := by simp [select_quote, h39, h34]
    unfold parse_csv_line
    rw [hsel, select_quote_to_double]
    have := parse_loop_to_single d m line.length line le_rfl h34 [] false []
    simpa using this.symm
  · intro line h
    unfold parse_csv_line select_quote
    rw [if_neg h]
  · intro ptr acc inq b
    rw [parse_loop_cons]
    simp

/-- C2 (witness): the first part applied to the line `a,'b''c',d`. -/
theorem parse_csv_line_quote_selection_witness :
    parse_csv_line (str "a,'b''c',d") 32 44 =
      (parse_csv_line ((str "a,'b''c',d").map to_double) 32 44).map (List.map to_single) :=
  (parse_csv_line_quote_selection 32 44).1 (str "a,'b''c',d") (by decide) (by decide)

/-! ## Lemmas: the normalizer -/

theorem tolower_eq_zero (c : Nat) : tolower c = 0 ↔ c = 0 := by
  unfold tolower; split <;> omega

theorem strcasecmp_length (a : List Nat) : ∀ (b : List Nat), 0 ∉ a → 0 ∉ b →
    strcasecmp_portable a b = 0 → a.length = b.length := by
  induction a with
  | nil =>
    intro b _ hb h
    cases b with
    | nil => rfl
    | cons c b =>
      simp only [List.mem_cons, not_or] at hb
      have hc : tolower c ≠ 0 := fun h => hb.1 ((tolower_eq_zero c).1 h).symm
      have hz : tolower 0 = 0 := rfl
      simp only [strcasecmp_portable, List.headD_nil, List.headD_cons, hz] at h
      omega
  | cons c a ih =>
    intro b ha hb h
    simp only [List.mem_cons, not_or] at ha
    have hc : tolower c ≠ 0 := fun h => ha.1 ((tolower_eq_zero c).1 h).symm
    cases b with
    | nil =>
      have hz : tolower 0 = 0 := rfl
      simp only [strcasecmp_portable, List.headD_nil, List.headD_cons, hz] at h
      omega
    | cons c2 b =>
      simp only [List.mem_cons, not_or] at hb
      simp only [strcasecmp_portable, ne_eq, Ne.symm ha.1, not_false_eq_true,
        Ne.symm hb.1, and_self, ↓reduceIte, ite_not] at h
      split at h
      · simp only [List.length_cons, ih b ha.2 hb.2 h]
      · rename_i hne
        exfalso
        apply hne
        omega

theorem str_nul_free : 0 ∉ str "nan" ∧ 0 ∉ str "null" ∧ 0 ∉ str "n/a" := by decide

theorem is_null_marker_of_long (y : List Nat) (h0 : 0 ∉ y) (hl : 5 ≤ y.length) :
    is_null_marker y = false := by
  have h1 : strcasecmp_portable y (str "nan") ≠ 0 := fun h => by
    have := strcasecmp_length y _ h0 str_nul_free.1 h
    have h3 : (str "nan").length = 3 := by decide
    omega
  have h2 : strcasecmp_portable y (str "null") ≠ 0 := fun h => by
    have := strcasecmp_length y _ h0 str_nul_free.2.1 h
    have h3 : (str "null").length = 4 := by decide
    omega
  have h3 : strcasecmp_portable y (str "n/a") ≠ 0 := fun h => by
    have := strcasecmp_length y _ h0 str_nul_free.2.2 h
    have h3 : (str "n/a").length = 3 := by decide
    omega
  have h4 : (cstr y).length ≠ 0 := by rw [cstr_eq_self y h0]; omega
  simp [is_null_marker, h1, h2, h3, h4]

theorem dropWhile_eq_self_of_head (p : Nat → Bool) (l : List Nat)
    (h : ∀ c, l.head? = some c → p c = false) : l.dropWhile p = l := by
  cases l with
  | nil => rfl
  | cons c l => simp [List.dropWhile, h c rfl]

theorem trim_eq_self (y : List Nat) (hh : ∀ c, y.head? = some c → isspace c = false)
    (hl : ∀ c, y.getLast? = some c → isspace c = false) : trim y = y := by
  unfold trim
  rw [dropWhile_eq_self_of_head isspace y hh,
    dropWhile_eq_self_of_head isspace y.reverse (by simpa using hl), List.reverse_reverse]

theorem replace_first_none (e r : List Nat) : ∀ (y : List Nat), ¬ e <:+: y →
    replace_first e r y = none := by
  intro y
  induction y with
  | nil =>
    intro h
    have : e.isPrefixOf [] = false := by
      cases e with
      | nil => exact absurd List.nil_infix h
      | cons a e => rfl
    simp [replace_first, this]
  | cons c y ih =>
    intro h
    rw [List.infix_cons_iff, not_or] at h
    have hp : e.isPrefixOf (c :: y) = false := by
      rw [Bool.eq_false_iff]
      intro hp
      exact h.1 (List.isPrefixOf_iff_prefix.1 hp)
    simp [replace_first, hp, ih h.2]

theorem replace_all_eq_self (e r : List Nat) (n : Nat) (y : List Nat) (h : ¬ e <:+: y) :
    replace_all e r n y = y := by
  cases n with
  | zero => rfl
  | succ n => simp [replace_all, replace_first_none e r y h]

theorem replace_all_some (e r : List Nat) (n : Nat) (y y1 : List Nat) (hn : 0 < n)
    (h : replace_first e r y = some y1) : replace_all e r n y = replace_all e r (n - 1) y1 := by
  cases n with
  | zero => omega
  | succ n => simp [replace_all, h]

theorem replace_all_none (e r : List Nat) (n : Nat) (y : List Nat)
    (h : replace_first e r y = none) : replace_all e r n y = y := by
  cases n with
  | zero => rfl
  | succ n => simp [replace_all, h]

theorem foldl_replace_eq_self (y : List Nat) : ∀ (es : List (List Nat × List Nat)),
    (∀ e ∈ es, ¬ e.1 <:+: y) →
      es.foldl (fun t er => replace_all er.1 er.2 t.length t) y = y := by
  intro es
  induction es with
  | nil => intro _; rfl
  | cons e es ih =>
    intro h
    rw [List.foldl_cons, replace_all_eq_self e.1 e.2 _ y (h e (List.mem_cons_self e es))]
    exact ih (fun x hx => h x (List.mem_cons_of_mem e hx))

theorem decode_entities_eq_self (y : List Nat) (h : ∀ e ∈ entities, ¬ e.1 <:+: y) :
    decode_entities y = y :=
  foldl_replace_eq_self y entities h

theorem dropWhile_ne_eq_nil (a : Nat) (l : List Nat) (h : a ∉ l) :
    l.dropWhile (fun c => c != a) = [] := by
  induction l with
  | nil => rfl
  | cons c l ih =>
    simp only [List.mem_cons, not_or] at h
    have : (c != a) = true := by simpa using Ne.symm h.1
    simp [List.dropWhile, this, ih h.2]

theorem not_mem_takeWhile_ne (a : Nat) (l : List Nat) : a ∉ l.takeWhile (fun c => c != a) := by
  induction l with
  | nil => simp
  | cons c l ih =>
    by_cases hc : c = a
    · simp [List.takeWhile, hc]
    · have : (c != a) = true := by simpa using hc
      simp only [List.takeWhile, this, List.mem_cons, not_or]
      exact ⟨Ne.symm hc, ih⟩

theorem not_mem_of_dropWhile_ne_nil (a : Nat) (l : List Nat)
    (h : l.dropWhile (fun c => c != a) = []) : a ∉ l := by
  induction l with
  | nil => simp
  | cons c l ih =>
    by_cases hc : c = a
    · simp [List.dropWhile, hc] at h
    · have : (c != a) = true := by simpa using hc
      simp only [List.dropWhile, this] at h
      simp only [List.mem_cons, not_or]
      exact ⟨Ne.symm hc, ih h⟩

theorem strip_tags_eq_self (n : Nat) (y : List Nat) (h : 60 ∉ y) : strip_tags n y = y := by
  cases n with
  | zero => rfl
  | succ n => simp [strip_tags, dropWhile_ne_eq_nil 60 y h]

theorem length_dropWhile_le (p : Nat → Bool) (l : List Nat) :
    (l.dropWhile p).length ≤ l.length :=
  (List.dropWhile_sublist p).length_le

/-- With fuel for every byte, tag stripping leaves no `<`. -/
theorem strip_tags_no_lt : ∀ (n : Nat) (t : List Nat), t.length ≤ n → 60 ∉ strip_tags n t := by
  intro n
  induction n with
  | zero =>
    intro t ht
    have : t = [] := List.length_eq_zero.mp (Nat.le_zero.mp ht)
    subst this
    simp [strip_tags]
  | succ n ih =>
    intro t ht
    unfold strip_tags
    split
    · rename_i h
      exact not_mem_of_dropWhile_ne_nil 60 t h
    · rename_i x after_lt h
      split
      · exact not_mem_takeWhile_ne 60 t
      · rename_i y after_gt h2
        apply ih
        have e1 := List.takeWhile_append_dropWhile (fun c => c != 60) t
        have l1 : t.length = (t.takeWhile (fun c => c != 60)).length + (after_lt.length + 1) := by
          conv_lhs => rw [← e1, h]
          simp
        have l2 : after_gt.length + 1 ≤ after_lt.length := by
          have := length_dropWhile_le (fun c => c != 62) after_lt
          rw [h2] at this
          simpa using this
        simp only [List.length_append]
        omega

theorem isspace_of_ge (c : Nat) (h : 32 ≤ c) : isspace c = decide (c = 32) := by
  unfold isspace
  by_cases hc : c = 32
  · simp [hc]
  · have : ¬ c ≤ 13 := by omega
    simp [hc, this]

theorem ispunct_ne_space (c : Nat) (h : ispunct c = true) : c ≠ 32 := by
  rintro rfl
  revert h
  decide

theorem ws_ok_ge (c : Nat) : ∀ (z : List Nat) (sp : Bool), ws_ok z sp = true → c ∈ z → 32 ≤ c := by
  intro z
  induction z with
  | nil => intro _ _ h; simp at h
  | cons a z ih =>
    intro sp h hc
    simp only [ws_ok, Bool.and_eq_true, decide_eq_true_eq] at h
    rcases List.mem_cons.1 hc with rfl | hc
    · exact h.1
    · by_cases ha : a = 32
      · simp only [ha, ↓reduceIte, Bool.and_eq_true] at h
        exact ih false h.2.2 hc
      · simp only [ha, ↓reduceIte] at h
        exact ih true h.2 hc

theorem normalize_ws_eq_self : ∀ (z : List Nat) (written last sp : Bool), ws_ok z sp = true →
    (sp = true → written = true ∧ last = false) → normalize_ws z written last = z := by
  intro z
  induction z with
  | nil => intro _ _ _ _ _; rfl
  | cons c z ih =>
    intro written last sp h hsp
    simp only [ws_ok, Bool.and_eq_true, decide_eq_true_eq] at h
    have hctl : ¬ (c < 32 ∧ c ≠ 9 ∧ c ≠ 10 ∧ c ≠ 13) := by omega
    by_cases hc : c = 32
    · subst hc
      simp only [↓reduceIte, Bool.and_eq_true] at h
      obtain ⟨hw, hl⟩ := hsp h.2.1
      have hs : isspace 32 = true := by decide
      simp only [normalize_ws, hctl, ↓reduceIte, hs, hl, hw, and_self]
      rw [ih true true false h.2.2 (by simp)]
    · simp only [hc, ↓reduceIte] at h
      have hs : isspace c = false := by rw [isspace_of_ge c h.1]; simpa using hc
      simp only [normalize_ws, hctl, ↓reduceIte, hs, Bool.false_eq_true]
      rw [ih true false true h.2 (by simp)]

theorem ws_ok_normalize_ws : ∀ (t : List Nat) (written last : Bool),
    ws_ok (normalize_ws t written last) (written && !last) = true := by
  intro t
  induction t with
  | nil => intro _ _; rfl
  | cons c t ih =>
    intro written last
    unfold normalize_ws
    split
    · exact ih written last
    · rename_i hctl
      split
      · split
        · rename_i hs hw
          have := ih true true
          simp only [Bool.not_true, Bool.and_false] at this
          simp [ws_ok, hw.1, hw.2, this]
        · exact ih written last
      · rename_i hs
        have hge : 32 ≤ c := by
          by_contra hlt
          have hsp : isspace c = true := by
            have : c = 9 ∨ c = 10 ∨ c = 13 := by omega
            rcases this with rfl | rfl | rfl <;> decide
          exact hs hsp
        have hne : c ≠ 32 := by
          rintro rfl
          exact hs (by decide)
        have := ih true false
        simp only [Bool.not_false, Bool.and_self] at this
        simp [ws_ok, hge, hne, this]

theorem ws_ok_limit_punct : ∀ (z : List Nat) (n : Nat) (sp : Bool), (0 < n → sp = true) →
    ws_ok z sp = true → ws_ok (limit_punct z n) sp = true := by
  intro z
  induction z with
  | nil => intro _ _ _ _; rfl
  | cons c z ih =>
    intro n sp hn h
    simp only [ws_ok, Bool.and_eq_true, decide_eq_true_eq] at h
    unfold limit_punct
    split
    · rename_i hp
      have hne := ispunct_ne_space c hp
      simp only [hne, ↓reduceIte] at h
      split
      · simp only [ws_ok, h.1, decide_True, hne, ↓reduceIte, Bool.true_and]
        exact ih (n + 1) true (fun _ => rfl) h.2
      · have hsp : sp = true := hn (by omega)
        subst hsp
        exact ih (n + 1) true (fun _ => rfl) h.2
    · by_cases hc : c = 32
      · simp only [hc, ↓reduceIte, Bool.and_eq_true] at h
        simp only [ws_ok, hc, Nat.le_refl, decide_True, ↓reduceIte, Bool.true_and, h.2.1]
        exact ih 0 false (fun h0 => absurd h0 (Nat.lt_irrefl 0)) h.2.2
      · simp only [hc, ↓reduceIte] at h
        simp only [ws_ok, h.1, decide_True, hc, ↓reduceIte, Bool.true_and]
        exact ih 0 true (fun _ => rfl) h.2

theorem ws_ok_take : ∀ (z : List Nat) (k : Nat) (sp : Bool), ws_ok z sp = true →
    ws_ok (z.take k) sp = true := by
  intro z
  induction z with
  | nil => intro _ _ _; simp [ws_ok]
  | cons c z ih =>
    intro k sp h
    cases k with
    | zero => simp [ws_ok]
    | succ k =>
      simp only [ws_ok, Bool.and_eq_true, decide_eq_true_eq] at h
      by_cases hc : c = 32
      · simp only [hc, ↓reduceIte, Bool.and_eq_true] at h
        simp only [List.take_succ_cons, ws_ok, hc, Nat.le_refl, decide_True, ↓reduceIte,
          Bool.true_and, h.2.1]
        exact ih k false h.2.2
      · simp only [hc, ↓reduceIte] at h
        simp only [List.take_succ_cons, ws_ok, h.1, decide_True, hc, ↓reduceIte, Bool.true_and]
        exact ih k true h.2

theorem punct_ok_limit_punct : ∀ (z : List Nat) (n : Nat),
    punct_ok (limit_punct z n) (min n 3) = true := by
  intro z
  induction z with
  | nil => intro _; rfl
  | cons c z ih =>
    intro n
    unfold limit_punct
    split
    · rename_i hp
      split
      · rename_i hn
        have h1 : min n 3 = n := by omega
        have h2 : min (n + 1) 3 = n + 1 := by omega
        have := ih (n + 1)
        rw [h2] at this
        simp [punct_ok, hp, h1, hn, this]
      · rename_i hn
        have h1 : min n 3 = 3 := by omega
        have h2 : min (n + 1) 3 = 3 := by omega
        have := ih (n + 1)
        rw [h2] at this
        rw [h1]
        exact this
    · rename_i hp
      have := ih 0
      simp only [Nat.zero_min] at this
      simp [punct_ok, hp, this]

theorem limit_punct_eq_self : ∀ (z : List Nat) (n : Nat), punct_ok z n = true →
    limit_punct z n = z := by
  intro z
  induction z with
  | nil => intro _ _; rfl
  | cons c z ih =>
    intro n h
    by_cases hp : ispunct c = true
    · simp only [punct_ok, hp, ↓reduceIte, Bool.and_eq_true, decide_eq_true_eq] at h
      simp [limit_punct, hp, h.1, ih (n + 1) h.2]
    · simp only [punct_ok, hp, Bool.false_eq_true, ↓reduceIte] at h
      simp [limit_punct, hp, ih 0 h]

theorem punct_ok_take : ∀ (z : List Nat) (k n : Nat), punct_ok z n = true →
    punct_ok (z.take k) n = true := by
  intro z
  induction z with
  | nil => intro _ _ _; simp [punct_ok]
  | cons c z ih =>
    intro k n h
    cases k with
    | zero => simp [punct_ok]
    | succ k =>
      by_cases hp : ispunct c = true
      · simp only [punct_ok, hp, ↓reduceIte, Bool.and_eq_true, decide_eq_true_eq] at h
        simp [punct_ok, hp, h.1, ih k (n + 1) h.2]
      · simp only [punct_ok, hp, Bool.false_eq_true, ↓reduceIte] at h
        simp [punct_ok, hp, ih k 0 h]

theorem mem_normalize_ws (a : Nat) : ∀ (t : List Nat) (written last : Bool),
    a ∈ normalize_ws t written last → a ∈ t ∨ a = 32 := by
  intro t
  induction t with
  | nil => intro _ _ h; simp [normalize_ws] at h
  | cons c t ih =>
    intro written last h
    unfold normalize_ws at h
    split at h
    · exact (ih _ _ h).imp (List.mem_cons_of_mem c) id
    · split at h
      · split at h
        · rcases List.mem_cons.1 h with h | h
          · exact Or.inr h
          · exact (ih _ _ h).imp (List.mem_cons_of_mem c) id
        · exact (ih _ _ h).imp (List.mem_cons_of_mem c) id
      · rcases List.mem_cons.1 h with h | h
        · exact Or.inl (by simp [h])
        · exact (ih _ _ h).imp (List.mem_cons_of_mem c) id

theorem mem_limit_punct (a : Nat) : ∀ (z : List Nat) (n : Nat), a ∈ limit_punct z n → a ∈ z := by
  intro z
  induction z with
  | nil => intro _ h; simp [limit_punct] at h
  | cons c z ih =>
    intro n h
    unfold limit_punct at h
    split at h
    · split at h
      · rcases List.mem_cons.1 h with h | h
        · simp [h]
        · exact List.mem_cons_of_mem c (ih _ h)
      · exact List.mem_cons_of_mem c (ih _ h)
    · rcases List.mem_cons.1 h with h | h
      · simp [h]
      · exact List.mem_cons_of_mem c (ih _ h)

/-- The text reaching the final length checks is whitespace-normal, free of `<`, and in
strict mode free of punctuation runs longer than three. -/
theorem clean_stages_shape (x : List Nat) (strict : Bool) :
    ws_ok (clean_stages x strict) false = true ∧ 60 ∉ clean_stages x strict ∧
      (strict = true → punct_ok (clean_stages x strict) 0 = true) := by
  have hlt := strip_tags_no_lt (decode_entities (trim (cstr x))).length
    (decode_entities (trim (cstr x))) le_rfl
  have hws := ws_ok_normalize_ws
    (strip_tags (decode_entities (trim (cstr x))).length (decode_entities (trim (cstr x))))
    false false
  have h60 : 60 ∉ normalize_ws
      (strip_tags (decode_entities (trim (cstr x))).length (decode_entities (trim (cstr x))))
      false false := by
    intro h
    rcases mem_normalize_ws 60 _ _ _ h with h | h
    · exact hlt h
    · exact absurd h (by decide)
  cases strict with
  | false =>
    simp only [clean_stages, Bool.false_eq_true, ↓reduceIte, false_implies, and_true]
    exact ⟨hws, h60⟩
  | true =>
    simp only [clean_stages, ↓reduceIte, true_implies]
    refine ⟨ws_ok_limit_punct _ 0 false (fun h => absurd h (Nat.lt_irrefl 0)) hws,
      fun h => h60 (mem_limit_punct 60 _ _ h), ?_⟩
    have := punct_ok_limit_punct (normalize_ws
      (strip_tags (decode_entities (trim (cstr x))).length (decode_entities (trim (cstr x))))
      false false) 0
    simpa using this

/-- The shape of every result of `clean_text` (for a buffer of at least 6 bytes). -/
theorem clean_text_shape (x : List Nat) (max_len : Nat) (strict : Bool) (hmax : 6 ≤ max_len) :
    clean_shape (clean_text x max_len strict) max_len strict := by
  obtain ⟨hws, h60, hp⟩ := clean_stages_shape x strict
  unfold clean_text
  split
  · exact Or.inl rfl
  · simp only
    split
    · exact Or.inl rfl
    · rename_i hlen
      split
      · rename_i hge
        right
        have hl : ((clean_stages x strict).take (max_len - 1)).length = max_len - 1 := by
          rw [List.length_take]; omega
        refine ⟨by rw [hl]; simp only [MIN_TEXT_LENGTH]; omega, by rw [hl]; omega,
          ws_ok_take _ _ _ hws, fun h => h60 (List.mem_of_mem_take h),
          fun hs => punct_ok_take _ _ _ (hp hs)⟩
      · rename_i hge
        right
        exact ⟨by omega, by omega, hws, h60, hp⟩

theorem ws_ok_head (y : List Nat) (h : ws_ok y false = true) (c : Nat)
    (hc : y.head? = some c) : isspace c = false := by
  cases y with
  | nil => simp at hc
  | cons a y =>
    simp only [List.head?_cons, Option.some.injEq] at hc
    subst hc
    simp only [ws_ok, Bool.and_eq_true, decide_eq_true_eq] at h
    by_cases ha : a = 32
    · simp [ha] at h
    · rw [isspace_of_ge a h.1]; simpa using ha

/-- A text of the shape `clean_text` produces, with no trailing space and none of the
entities, is left unchanged by `clean_text`. -/
theorem clean_text_fixed (y : List Nat) (max_len : Nat) (strict : Bool)
    (hshape : clean_shape y max_len strict) (hlast : y.getLast? ≠ some 32)
    (hent : ∀ e ∈ entities, ¬ e.1 <:+: y) : clean_text y max_len strict = y := by
  rcases hshape with rfl | ⟨hmin, hlen, hws, h60, hp⟩
  · simp [clean_text, is_null_marker, cstr]
  · have hge : ∀ c ∈ y, 32 ≤ c := fun c hc => ws_ok_ge c y false hws hc
    have h0 : 0 ∉ y := fun h => absurd (hge 0 h) (by decide)
    have hnull := is_null_marker_of_long y h0 (by simpa [MIN_TEXT_LENGTH] using hmin)
    have hl : ∀ c, y.getLast? = some c → isspace c = false := by
      intro c hc
      have hm : c ∈ y := List.mem_of_getLast?_eq_some hc
      rw [isspace_of_ge c (hge c hm)]
      have : c ≠ 32 := by
        rintro rfl
        exact hlast hc
      simpa using this
    have hstages : clean_stages y strict = y := by
      unfold clean_stages
      simp only [cstr_eq_self y h0, trim_eq_self y (ws_ok_head y hws) hl,
        decode_entities_eq_self y hent, strip_tags_eq_self _ y h60,
        normalize_ws_eq_self y false false false hws (by simp)]
      cases strict with
      | false => simp
      | true => simp [limit_punct_eq_self y 0 (hp rfl)]
    unfold clean_text
    simp only [hnull, Bool.false_eq_true, ↓reduceIte, hstages]
    have h1 : ¬ y.length < MIN_TEXT_LENGTH := by omega
    have h2 : ¬ y.length ≥ max_len := by omega
    simp [h1, h2]

/-! ## Lemmas: the normalizer never lengthens the text -/

theorem replace_first_length (e r : List Nat) : ∀ (t t1 : List Nat),
    replace_first e r t = some t1 → t1.length + e.length = t.length + r.length := by
  intro t
  induction t with
  | nil =>
    intro t1 h
    unfold replace_first at h
    split at h
    · rename_i hp
      have : e = [] := by
        have := List.isPrefixOf_iff_prefix.1 hp
        simpa using this
      cases h
      simp [this]
    · cases h
  | cons c t ih =>
    intro t1 h
    unfold replace_first at h
    split at h
    · rename_i hp
      have hle := (List.isPrefixOf_iff_prefix.1 hp).length_le
      cases h
      simp only [List.length_append, List.length_drop]
      omega
    · rw [Option.map_eq_some'] at h
      obtain ⟨t2, h2, rfl⟩ := h
      have := ih t2 h2
      simp only [List.length_cons]
      omega

theorem replace_first_some_of_infix (e r : List Nat) : ∀ (t : List Nat), e <:+: t →
    ∃ t1, replace_first e r t = some t1 := by
  intro t
  induction t with
  | nil =>
    intro h
    have : e = [] := List.infix_nil.1 h
    subst this
    exact ⟨r, by simp [replace_first, List.isPrefixOf]⟩
  | cons c t ih =>
    intro h
    unfold replace_first
    split
    · exact ⟨_, rfl⟩
    · rename_i hp
      rcases List.infix_cons_iff.1 h with h | h
      · exact absurd (List.isPrefixOf_iff_prefix.2 h) hp
      · obtain ⟨t1, h1⟩ := ih h
        exact ⟨c :: t1, by simp [h1]⟩

theorem replace_all_length_le (e r : List Nat) (her : r.length ≤ e.length) :
    ∀ (n : Nat) (t : List Nat), (replace_all e r n t).length ≤ t.length := by
  intro n
  induction n with
  | zero => intro t; simp [replace_all]
  | succ n ih =>
    intro t
    unfold replace_all
    split
    · exact le_rfl
    · rename_i t1 h1
      have := replace_first_length e r t t1 h1
      have := ih t1
      omega

theorem replace_all_length_lt (e r : List Nat) (her : r.length < e.length) (n : Nat)
    (t : List Nat) (hn : 0 < n) (h : e <:+: t) : (replace_all e r n t).length < t.length := by
  obtain ⟨t1, h1⟩ := replace_first_some_of_infix e r t h
  rw [replace_all_some e r n t t1 hn h1]
  have := replace_first_length e r t t1 h1
  have := replace_all_length_le e r (Nat.le_of_lt her) (n - 1) t1
  omega

theorem entities_shorter : ∀ e ∈ entities, e.2.length < e.1.length := by decide

theorem foldl_replace_length_le : ∀ (es : List (List Nat × List Nat)),
    (∀ e ∈ es, e.2.length < e.1.length) → ∀ (t : List Nat),
      (es.foldl (fun t er => replace_all er.1 er.2 t.length t) t).length ≤ t.length := by
  intro es
  induction es with
  | nil => intro _ t; exact le_rfl
  | cons e es ih =>
    intro hes t
    rw [List.foldl_cons]
    have h1 := replace_all_length_le e.1 e.2
      (Nat.le_of_lt (hes e (List.mem_cons_self e es))) t.length t
    have h2 := ih (fun x hx => hes x (List.mem_cons_of_mem e hx))
      (replace_all e.1 e.2 t.length t)
    omega

theorem foldl_replace_length_lt : ∀ (es : List (List Nat × List Nat)),
    (∀ e ∈ es, e.2.length < e.1.length) → ∀ (t : List Nat), (∃ e ∈ es, e.1 <:+: t) →
      (es.foldl (fun t er => replace_all er.1 er.2 t.length t) t).length < t.length := by
  intro es
  induction es with
  | nil => intro _ t h; obtain ⟨e, he, _⟩ := h; simp at he
  | cons e es ih =>
    intro hes t h
    rw [List.foldl_cons]
    have hshort := hes e (List.mem_cons_self e es)
    have hes2 : ∀ x ∈ es, x.2.length < x.1.length :=
      fun x hx => hes x (List.mem_cons_of_mem e hx)
    by_cases hocc : e.1 <:+: t
    · have hpos : 0 < t.length := by
        have := hocc.length_le
        omega
      have h1 := replace_all_length_lt e.1 e.2 hshort t.length t hpos hocc
      have h2 := foldl_replace_length_le es hes2 (replace_all e.1 e.2 t.length t)
      omega
    · rw [replace_all_eq_self e.1 e.2 _ t hocc]
      apply ih hes2 t
      obtain ⟨x, hx, hxt⟩ := h
      rcases List.mem_cons.1 hx with rfl | hx
      · exact absurd hxt hocc
      · exact ⟨x, hx, hxt⟩

theorem decode_entities_length_le (t : List Nat) : (decode_entities t).length ≤ t.length :=
  foldl_replace_length_le entities entities_shorter t

theorem decode_entities_length_lt (t : List Nat) (h : ∃ e ∈ entities, e.1 <:+: t) :
    (decode_entities t).length < t.length :=
  foldl_replace_length_lt entities entities_shorter t h

theorem strip_tags_length_le : ∀ (n : Nat) (t : List Nat), (strip_tags n t).length ≤ t.length := by
  intro n
  induction n with
  | zero => intro t; simp [strip_tags]
  | succ n ih =>
    intro t
    unfold strip_tags
    split
    · exact le_rfl
    · rename_i x after_lt h
      have e1 := List.takeWhile_append_dropWhile (fun c => c != 60) t
      have l1 : t.length = (t.takeWhile (fun c => c != 60)).length + (after_lt.length + 1) := by
        conv_lhs => rw [← e1, h]
        simp
      split
      · omega
      · rename_i y after_gt h2
        have l2 : after_gt.length + 1 ≤ after_lt.length := by
          have := length_dropWhile_le (fun c => c != 62) after_lt
          rw [h2] at this
          simpa using this
        have := ih (t.takeWhile (fun c => c != 60) ++ after_gt)
        simp only [List.length_append] at this
        omega

theorem normalize_ws_length_le : ∀ (t : List Nat) (written last : Bool),
    (normalize_ws t written last).length ≤ t.length := by
  intro t
  induction t with
  | nil => intro _ _; simp [normalize_ws]
  | cons c t ih =>
    intro written last
    unfold normalize_ws
    split
    · have := ih written last
      simp only [List.length_cons]; omega
    · split
      · split
        · have := ih true true
          simp only [List.length_cons]; omega
        · have := ih written last
          simp only [List.length_cons]; omega
      · have := ih true false
        simp only [List.length_cons]; omega

theorem limit_punct_length_le : ∀ (t : List Nat) (n : Nat),
    (limit_punct t n).length ≤ t.length := by
  intro t
  induction t with
  | nil => intro _; simp [limit_punct]
  | cons c t ih =>
    intro n
    unfold limit_punct
    split
    · split
      · have := ih (n + 1)
        simp only [List.length_cons]; omega
      · have := ih (n + 1)
        simp only [List.length_cons]; omega
    · have := ih 0
      simp only [List.length_cons]; omega

theorem trim_length_le (t : List Nat) : (trim t).length ≤ t.length := by
  unfold trim
  rw [List.length_reverse]
  have h1 := length_dropWhile_le isspace (t.dropWhile isspace).reverse
  have h2 := length_dropWhile_le isspace t
  rw [List.length_reverse] at h1
  omega

theorem dropWhile_snoc (p : Nat → Bool) (a : Nat) : ∀ (ys : List Nat),
    (ys ++ [a]).dropWhile p = [] ∨ ∃ zs, (ys ++ [a]).dropWhile p = zs ++ [a] := by
  intro ys
  induction ys with
  | nil =>
    by_cases h : p a = true
    · left; simp [List.dropWhile, h]
    · right; exact ⟨[], by simp [List.dropWhile, h]⟩
  | cons c ys ih =>
    by_cases h : p c = true
    · simpa [List.dropWhile, h] using ih
    · right; exact ⟨c :: ys, by simp [List.dropWhile, h]⟩

theorem trim_length_lt (t : List Nat) (h : t.getLast? = some 32) : (trim t).length < t.length := by
  obtain ⟨ys, rfl⟩ := List.getLast?_eq_some_iff.1 h
  unfold trim
  rw [List.length_reverse]
  rcases dropWhile_snoc isspace 32 ys with h1 | ⟨zs, h1⟩
  · rw [h1]; simp
  · have hs : isspace 32 = true := by decide
    have h2 := length_dropWhile_le isspace (ys ++ [32])
    rw [h1] at h2 ⊢
    have h3 : (zs ++ [32]).reverse.dropWhile isspace = zs.reverse.dropWhile isspace := by
      simp [List.dropWhile, hs]
    rw [h3]
    have h4 := length_dropWhile_le isspace zs.reverse
    simp only [List.length_reverse, List.length_append, List.length_singleton] at h2 h4 ⊢
    omega

theorem clean_stages_length_le (x : List Nat) (strict : Bool) :
    (clean_stages x strict).length ≤ (decode_entities (trim (cstr x))).length := by
  have h1 := strip_tags_length_le (decode_entities (trim (cstr x))).length
    (decode_entities (trim (cstr x)))
  have h2 := normalize_ws_length_le
    (strip_tags (decode_entities (trim (cstr x))).length (decode_entities (trim (cstr x))))
    false false
  unfold clean_stages
  cases strict with
  | false => simp only [Bool.false_eq_true, ↓reduceIte]; omega
  | true =>
    have h3 := limit_punct_length_le (normalize_ws
      (strip_tags (decode_entities (trim (cstr x))).length (decode_entities (trim (cstr x))))
      false false) 0
    simp only [↓reduceIte]; omega

theorem clean_text_length_le_stages (x : List Nat) (max_len : Nat) (strict : Bool) :
    (clean_text x max_len strict).length ≤ (clean_stages x strict).length := by
  unfold clean_text
  split
  · simp
  · simp only
    split
    · simp
    · split
      · simp only [List.length_take]; omega
      · exact le_rfl

/-- A text of the shape `clean_text` produces that ends with a space or contains an
entity of the table is shortened by `clean_text`. -/
theorem clean_text_shortens (y : List Nat) (max_len : Nat) (strict : Bool)
    (hshape : clean_shape y max_len strict)
    (h : y.getLast? = some 32 ∨ ∃ e ∈ entities, e.1 <:+: y) :
    (clean_text y max_len strict).length < y.length := by
  rcases hshape with rfl | ⟨hmin, hlen, hws, h60, hp⟩
  · rcases h with h | ⟨e, he, hocc⟩
    · simp at h
    · have h1 := entities_shorter e he
      have h2 := hocc.length_le
      simp only [List.length_nil] at h2
      omega
  · have hge : ∀ c ∈ y, 32 ≤ c := fun c hc => ws_ok_ge c y false hws hc
    have h0 : 0 ∉ y := fun h => absurd (hge 0 h) (by decide)
    have h1 := clean_text_length_le_stages y max_len strict
    have h2 := clean_stages_length_le y strict
    rw [cstr_eq_self y h0] at h2
    have h3 := decode_entities_length_le (trim y)
    by_cases hlast : y.getLast? = some 32
    · have := trim_length_lt y hlast
      omega
    · have hocc : ∃ e ∈ entities, e.1 <:+: y := h.resolve_left hlast
      have hl : ∀ c, y.getLast? = some c → isspace c = false := by
        intro c hc
        have hm : c ∈ y := List.mem_of_getLast?_eq_some hc
        rw [isspace_of_ge c (hge c hm)]
        have : c ≠ 32 := by
          rintro rfl
          exact hlast hc
        simpa using this
      rw [trim_eq_self y (ws_ok_head y hws) hl] at h2
      have := decode_entities_length_lt y hocc
      omega

/-! ## C3: normalizer idempotence -/

/-- C3 (as stated, refuted): `hello&nbsp;` is normalized to `hello ` (the trailing
whitespace is trimmed before the entity is decoded to a space), and `hello ` is
normalized to `hello`; `&amp;lt;hello` is normalized to `&lt;hello`, which a second
pass decodes to `<hello` and empties.  Both happen in either mode. -/
theorem clean_text_not_idempotent :
    (∀ strict : Bool,
      clean_text (str "hello&nbsp;") MAX_LINE_LENGTH strict = str "hello " ∧
      clean_text (clean_text (str "hello&nbsp;") MAX_LINE_LENGTH strict) MAX_LINE_LENGTH strict
        = str "hello" ∧
      clean_text (clean_text (str "hello&nbsp;") MAX_LINE_LENGTH strict) MAX_LINE_LENGTH strict
        ≠ clean_text (str "hello&nbsp;") MAX_LINE_LENGTH strict) ∧
    (∀ strict : Bool,
      clean_text (str "&amp;lt;hello") MAX_LINE_LENGTH strict = str "&lt;hello" ∧
      clean_text (clean_text (str "&amp;lt;hello") MAX_LINE_LENGTH strict) MAX_LINE_LENGTH strict
        = []) := by
  decide

/-- C3 (amended): for every input `x` and either value of the strict flag,
`normalize(normalize(x)) = normalize(x)` holds exactly when `normalize(x)` does not end
with a space and contains none of the 15 entities of the table. -/
theorem clean_text_idempotent (x : List Nat) (strict : Bool) :
    clean_text (clean_text x MAX_LINE_LENGTH strict) MAX_LINE_LENGTH strict =
        clean_text x MAX_LINE_LENGTH strict ↔
      ((clean_text x MAX_LINE_LENGTH strict).getLast? ≠ some 32 ∧
        ∀ e ∈ entities, ¬ e.1 <:+: clean_text x MAX_LINE_LENGTH strict) := by
  have hshape := clean_text_shape x MAX_LINE_LENGTH strict (by decide)
  constructor
  · intro hfix
    by_contra hneg
    have hbad : (clean_text x MAX_LINE_LENGTH strict).getLast? = some 32 ∨
        ∃ e ∈ entities, e.1 <:+: clean_text x MAX_LINE_LENGTH strict := by
      by_cases hl : (clean_text x MAX_LINE_LENGTH strict).getLast? = some 32
      · exact Or.inl hl
      · right
        by_contra hno
        apply hneg
        refine ⟨hl, fun e he hocc => hno ⟨e, he, hocc⟩⟩
    have := clean_text_shortens _ MAX_LINE_LENGTH strict hshape hbad
    rw [hfix] at this
    exact Nat.lt_irrefl _ this
  · rintro ⟨hlast, hent⟩
    exact clean_text_fixed _ MAX_LINE_LENGTH strict hshape hlast hent

/-- C3 (witness): `Great!!!!  stuff&lt;b&gt;` in strict mode. -/
theorem clean_text_idempotent_witness :
    (clean_text (str "Great!!!!  stuff&lt;b&gt;") MAX_LINE_LENGTH true).getLast? ≠ some 32 ∧
    (∀ e ∈ entities,
      ¬ e.1 <:+: clean_text (str "Great!!!!  stuff&lt;b&gt;") MAX_LINE_LENGTH true) ∧
    clean_text (str "Great!!!!  stuff&lt;b&gt;") MAX_LINE_LENGTH true = str "Great!!! stuff" ∧
    clean_text (clean_text (str "Great!!!!  stuff&lt;b&gt;") MAX_LINE_LENGTH true)
      MAX_LINE_LENGTH true = clean_text (str "Great!!!!  stuff&lt;b&gt;") MAX_LINE_LENGTH true :=
  ⟨by decide, by decide, by decide,
    (clean_text_idempotent (str "Great!!!!  stuff&lt;b&gt;") true).2 ⟨by decide, by decide⟩⟩

/-! ## Lemmas for C4: decoding and stripping around symbolic text -/

theorem alnum_facts (c : Nat) (h : is_ascii_alnum c = true) :
    48 ≤ c ∧ c ≤ 122 ∧ c ≠ 60 ∧ c ≠ 62 ∧ ispunct c = false := by
  simp only [is_ascii_alnum, is_ascii_letter, Bool.or_eq_true, Bool.and_eq_true,
    decide_eq_true_eq] at h
  refine ⟨by omega, by omega, by omega, by omega, ?_⟩
  simp only [ispunct, Bool.or_eq_false_iff, Bool.and_eq_false_imp, decide_eq_true_eq,
    decide_eq_false_iff_not]
  omega

theorem letter_alnum (c : Nat) (h : is_ascii_letter c = true) : is_ascii_alnum c = true := by
  simp [is_ascii_alnum, h]

theorem replace_first_skip (e' r : List Nat) (b : List Nat) : ∀ (a : List Nat),
    (∀ c ∈ a, c ≠ 38) →
      replace_first (38 :: e') r (a ++ b) = (replace_first (38 :: e') r b).map (fun t => a ++ t) := by
  intro a
  induction a with
  | nil => intro _; simp
  | cons c a ih =>
    intro h
    have hc : c ≠ 38 := h c (List.mem_cons_self c a)
    have hp : (38 :: e').isPrefixOf (c :: (a ++ b)) = false := by
      simp [List.isPrefixOf, Ne.symm hc]
    rw [List.cons_append, replace_first, hp, ih (fun x hx => h x (List.mem_cons_of_mem c hx))]
    simp [Option.map_map, Function.comp_def]

theorem replace_first_no_amp (e' r y : List Nat) (h : 38 ∉ y) :
    replace_first (38 :: e') r y = none := by
  apply replace_first_none
  rintro ⟨p, q, hpq⟩
  apply h
  rw [← hpq]
  simp

theorem foldl_replace_no_amp (y : List Nat) (h : 38 ∉ y) :
    ∀ (es : List (List Nat × List Nat)), (∀ e ∈ es, e.1.head? = some 38) →
      es.foldl (fun t er => replace_all er.1 er.2 t.length t) y = y := by
  intro es
  induction es with
  | nil => intro _; rfl
  | cons e es ih =>
    intro hes
    have he := hes e (List.mem_cons_self e es)
    obtain ⟨e1, r⟩ := e
    cases e1 with
    | nil => simp at he
    | cons a e' =>
      simp only [List.head?_cons, Option.some.injEq] at he
      subst he
      rw [List.foldl_cons, replace_all_none _ _ _ y (replace_first_no_amp e' r y h)]
      exact ih (fun x hx => hes x (List.mem_cons_of_mem _ hx))

theorem dropWhile_append_of_all (p : Nat → Bool) (b : List Nat) : ∀ (a : List Nat),
    (∀ c ∈ a, p c = true) → (a ++ b).dropWhile p = b.dropWhile p := by
  intro a
  induction a with
  | nil => intro _; rfl
  | cons c a ih =>
    intro h
    simp [List.dropWhile, h c (List.mem_cons_self c a),
      ih (fun x hx => h x (List.mem_cons_of_mem c hx))]

theorem takeWhile_append_of_all (p : Nat → Bool) (b : List Nat) : ∀ (a : List Nat),
    (∀ c ∈ a, p c = true) → (a ++ b).takeWhile p = a ++ b.takeWhile p := by
  intro a
  induction a with
  | nil => intro _; rfl
  | cons c a ih =>
    intro h
    simp [List.takeWhile, h c (List.mem_cons_self c a),
      ih (fun x hx => h x (List.mem_cons_of_mem c hx))]

theorem ws_ok_of_gt (z : List Nat) (h : ∀ c ∈ z, 32 < c) : ∀ sp, ws_ok z sp = true := by
  induction z with
  | nil => intro _; rfl
  | cons c z ih =>
    intro sp
    have hc := h c (List.mem_cons_self c z)
    have hne : c ≠ 32 := by omega
    simp [ws_ok, hne, Nat.le_of_lt hc, ih (fun x hx => h x (List.mem_cons_of_mem c hx))]

theorem punct_ok_of_none (z : List Nat) (h : ∀ c ∈ z, ispunct c = false) :
    ∀ n, punct_ok z n = true := by
  induction z with
  | nil => intro _; rfl
  | cons c z ih =>
    intro n
    simp [punct_ok, h c (List.mem_cons_self c z), ih (fun x hx => h x (List.mem_cons_of_mem c hx))]

/-- The search for an entity jumps to the next `&`. -/
theorem replace_first_amp (e' r a b : List Nat) (ha : ∀ c ∈ a, c ≠ 38) :
    replace_first (38 :: e') r (a ++ 38 :: b) =
      if e'.isPrefixOf b then some (a ++ (r ++ b.drop e'.length))
      else (replace_first (38 :: e') r b).map (fun t => a ++ 38 :: t) := by
  rw [replace_first_skip e' r (38 :: b) a ha, replace_first]
  by_cases h : e'.isPrefixOf b = true
  · simp [List.isPrefixOf, h]
  · simp [List.isPrefixOf, h, Option.map_map, Function.comp_def]

theorem c4_pass_lt (t w : List Nat) (ht : ∀ c ∈ t, c ≠ 38) (hw : ∀ c ∈ w, c ≠ 38) (n : Nat)
    (hn : 3 ≤ n) :
    replace_all [38, 108, 116, 59] [60] n
      (38 :: 108 :: 116 :: 59 :: (t ++ 38 :: 103 :: 116 :: 59 ::
        (w ++ 38 :: 108 :: 116 :: 59 :: 47 :: (t ++ [38, 103, 116, 59])))) =
      60 :: (t ++ 38 :: 103 :: 116 :: 59 :: (w ++ 60 :: 47 :: (t ++ [38, 103, 116, 59]))) := by
  have s1 : replace_first [38, 108, 116, 59] [60]
      (38 :: 108 :: 116 :: 59 :: (t ++ 38 :: 103 :: 116 :: 59 ::
        (w ++ 38 :: 108 :: 116 :: 59 :: 47 :: (t ++ [38, 103, 116, 59])))) =
      some (60 :: (t ++ 38 :: 103 :: 116 :: 59 ::
        (w ++ 38 :: 108 :: 116 :: 59 :: 47 :: (t ++ [38, 103, 116, 59])))) := by
    simp [replace_first, List.isPrefixOf]
  have s2a : replace_first [38, 108, 116, 59] [60]
      (103 :: 116 :: 59 :: (w ++ 38 :: 108 :: 116 :: 59 :: 47 :: (t ++ [38, 103, 116, 59]))) =
      some (103 :: 116 :: 59 :: (w ++ 60 :: 47 :: (t ++ [38, 103, 116, 59]))) := by
    have := replace_first_amp [108, 116, 59] [60] (103 :: 116 :: 59 :: w)
      (108 :: 116 :: 59 :: 47 :: (t ++ [38, 103, 116, 59]))
      (by intro c hc
          rcases List.mem_cons.1 hc with rfl | hc
          · decide
          rcases List.mem_cons.1 hc with rfl | hc
          · decide
          rcases List.mem_cons.1 hc with rfl | hc
          · decide
          exact hw c hc)
    simpa [List.isPrefixOf] using this
  have s2 : replace_first [38, 108, 116, 59] [60]
      (60 :: (t ++ 38 :: 103 :: 116 :: 59 ::
        (w ++ 38 :: 108 :: 116 :: 59 :: 47 :: (t ++ [38, 103, 116, 59])))) =
      some (60 :: (t ++ 38 :: 103 :: 116 :: 59 :: (w ++ 60 :: 47 :: (t ++ [38, 103, 116, 59])))) := by
    have := replace_first_amp [108, 116, 59] [60] (60 :: t)
      (103 :: 116 :: 59 :: (w ++ 38 :: 108 :: 116 :: 59 :: 47 :: (t ++ [38, 103, 116, 59])))
      (by intro c hc
          rcases List.mem_cons.1 hc with rfl | hc
          · decide
          exact ht c hc)
    rw [s2a] at this
    simpa [List.isPrefixOf] using this
  have s3a : replace_first [38, 108, 116, 59] [60]
      (103 :: 116 :: 59 :: (w ++ 60 :: 47 :: (t ++ [38, 103, 116, 59]))) = none := by
    have := replace_first_amp [108, 116, 59] [60] (103 :: 116 :: 59 :: (w ++ 60 :: 47 :: t))
      [103, 116, 59]
      (by intro c hc
          rcases List.mem_cons.1 hc with rfl | hc
          · decide
          rcases List.mem_cons.1 hc with rfl | hc
          · decide
          rcases List.mem_cons.1 hc with rfl | hc
          · decide
          rcases List.mem_append.1 hc with hc | hc
          · exact hw c hc
          rcases List.mem_cons.1 hc with rfl | hc
          · decide
          rcases List.mem_cons.1 hc with rfl | hc
          · decide
          exact ht c hc)
    have h4 : replace_first [38, 108, 116, 59] [60] [103, 116, 59] = none := by decide
    rw [h4] at this
    simpa [List.isPrefixOf] using this
  have s3 : replace_first [38, 108, 116, 59] [60]
      (60 :: (t ++ 38 :: 103 :: 116 :: 59 :: (w ++ 60 :: 47 :: (t ++ [38, 103, 116, 59])))) =
      none := by
    have := replace_first_amp [108, 116, 59] [60] (60 :: t)
      (103 :: 116 :: 59 :: (w ++ 60 :: 47 :: (t ++ [38, 103, 116, 59])))
      (by intro c hc
          rcases List.mem_cons.1 hc with rfl | hc
          · decide
          exact ht c hc)
    rw [s3a] at this
    simpa [List.isPrefixOf] using this
  rw [replace_all_some _ _ n _ _ (by omega) s1, replace_all_some _ _ (n - 1) _ _ (by omega) s2,
    replace_all_none _ _ _ _ s3]

theorem c4_pass_gt (t w : List Nat) (ht : ∀ c ∈ t, c ≠ 38) (hw : ∀ c ∈ w, c ≠ 38) (n : Nat)
    (hn : 3 ≤ n) :
    replace_all [38, 103, 116, 59] [62] n
      (60 :: (t ++ 38 :: 103 :: 116 :: 59 :: (w ++ 60 :: 47 :: (t ++ [38, 103, 116, 59])))) =
      60 :: (t ++ 62 :: (w ++ 60 :: 47 :: (t ++ [62]))) := by
  have s4 : replace_first [38, 103, 116, 59] [62]
      (60 :: (t ++ 38 :: 103 :: 116 :: 59 :: (w ++ 60 :: 47 :: (t ++ [38, 103, 116, 59])))) =
      some (60 :: (t ++ 62 :: (w ++ 60 :: 47 :: (t ++ [38, 103, 116, 59])))) := by
    have := replace_first_amp [103, 116, 59] [62] (60 :: t)
      (103 :: 116 :: 59 :: (w ++ 60 :: 47 :: (t ++ [38, 103, 116, 59])))
      (by intro c hc
          rcases List.mem_cons.1 hc with rfl | hc
          · decide
          exact ht c hc)
    simpa [List.isPrefixOf] using this
  have s5 : replace_first [38, 103, 116, 59] [62]
      (60 :: (t ++ 62 :: (w ++ 60 :: 47 :: (t ++ [38, 103, 116, 59])))) =
      some (60 :: (t ++ 62 :: (w ++ 60 :: 47 :: (t ++ [62])))) := by
    have := replace_first_amp [103, 116, 59] [62] (60 :: (t ++ 62 :: (w ++ 60 :: 47 :: t)))
      [103, 116, 59]
      (by intro c hc
          rcases List.mem_cons.1 hc with rfl | hc
          · decide
          rcases List.mem_append.1 hc with hc | hc
          · exact ht c hc
          rcases List.mem_cons.1 hc with rfl | hc
          · decide
          rcases List.mem_append.1 hc with hc | hc
          · exact hw c hc
          rcases List.mem_cons.1 hc with rfl | hc
          · decide
          rcases List.mem_cons.1 hc with rfl | hc
          · decide
          exact ht c hc)
    simpa [List.isPrefixOf] using this
  have s6 : replace_first [38, 103, 116, 59] [62]
      (60 :: (t ++ 62 :: (w ++ 60 :: 47 :: (t ++ [62])))) = none := by
    apply replace_first_no_amp
    simp only [List.mem_cons, List.mem_append, List.mem_singleton, List.not_mem_nil, or_false,
      not_or]
    exact ⟨by decide, fun h => ht 38 h rfl, by decide, fun h => hw 38 h rfl, by decide, by decide,
      fun h => ht 38 h rfl, by decide⟩
  rw [replace_all_some _ _ n _ _ (by omega) s4, replace_all_some _ _ (n - 1) _ _ (by omega) s5,
    replace_all_none _ _ _ _ s6]

theorem strip_tags_step (n : Nat) (text after_lt after_gt : List Nat) (x y : Nat)
    (h1 : text.dropWhile (fun c => c != 60) = x :: after_lt)
    (h2 : after_lt.dropWhile (fun c => c != 62) = y :: after_gt) :
    strip_tags (n + 1) text = strip_tags n (text.takeWhile (fun c => c != 60) ++ after_gt) := by
  simp [strip_tags, h1, h2]

theorem c4_strip (t w : List Nat) (ht : ∀ c ∈ t, c ≠ 60 ∧ c ≠ 62) (hw : ∀ c ∈ w, c ≠ 60)
    (n : Nat) (hn : 3 ≤ n) :
    strip_tags n (60 :: (t ++ 62 :: (w ++ 60 :: 47 :: (t ++ [62])))) = w := by
  obtain ⟨k, rfl⟩ : ∃ k, n = k + 3 := ⟨n - 3, by omega⟩
  have ht62 : ∀ c ∈ t, (c != 62) = true := fun c hc => by simpa using (ht c hc).2
  have hw60 : ∀ c ∈ w, (c != 60) = true := fun c hc => by simpa using hw c hc
  have a1 : (60 :: (t ++ 62 :: (w ++ 60 :: 47 :: (t ++ [62])))).dropWhile (fun c => c != 60) =
      60 :: (t ++ 62 :: (w ++ 60 :: 47 :: (t ++ [62]))) := by
    simp [List.dropWhile]
  have a2 : (t ++ 62 :: (w ++ 60 :: 47 :: (t ++ [62]))).dropWhile (fun c => c != 62) =
      62 :: (w ++ 60 :: 47 :: (t ++ [62])) := by
    rw [dropWhile_append_of_all _ _ t ht62]
    simp [List.dropWhile]
  have a3 : (60 :: (t ++ 62 :: (w ++ 60 :: 47 :: (t ++ [62])))).takeWhile (fun c => c != 60) =
      [] := by
    simp [List.takeWhile]
  have b1 : (w ++ 60 :: 47 :: (t ++ [62])).dropWhile (fun c => c != 60) =
      60 :: 47 :: (t ++ [62]) := by
    rw [dropWhile_append_of_all _ _ w hw60]
    simp [List.dropWhile]
  have b2 : (47 :: (t ++ [62])).dropWhile (fun c => c != 62) = [62] := by
    have : ((47 : Nat) != 62) = true := by decide
    rw [List.dropWhile, this]
    simp only
    rw [dropWhile_append_of_all _ _ t ht62]
    simp [List.dropWhile]
  have b3 : (w ++ 60 :: 47 :: (t ++ [62])).takeWhile (fun c => c != 60) = w := by
    rw [takeWhile_append_of_all _ _ w hw60]
    simp [List.takeWhile]
  rw [strip_tags_step (k + 2) _ _ _ _ _ a1 a2, a3, List.nil_append,
    strip_tags_step (k + 1) _ _ _ _ _ b1 b2, b3, List.append_nil]
  exact strip_tags_eq_self _ w (fun h => hw 60 h rfl)

theorem c4_trim (a z : Nat) (M : List Nat) (ha : isspace a = false) (hz : isspace z = false) :
    trim (32 :: 32 :: a :: (M ++ [z, 32, 32])) = a :: (M ++ [z]) := by
  have hs : isspace 32 = true := by decide
  unfold trim
  simp [List.dropWhile, hs, ha, hz]

theorem entities_head : entities =
    ([38, 108, 116, 59], [60]) :: ([38, 103, 116, 59], [62]) :: entities.drop 2 ∧
    ∀ e ∈ entities.drop 2, e.1.head? = some 38 := by
  decide

theorem c4_stages (t w : List Nat) (strict : Bool)
    (hw : ∀ c ∈ w, is_ascii_alnum c = true) (ht : ∀ c ∈ t, is_ascii_letter c = true) :
    clean_stages (32 :: 32 :: 38 :: 108 :: 116 :: 59 :: (t ++ 38 :: 103 :: 116 :: 59 ::
      (w ++ 38 :: 108 :: 116 :: 59 :: 47 :: (t ++ [38, 103, 116, 59, 32, 32])))) strict = w := by
  have fw : ∀ c ∈ w, 48 ≤ c ∧ c ≤ 122 ∧ c ≠ 60 ∧ c ≠ 62 ∧ ispunct c = false :=
    fun c hc => alnum_facts c (hw c hc)
  have ft : ∀ c ∈ t, 48 ≤ c ∧ c ≤ 122 ∧ c ≠ 60 ∧ c ≠ 62 ∧ ispunct c = false :=
    fun c hc => alnum_facts c (letter_alnum c (ht c hc))
  have h0 : (0 : Nat) ∉ (32 :: 32 :: 38 :: 108 :: 116 :: 59 :: (t ++ 38 :: 103 :: 116 :: 59 ::
      (w ++ 38 :: 108 :: 116 :: 59 :: 47 :: (t ++ [38, 103, 116, 59, 32, 32])))) := by
    simp only [List.mem_cons, List.mem_append, List.not_mem_nil, or_false, not_or]
    have h1 : (0 : Nat) ∉ t := fun h => absurd (ft 0 h).1 (by decide)
    have h2 : (0 : Nat) ∉ w := fun h => absurd (fw 0 h).1 (by decide)
    refine ⟨by decide, by decide, by decide, by decide, by decide, by decide, h1, by decide,
      by decide, by decide, by decide, h2, by decide, by decide, by decide, by decide, by decide,
      h1, by decide, by decide, by decide, by decide, by decide, by decide⟩
  have htrim : trim (32 :: 32 :: 38 :: 108 :: 116 :: 59 :: (t ++ 38 :: 103 :: 116 :: 59 ::
      (w ++ 38 :: 108 :: 116 :: 59 :: 47 :: (t ++ [38, 103, 116, 59, 32, 32])))) =
      38 :: 108 :: 116 :: 59 :: (t ++ 38 :: 103 :: 116 :: 59 ::
        (w ++ 38 :: 108 :: 116 :: 59 :: 47 :: (t ++ [38, 103, 116, 59]))) := by
    have := c4_trim 38 59 (108 :: 116 :: 59 :: (t ++ 38 :: 103 :: 116 :: 59 ::
        (w ++ 38 :: 108 :: 116 :: 59 :: 47 :: (t ++ [38, 103, 116])))) (by decide) (by decide)
    simpa using this
  have hdec : decode_entities (38 :: 108 :: 116 :: 59 :: (t ++ 38 :: 103 :: 116 :: 59 ::
        (w ++ 38 :: 108 :: 116 :: 59 :: 47 :: (t ++ [38, 103, 116, 59])))) =
      60 :: (t ++ 62 :: (w ++ 60 :: 47 :: (t ++ [62]))) := by
    have t38 : ∀ c ∈ t, c ≠ 38 := fun c hc h => by have := (ft c hc).1; omega
    have w38 : ∀ c ∈ w, c ≠ 38 := fun c hc h => by have := (fw c hc).1; omega
    unfold decode_entities
    rw [entities_head.1, List.foldl_cons, List.foldl_cons]
    simp only
    rw [c4_pass_lt t w t38 w38 _ (by simp only [List.length_cons, List.length_append]; omega),
      c4_pass_gt t w t38 w38 _ (by simp only [List.length_cons, List.length_append]; omega)]
    apply foldl_replace_no_amp _ _ _ entities_head.2
    simp only [List.mem_cons, List.mem_append, List.mem_singleton, List.not_mem_nil, or_false,
      not_or]
    exact ⟨by decide, fun h => t38 38 h rfl, by decide, fun h => w38 38 h rfl, by decide,
      by decide, fun h => t38 38 h rfl, by decide⟩
  have hstrip : ∀ n, 3 ≤ n →
      strip_tags n (60 :: (t ++ 62 :: (w ++ 60 :: 47 :: (t ++ [62])))) = w := fun n hn =>
    c4_strip t w (fun c hc => ⟨(ft c hc).2.2.1, (ft c hc).2.2.2.1⟩)
      (fun c hc => (fw c hc).2.2.1) n hn
  have hws : normalize_ws w false false = w :=
    normalize_ws_eq_self w false false false
      (ws_ok_of_gt w (fun c hc => by have := (fw c hc).1; omega) false) (by simp)
  have hp : limit_punct w 0 = w :=
    limit_punct_eq_self w 0 (punct_ok_of_none w (fun c hc => (fw c hc).2.2.2.2) 0)
  unfold clean_stages
  simp only [cstr_eq_self _ h0, htrim, hdec]
  rw [hstrip _ (by simp only [List.length_cons, List.length_append]; omega), hws]
  cases strict with
  | false => simp
  | true => simp [hp]

/-! ## C4: decode-then-strip ordering -/

/-- C4: for every word `w` of 5 to 8000 ASCII letters or digits and every tag name `t` of
ASCII letters, normalizing `"  &lt;" t "&gt;" w "&lt;/" t "&gt;  "` gives exactly `w`,
in strict and in non-strict mode. -/
theorem clean_text_decode_then_strip (t w : List Nat) (strict : Bool)
    (hw : ∀ c ∈ w, is_ascii_alnum c = true) (hwl : 5 ≤ w.length ∧ w.length ≤ 8000)
    (ht : ∀ c ∈ t, is_ascii_letter c = true) :
    clean_text (str "  &lt;" ++ t ++ str "&gt;" ++ w ++ str "&lt;/" ++ t ++ str "&gt;  ")
      MAX_LINE_LENGTH strict = w := by
  have e1 : str "  &lt;" = [32, 32, 38, 108, 116, 59] := by decide
  have e2 : str "&gt;" = [38, 103, 116, 59] := by decide
  have e3 : str "&lt;/" = [38, 108, 116, 59, 47] := by decide
  have e4 : str "&gt;  " = [38, 103, 116, 59, 32, 32] := by decide
  have hX : str "  &lt;" ++ t ++ str "&gt;" ++ w ++ str "&lt;/" ++ t ++ str "&gt;  " =
      32 :: 32 :: 38 :: 108 :: 116 :: 59 :: (t ++ 38 :: 103 :: 116 :: 59 ::
        (w ++ 38 :: 108 :: 116 :: 59 :: 47 :: (t ++ [38, 103, 116, 59, 32, 32]))) := by
    rw [e1, e2, e3, e4]
    simp
  rw [hX]
  have hnull : is_null_marker (32 :: 32 :: 38 :: 108 :: 116 :: 59 :: (t ++ 38 :: 103 :: 116 ::
      59 :: (w ++ 38 :: 108 :: 116 :: 59 :: 47 :: (t ++ [38, 103, 116, 59, 32, 32])))) =
      false := by
    have n1 : str "nan" = [110, 97, 110] := by decide
    have n2 : str "null" = [110, 117, 108, 108] := by decide
    have n3 : str "n/a" = [110, 47, 97] := by decide
    have c1 : cstr (32 :: 32 :: 38 :: 108 :: 116 :: 59 :: (t ++ 38 :: 103 :: 116 ::
      59 :: (w ++ 38 :: 108 :: 116 :: 59 :: 47 :: (t ++ [38, 103, 116, 59, 32, 32])))) ≠ [] := by
      rw [cstr_cons_ne 32 _ (by decide)]
      simp
    simp [is_null_marker, n1, n2, n3, strcasecmp_portable, tolower, c1]
  unfold clean_text
  simp only [hnull, Bool.false_eq_true, ↓reduceIte, c4_stages t w strict hw ht]
  have h1 : ¬ w.length < MIN_TEXT_LENGTH := by simp only [MIN_TEXT_LENGTH]; omega
  have h2 : ¬ w.length ≥ MAX_LINE_LENGTH := by simp only [MAX_LINE_LENGTH]; omega
  simp [h1, h2]

/-- C4 (witness): `"  &lt;b&gt;hello&lt;/b&gt;  "` is normalized to `hello`. -/
theorem clean_text_decode_then_strip_witness :
    clean_text (str "  &lt;b&gt;hello&lt;/b&gt;  ") MAX_LINE_LENGTH false = str "hello" ∧
      clean_text (str "  &lt;b&gt;hello&lt;/b&gt;  ") MAX_LINE_LENGTH true = str "hello" :=
  ⟨clean_text_decode_then_strip (str "b") (str "hello") false (by decide) (by decide) (by decide),
    clean_text_decode_then_strip (str "b") (str "hello") true (by decide) (by decide) (by decide)⟩

/-! ## C5: null markers -/

theorem strcasecmp_eq_zero (a : List Nat) : ∀ (b : List Nat), 0 ∉ a → 0 ∉ b →
    a.map tolower = b.map tolower → strcasecmp_portable a b = 0 := by
  induction a with
  | nil =>
    intro b _ _ h
    cases b with
    | nil => simp [strcasecmp_portable]
    | cons c b => simp at h
  | cons c a ih =>
    intro b ha hb h
    cases b with
    | nil => simp at h
    | cons c2 b =>
      simp only [List.mem_cons, not_or] at ha hb
      simp only [List.map_cons, List.cons.injEq] at h
      simp [strcasecmp_portable, Ne.symm ha.1, Ne.symm hb.1, h.1, ih b ha.2 hb.2 h.2]

theorem nul_free_of_map_tolower (x m : List Nat) (hm : 0 ∉ m) (h : x.map tolower = m) :
    0 ∉ x := by
  intro h0
  apply hm
  rw [← h]
  exact List.mem_map.2 ⟨0, h0, rfl⟩

theorem is_null_marker_of_match (x m : List Nat) (hm : 0 ∉ m) (hfix : m.map tolower = m)
    (h : x.map tolower = m) : strcasecmp_portable x m = 0 :=
  strcasecmp_eq_zero x m (nul_free_of_map_tolower x m hm h) hm (by rw [h, hfix])

/-- C5: a text that equals `nan`, `null` or `n/a` once ASCII letters are lowered is
normalized to the empty string, in either mode. -/
theorem clean_text_null_marker (x : List Nat) (strict : Bool)
    (h : x.map tolower = str "nan" ∨ x.map tolower = str "null" ∨ x.map tolower = str "n/a") :
    clean_text x MAX_LINE_LENGTH strict = [] := by
  have hnull : is_null_marker x = true := by
    rcases h with h | h | h
    · have := is_null_marker_of_match x (str "nan") (by decide) (by decide) h
      simp [is_null_marker, this]
    · have := is_null_marker_of_match x (str "null") (by decide) (by decide) h
      simp [is_null_marker, this]
    · have := is_null_marker_of_match x (str "n/a") (by decide) (by decide) h
      simp [is_null_marker, this]
  simp [clean_text, hnull]

/-- C5 (witness): `NaN`. -/
theorem clean_text_null_marker_witness :
    (str "NaN").map tolower = str "nan" ∧ clean_text (str "NaN") MAX_LINE_LENGTH true = [] ∧
      clean_text (str "N/A") MAX_LINE_LENGTH false = [] :=
  ⟨by decide, clean_text_null_marker (str "NaN") true (Or.inl (by decide)),
    clean_text_null_marker (str "N/A") false (Or.inr (Or.inr (by decide)))⟩

/-! ## C6: minimum-length gate and required fields -/

theorem validate_field_nil_required (schema : FieldSchema) (h : schema.required = true) :
    validate_field [] schema = false := by
  simp [validate_field, cstr, size_to_int, h]

/-- C6: the result of the normalizer is empty or at least 5 bytes long; and a field whose
text after steps 1 to 6 (null marker, or the text reaching the length gate) is shorter than
5 bytes is rejected by `validate_field` under every schema with the required flag set,
in either mode. -/
theorem clean_text_min_length_gate (x : List Nat) (strict : Bool) :
    (clean_text x MAX_LINE_LENGTH strict = [] ∨
      MIN_TEXT_LENGTH ≤ (clean_text x MAX_LINE_LENGTH strict).length) ∧
    (∀ schema : FieldSchema, schema.required = true →
      (is_null_marker x = true ∨ (clean_stages x strict).length < MIN_TEXT_LENGTH) →
      validate_field (clean_text x MAX_LINE_LENGTH strict) schema = false) := by
  constructor
  · rcases clean_text_shape x MAX_LINE_LENGTH strict (by decide) with h | h
    · exact Or.inl h
    · exact Or.inr h.1
  · intro schema hreq h
    have : clean_text x MAX_LINE_LENGTH strict = [] := by
      unfold clean_text
      rcases h with h | h
      · simp [h]
      · simp [h]
    rw [this]
    exact validate_field_nil_required schema hreq

/-- C6 (witness): `abc` against the first schema entry of the sentiment preset. -/
theorem clean_text_min_length_gate_witness :
    (clean_stages (str "abc") false).length < MIN_TEXT_LENGTH ∧
      validate_field (clean_text (str "abc") MAX_LINE_LENGTH false)
        (schema_at sentiment_config 0) = false :=
  ⟨by decide, (clean_text_min_length_gate (str "abc") false).2 (schema_at sentiment_config 0)
    (by decide) (Or.inr (by decide))⟩

/-! ## C7: validator decision -/

theorem size_to_int_of_lt (n : Nat) (h : n < 2 ^ 31) : size_to_int n = (n : Int) := by
  unfold size_to_int
  have h1 : n % 2 ^ 32 = n := Nat.mod_eq_of_lt (by omega)
  rw [h1]
  have h2 : n < 2147483648 := by omega
  simp [h2]

/-- C7 (as stated, refuted): a negative `max_length` is nonzero and below every length,
yet `validate_field` accepts the field: the bound is applied only when `max_length > 0`.
(And the length is compared after conversion to `int`: a text of `2 ^ 31` bytes reads as a
negative length and is rejected by the zero-filled schema.) -/
theorem validate_field_decision_fails :
    (validate_field (str "hello") { zero_schema with max_length := -1 } = true ∧
      ({ zero_schema with max_length := -1 } : FieldSchema).max_length ≠ 0 ∧
      (((cstr (str "hello")).length : Nat) : Int) >
        ({ zero_schema with max_length := -1 } : FieldSchema).max_length) ∧
    validate_field (List.replicate (2 ^ 31) 97) zero_schema = false := by
  refine ⟨by decide, ?_⟩
  have h0 : (0 : Nat) ∉ List.replicate (2 ^ 31) 97 := by
    intro h
    exact absurd (List.eq_of_mem_replicate h) (by decide)
  have hs : size_to_int (2 ^ 31) = -2147483648 := by decide
  simp only [validate_field, cstr_eq_self _ h0, List.length_replicate, hs, zero_schema]
  decide

/-- C7 (amended): for every field shorter than `2 ^ 31` bytes and every schema (any
integer bounds), the field is reported invalid exactly when the schema is required and
the field is empty, or its length is below `min_length`, or `max_length` is positive and
the length exceeds it. -/
theorem validate_field_decision (field : List Nat) (schema : FieldSchema)
    (hlen : (cstr field).length < 2 ^ 31) :
    validate_field field schema = false ↔
      (schema.required = true ∧ (cstr field).length = 0) ∨
      ((cstr field).length : Int) < schema.min_length ∨
      (0 < schema.max_length ∧ ((cstr field).length : Int) > schema.max_length) := by
  unfold validate_field
  simp only [size_to_int_of_lt _ hlen]
  split
  · rename_i h1
    exact ⟨fun _ => Or.inl ⟨h1.1, by omega⟩, fun _ => rfl⟩
  · rename_i h1
    split
    · rename_i h2
      refine ⟨fun _ => ?_, fun _ => rfl⟩
      rcases h2 with h2 | h2
      · exact Or.inr (Or.inl h2)
      · exact Or.inr (Or.inr h2)
    · rename_i h2
      refine ⟨fun h => absurd h (by decide), ?_⟩
      rintro (h | h | h)
      · exact absurd ⟨h.1, by omega⟩ h1
      · exact absurd (Or.inl h) h2
      · exact absurd (Or.inr h) h2

/-- C7 (witness): `hello` against the first schema entry of the sentiment preset. -/
theorem validate_field_decision_witness :
    (cstr (str "hello")).length < 2 ^ 31 ∧
      (validate_field (str "hello") (schema_at sentiment_config 0) = false ↔
        ((schema_at sentiment_config 0).required = true ∧ (cstr (str "hello")).length = 0) ∨
        ((cstr (str "hello")).length : Int) < (schema_at sentiment_config 0).min_length ∨
        (0 < (schema_at sentiment_config 0).max_length ∧
          ((cstr (str "hello")).length : Int) > (schema_at sentiment_config 0).max_length)) :=
  ⟨by decide, validate_field_decision (str "hello") (schema_at sentiment_config 0) (by decide)⟩

/-! ## Lemmas: the loop body of `process_file_enhanced` -/

theorem clean_loop_append (config : ProcessingConfig) (rest : List (List Nat)) :
    ∀ (n i : Nat) (fs : List (List Nat)), i + n ≤ fs.length →
      clean_loop config n i (fs ++ rest) =
        ((clean_loop config n i fs).1 ++ rest, (clean_loop config n i fs).2.1,
          (clean_loop config n i fs).2.2) := by
  intro n
  induction n with
  | zero => intro i fs _; simp [clean_loop]
  | succ n ih =>
    intro i fs h
    have hi : i < fs.length := by omega
    have hget : (fs ++ rest).getD i [] = fs.getD i [] := by
      simp [List.getD, List.getElem?_append_left hi]
    have hset : ∀ v, (fs ++ rest).set i v = fs.set i v ++ rest := fun v => by
      rw [List.set_append]; simp [hi]
    simp only [clean_loop, hget, hset]
    split
    · rfl
    · rw [ih (i + 1) _ (by simp only [List.length_set]; omega)]

theorem clean_loop_length (config : ProcessingConfig) :
    ∀ (n i : Nat) (fs : List (List Nat)), (clean_loop config n i fs).1.length = fs.length := by
  intro n
  induction n with
  | zero => intro i fs; simp [clean_loop]
  | succ n ih =>
    intro i fs
    simp only [clean_loop]
    split
    · simp
    · rw [ih]; simp

theorem clean_loop_count (config : ProcessingConfig) :
    ∀ (n i : Nat) (fs : List (List Nat)),
      i ≤ (clean_loop config n i fs).2.1 ∧ (clean_loop config n i fs).2.1 ≤ i + n := by
  intro n
  induction n with
  | zero => intro i fs; simp [clean_loop]
  | succ n ih =>
    intro i fs
    simp only [clean_loop]
    split
    · simp
    · have := ih (i + 1) (fs.set i (clean_text (fs.getD i []) MAX_LINE_LENGTH config.strict_mode))
      omega

theorem getD_set_ne (fs : List (List Nat)) (i j : Nat) (v : List Nat) (h : i ≠ j) :
    (fs.set i v).getD j [] = fs.getD j [] := by
  simp [List.getD, List.getElem?_set_ne h]

/-- The loop ends by `valid = false; break` exactly when validation is on and one of the
fields it goes through fails `validate_field` on its cleaned text. -/
theorem clean_loop_flag (config : ProcessingConfig) :
    ∀ (n i : Nat) (fs : List (List Nat)),
      (clean_loop config n i fs).2.2 = false ↔
        (config.validate_data = true ∧ ∃ j : Nat, i ≤ j ∧ j < i + n ∧
          validate_field (clean_text (fs.getD j []) MAX_LINE_LENGTH config.strict_mode)
            (schema_at config j) = false) := by
  intro n
  induction n with
  | zero =>
    intro i fs
    simp only [clean_loop, Bool.true_eq_false, false_iff, not_and, not_exists]
    intro _ j h1 h2
    omega
  | succ n ih =>
    intro i fs
    simp only [clean_loop]
    split
    · rename_i h
      simp only [true_iff]
      exact ⟨h.1, i, le_rfl, by omega, h.2⟩
    · rename_i h
      rw [ih]
      constructor
      · rintro ⟨hv, j, h1, h2, h3⟩
        rw [getD_set_ne _ _ _ _ (by omega)] at h3
        exact ⟨hv, j, by omega, by omega, h3⟩
      · rintro ⟨hv, j, h1, h2, h3⟩
        have hji : j ≠ i := by
          rintro rfl
          exact h ⟨hv, h3⟩
        refine ⟨hv, j, by omega, by omega, ?_⟩
        rw [getD_set_ne _ _ _ _ (by omega)]
        exact h3

theorem record_valid_eq_false (config : ProcessingConfig) (parsed : List (List Nat)) :
    record_valid config parsed = false ↔ record_fails config parsed := by
  unfold record_valid record_fails record_loop
  rw [Bool.and_eq_false_iff, clean_loop_flag]
  simp only [Bool.not_eq_false', decide_eq_true_eq, zero_le, Nat.zero_add, true_and]
  constructor
  · rintro (h | ⟨hv, j, hj, h⟩)
    · exact Or.inl h
    · exact Or.inr ⟨hv, j, by omega, by omega, h⟩
  · rintro (h | ⟨hv, j, h1, h2, h⟩)
    · exact Or.inl h
    · exact Or.inr ⟨hv, j, by omega, h⟩

theorem clean_loop_rows (config : ProcessingConfig) (rest parsed : List (List Nat)) :
    clean_loop config (min parsed.length config.field_count.toNat) 0 (parsed ++ rest) =
      ((record_loop config parsed).1 ++ rest, (record_loop config parsed).2.1,
        (record_loop config parsed).2.2) :=
  clean_loop_append config rest _ 0 parsed (by omega)

/-- Strict mode, invalid record: nothing is written, only `error_lines` moves. -/
theorem process_record_strict (config : ProcessingConfig) (st : RunState)
    (parsed : List (List Nat)) (hstrict : config.strict_mode = true)
    (hinv : record_valid config parsed = false) :
    ∃ st1, process_record config st parsed = some st1 ∧ st1.out = st.out ∧
      st1.seen_hashes = st.seen_hashes ∧
      st1.stats.total_lines = st.stats.total_lines ∧
      st1.stats.processed_lines = st.stats.processed_lines ∧
      st1.stats.duplicate_lines = st.stats.duplicate_lines ∧
      st.stats.error_lines < st1.stats.error_lines := by
  unfold process_record
  simp only [clean_loop_rows]
  unfold record_valid at hinv
  by_cases hshort : (parsed.length : Int) < config.field_count
  · simp [hshort, hstrict]
  · simp only [hshort, decide_False, Bool.not_false, Bool.true_and] at hinv
    simp [hshort, hstrict, hinv]

theorem primary_field_row (config : ProcessingConfig) (rest parsed : List (List Nat))
    (h : 0 < parsed.length) :
    ((record_loop config parsed).1 ++ rest).getD 0 [] = primary_field config parsed := by
  have hl : 0 < (record_loop config parsed).1.length := by
    unfold record_loop; rw [clean_loop_length]; exact h
  unfold primary_field
  simp [List.getD, List.getElem?_append_left hl]

theorem is_duplicate_of_mem (text seen : List Nat) (cap : Int) (h : hash_string text ∈ seen) :
    is_duplicate text seen cap = (true, seen) := by
  simp [is_duplicate, h]

theorem is_duplicate_of_not_mem (text seen : List Nat) (cap : Int) (h : hash_string text ∉ seen) :
    is_duplicate text seen cap =
      (false, if (seen.length : Int) < cap then seen ++ [hash_string text] else seen) := by
  unfold is_duplicate
  simp only [h, ↓reduceIte]
  split <;> rfl

/-- A surviving record whose primary field hashes to a recorded value is a duplicate. -/
theorem process_record_duplicate (config : ProcessingConfig) (st : RunState)
    (parsed : List (List Nat))
    (hsurv : ¬ (record_valid config parsed = false ∧ config.strict_mode = true))
    (hrd : config.remove_duplicates = true) (hn : 0 < parsed.length)
    (hmem : hash_string (primary_field config parsed) ∈ st.seen_hashes) :
    ∃ st1, process_record config st parsed = some st1 ∧ st1.out = st.out ∧
      st1.seen_hashes = st.seen_hashes ∧
      st1.stats.total_lines = st.stats.total_lines ∧
      st1.stats.processed_lines = st.stats.processed_lines ∧
      st1.stats.duplicate_lines = st.stats.duplicate_lines + 1 := by
  unfold process_record
  simp only [clean_loop_rows, primary_field_row config _ parsed hn]
  unfold record_valid at hsurv
  have hdup := is_duplicate_of_mem (primary_field config parsed) st.seen_hashes
    (alloc_size config) hmem
  by_cases hshort : (parsed.length : Int) < config.field_count
  · have hstrict : config.strict_mode = false := by
      simpa [hshort] using hsurv
    simp [hshort, hstrict, hrd, hn, hdup]
  · by_cases hflag : (record_loop config parsed).2.2 = true
    · simp [hshort, hflag, hrd, hn, hdup]
    · have hstrict : config.strict_mode = false := by
        simpa [hshort, hflag] using hsurv
      simp [hshort, hflag, hstrict, hrd, hn, hdup]

/-- A surviving record that is not a duplicate goes to the serializer; the step is
defined exactly when the serializer reads assigned pointers only. -/
theorem process_record_emit (config : ProcessingConfig) (st : RunState)
    (parsed : List (List Nat))
    (hsurv : ¬ (record_valid config parsed = false ∧ config.strict_mode = true))
    (hnew : ¬ (config.remove_duplicates = true ∧ 0 < parsed.length ∧
      hash_string (primary_field config parsed) ∈ st.seen_hashes)) :
    process_record config st parsed =
      (write_record config ((record_loop config parsed).1 ++ st.fields.drop parsed.length)
        (max st.ptrs (record_loop config parsed).2.1) parsed.length).map (fun unit =>
          { stats := { st.stats with
                        error_lines := st.stats.error_lines + record_errors config parsed,
                        processed_lines := st.stats.processed_lines + 1,
                        avg_text_length := st.stats.avg_text_length +
                          (cstr (((record_loop config parsed).1 ++
                            st.fields.drop parsed.length).getD 0 [])).length },
            fields := (record_loop config parsed).1 ++ st.fields.drop parsed.length,
            ptrs := max st.ptrs (record_loop config parsed).2.1,
            seen_hashes := seen_after config st parsed,
            out := st.out ++ [unit] }) := by
  unfold process_record
  simp only [clean_loop_rows]
  unfold record_errors seen_after
  unfold record_valid at hsurv ⊢
  by_cases hrd : config.remove_duplicates = true ∧ 0 < parsed.length
  · have hnm : hash_string (primary_field config parsed) ∉ st.seen_hashes :=
      fun h => hnew ⟨hrd.1, hrd.2, h⟩
    have hdup := is_duplicate_of_not_mem (primary_field config parsed) st.seen_hashes
      (alloc_size config) hnm
    simp only [primary_field_row config _ parsed hrd.2]
    by_cases hshort : (parsed.length : Int) < config.field_count
    · have hstrict : config.strict_mode = false := by
        simpa [hshort] using hsurv
      by_cases hroom : (st.seen_hashes.length : Int) < alloc_size config <;>
        simp [hshort, hstrict, hrd, hdup, hroom]
    · by_cases hflag : (record_loop config parsed).2.2 = true
      · by_cases hroom : (st.seen_hashes.length : Int) < alloc_size config <;>
          simp [hshort, hflag, hrd, hdup, hroom]
      · have hstrict : config.strict_mode = false := by
          simpa [hshort, hflag] using hsurv
        by_cases hroom : (st.seen_hashes.length : Int) < alloc_size config <;>
          simp [hshort, hflag, hstrict, hrd, hdup, hroom]
  · have hrd2 : ¬ (config.remove_duplicates = true ∧ parsed.length > 0) := hrd
    have hrd3 : ¬ (config.remove_duplicates = true ∧ 0 < parsed.length ∧
        (st.seen_hashes.length : Int) < alloc_size config) := fun h => hrd ⟨h.1, h.2.1⟩
    by_cases hshort : (parsed.length : Int) < config.field_count
    · have hstrict : config.strict_mode = false := by
        simpa [hshort] using hsurv
      simp [hshort, hstrict, hrd2, hrd3]
    · by_cases hflag : (record_loop config parsed).2.2 = true
      · simp [hshort, hflag, hrd2, hrd3]
      · have hstrict : config.strict_mode = false := by
          simpa [hshort, hflag] using hsurv
        simp [hshort, hflag, hstrict, hrd2, hrd3]

theorem mem_seen_after (config : ProcessingConfig) (st : RunState) (parsed : List (List Nat))
    (x : Nat) (h : x ∈ st.seen_hashes) : x ∈ seen_after config st parsed := by
  unfold seen_after
  split
  · exact List.mem_append_left _ h
  · exact h

/-- What one defined run of the loop body after tokenizing does to the counters and to
the hash table. -/
theorem process_record_facts (config : ProcessingConfig) (st st1 : RunState)
    (parsed : List (List Nat)) (h : process_record config st parsed = some st1) :
    st.stats.processed_lines ≤ st1.stats.processed_lines ∧
      st1.stats.processed_lines ≤ st.stats.processed_lines + 1 ∧
      (∀ x ∈ st.seen_hashes, x ∈ st1.seen_hashes) ∧
      (st1.stats.processed_lines = st.stats.processed_lines + 1 →
        st1.seen_hashes = seen_after config st parsed) := by
  by_cases c1 : record_valid config parsed = false ∧ config.strict_mode = true
  · obtain ⟨s, hs, _, h2, _, h4, _, _⟩ := process_record_strict config st parsed c1.2 c1.1
    rw [hs] at h
    cases h
    refine ⟨by omega, by omega, fun x hx => by rw [h2]; exact hx, fun hp => by omega⟩
  · by_cases c2 : config.remove_duplicates = true ∧ 0 < parsed.length ∧
        hash_string (primary_field config parsed) ∈ st.seen_hashes
    · obtain ⟨s, hs, _, h2, _, h4, _⟩ :=
        process_record_duplicate config st parsed c1 c2.1 c2.2.1 c2.2.2
      rw [hs] at h
      cases h
      refine ⟨by omega, by omega, fun x hx => by rw [h2]; exact hx, fun hp => by omega⟩
    · rw [process_record_emit config st parsed c1 c2, Option.map_eq_some'] at h
      obtain ⟨unit, _, rfl⟩ := h
      exact ⟨by simp, by simp, fun x hx => mem_seen_after config st parsed x hx, fun _ => rfl⟩

theorem process_line_facts (config : ProcessingConfig) (st st1 : RunState) (raw : List Nat)
    (h : process_line config st raw = some st1) :
    st.stats.processed_lines ≤ st1.stats.processed_lines ∧
      st1.stats.processed_lines ≤ st.stats.processed_lines + 1 ∧
      (∀ x ∈ st.seen_hashes, x ∈ st1.seen_hashes) ∧
      (st1.stats.processed_lines = st.stats.processed_lines + 1 →
        st1.seen_hashes = seen_after config st (line_tokens config raw)) := by
  unfold process_line at h
  simp only at h
  split at h
  · cases h
    exact ⟨by simp, by simp, fun x hx => hx, fun hp => by simp at hp⟩
  · have := process_record_facts config _ st1 _ h
    simpa [seen_after, line_tokens] using this

theorem process_all_seen (config : ProcessingConfig) :
    ∀ (lines : List (List Nat)) (st st1 : RunState), process_all config lines st = some st1 →
      ∀ x ∈ st.seen_hashes, x ∈ st1.seen_hashes := by
  intro lines
  induction lines with
  | nil =>
    intro st st1 h x hx
    simp only [process_all, Option.some.injEq] at h
    rw [← h]; exact hx
  | cons raw rest ih =>
    intro st st1 h x hx
    simp only [process_all, Option.bind_eq_some] at h
    obtain ⟨s, hs, hrest⟩ := h
    exact ih s st1 hrest x ((process_line_facts config st s raw hs).2.2.1 x hx)

theorem parse_finish_pos (m : Nat) (acc : List (List Nat)) (b : List Nat) (hm : 0 < m) :
    0 < (parse_finish m acc b).length := by
  unfold parse_finish
  split
  · simp
  · omega

theorem parse_loop_pos (q d m : Nat) (hm : 0 < m) :
    ∀ (n : Nat) (L : List Nat), L.length ≤ n → ∀ (acc : List (List Nat)) (inq : Bool)
      (b : List Nat), 0 < (parse_loop q d m L acc inq b).length := by
  intro n
  induction n with
  | zero =>
    intro L hL acc inq b
    have : L = [] := List.length_eq_zero.mp (Nat.le_zero.mp hL)
    subst this
    rw [parse_loop_nil]
    exact parse_finish_pos m acc b hm
  | succ n ih =>
    intro L hL acc inq b
    cases L with
    | nil => rw [parse_loop_nil]; exact parse_finish_pos m acc b hm
    | cons c ptr =>
      have hptr : ptr.length ≤ n := by simp only [List.length_cons] at hL; omega
      have htail : ptr.tail.length ≤ n := by rw [List.length_tail]; omega
      rw [parse_loop_cons]
      split
      · exact parse_finish_pos m acc b hm
      · split
        · split
          · exact ih _ htail _ _ _
          · exact ih _ hptr _ _ _
        · split
          · exact ih _ hptr _ _ _
          · exact ih _ hptr _ _ _

theorem line_tokens_pos (config : ProcessingConfig) (raw : List Nat) :
    0 < (line_tokens config raw).length :=
  parse_loop_pos _ _ MAX_FIELDS (by decide) _ _ le_rfl _ _ _

/-! ## Strict and non-strict mode on an invalid record -/

/-- Non-strict mode: a line whose record fails validation goes on to the duplicate
check; a duplicate is counted and not written; otherwise the record goes to the
serializer and, when the serializer reads assigned pointers only, one unit is written and
`processed_lines` is incremented; `error_lines` increases in both cases. -/
theorem process_line_nonstrict_invalid (config : ProcessingConfig) (st : RunState)
    (raw : List Nat) (hline : strip_newline raw ≠ []) (hstrict : config.strict_mode = false)
    (hfail : record_fails config (line_tokens config raw)) :
    (config.remove_duplicates = true →
      hash_string (primary_field config (line_tokens config raw)) ∈ st.seen_hashes →
      ∃ st1, process_line config st raw = some st1 ∧ st1.out = st.out ∧
        st1.stats.processed_lines = st.stats.processed_lines ∧
        st1.stats.duplicate_lines = st.stats.duplicate_lines + 1) ∧
    (¬ (config.remove_duplicates = true ∧
        hash_string (primary_field config (line_tokens config raw)) ∈ st.seen_hashes) →
      ∀ unit, write_record config
          ((record_loop config (line_tokens config raw)).1 ++
            st.fields.drop (line_tokens config raw).length)
          (max st.ptrs (record_loop config (line_tokens config raw)).2.1)
          (line_tokens config raw).length = some unit →
      ∃ st1, process_line config st raw = some st1 ∧ st1.out = st.out ++ [unit] ∧
        st1.stats.processed_lines = st.stats.processed_lines + 1 ∧
        st1.stats.duplicate_lines = st.stats.duplicate_lines ∧
        st.stats.error_lines < st1.stats.error_lines) := by
  have hlen : (strip_newline raw).length ≠ 0 := fun h => hline (List.length_eq_zero.mp h)
  have hsurv : ¬ (record_valid config (line_tokens config raw) = false ∧
      config.strict_mode = true) := by simp [hstrict]
  have hinv := (record_valid_eq_false _ _).2 hfail
  constructor
  · intro hrd hmem
    obtain ⟨s, hs, h1, _, _, h4, h5⟩ := process_record_duplicate config
      { st with stats := { st.stats with total_lines := st.stats.total_lines + 1 } }
      (line_tokens config raw) hsurv hrd (line_tokens_pos config raw) hmem
    refine ⟨s, ?_, h1, h4, h5⟩
    unfold process_line
    simp only [hlen, ↓reduceIte]
    exact hs
  · intro hnew unit hw
    have hnew2 : ¬ (config.remove_duplicates = true ∧ 0 < (line_tokens config raw).length ∧
        hash_string (primary_field config (line_tokens config raw)) ∈
          ({ st with stats := { st.stats with total_lines := st.stats.total_lines + 1 } } :
            RunState).seen_hashes) := fun h => hnew ⟨h.1, h.2.2⟩
    have he := process_record_emit config
      { st with stats := { st.stats with total_lines := st.stats.total_lines + 1 } }
      (line_tokens config raw) hsurv hnew2
    simp only [hw, Option.map_some'] at he
    have hpl : process_line config st raw = process_record config
        { st with stats := { st.stats with total_lines := st.stats.total_lines + 1 } }
        (line_tokens config raw) := by
      unfold process_line
      simp only [hlen, ↓reduceIte]
      rfl
    rw [hpl, he]
    refine ⟨_, rfl, rfl, rfl, rfl, ?_⟩
    simp only [record_errors, hinv, Bool.false_eq_true, ↓reduceIte]
    omega

/-- A serializer call that reads an unassigned pointer: with the sentiment preset in
non-strict mode and text output, the first data line `hello world` has one field where two
are declared; the record goes to the serializer, which reads `field_ptrs[1]`, never
assigned by this or an earlier line; the read is undefined behaviour. -/
theorem nonstrict_invalid_record_undefined :
    strip_newline (str "hello world\n") ≠ [] ∧
      sentiment_config.strict_mode = false ∧
      line_tokens sentiment_config (str "hello world\n") = [str "hello world"] ∧
      record_fails sentiment_config (line_tokens sentiment_config (str "hello world\n")) ∧
      field_ptr ((record_loop sentiment_config [str "hello world"]).1 ++ initial_state.fields)
        (max initial_state.ptrs (record_loop sentiment_config [str "hello world"]).2.1) 1 = none ∧
      process_line sentiment_config initial_state (str "hello world\n") = none ∧
      process_lines sentiment_config initial_state
        [str "text,sentiment\n", str "hello world\n"] = none :=
  ⟨by decide, by decide, by decide, Or.inl (by decide), by decide, by decide, by decide⟩

/-! ## C9: duplicate suppression -/

/-- C9: with `remove_duplicates` on and room in the hash table, once a line has been
processed, a later line of the run that survives validation and has the same cleaned
primary field is a duplicate: `duplicate_lines` goes up by exactly one, `processed_lines`
is unchanged and nothing is written. -/
theorem duplicate_suppressed (config : ProcessingConfig) (st st1 st2 : RunState)
    (a b : List Nat) (mid : List (List Nat))
    (hrd : config.remove_duplicates = true)
    (hroom : (st.seen_hashes.length : Int) < alloc_size config)
    (ha : process_line config st a = some st1)
    (hproc : st1.stats.processed_lines = st.stats.processed_lines + 1)
    (hmid : process_all config mid st1 = some st2)
    (hb : survives config b)
    (hsame : primary_field config (line_tokens config b) =
      primary_field config (line_tokens config a)) :
    ∃ st3, process_line config st2 b = some st3 ∧
      st3.stats.duplicate_lines = st2.stats.duplicate_lines + 1 ∧
      st3.stats.processed_lines = st2.stats.processed_lines ∧
      st3.out = st2.out := by
  have hseen1 : hash_string (primary_field config (line_tokens config a)) ∈ st1.seen_hashes := by
    rw [(process_line_facts config st st1 a ha).2.2.2 hproc]
    simp [seen_after, hrd, hroom, line_tokens_pos config a]
  have hseen2 : hash_string (primary_field config (line_tokens config b)) ∈ st2.seen_hashes := by
    rw [hsame]
    exact process_all_seen config mid st1 st2 hmid _ hseen1
  have hlen : (strip_newline b).length ≠ 0 := fun h => hb.1 (List.length_eq_zero.mp h)
  obtain ⟨s, hs, h1, _, _, h4, h5⟩ := process_record_duplicate config
    { st2 with stats := { st2.stats with total_lines := st2.stats.total_lines + 1 } }
    (line_tokens config b) hb.2 hrd (line_tokens_pos config b) hseen2
  refine ⟨s, ?_, h5, h4, h1⟩
  unfold process_line
  simp only [hlen, ↓reduceIte]
  exact hs

/-- C9 (witness): two lines with the same primary field (the second with another label):
the first is processed, the second is a duplicate; the run ends with one processed line,
one duplicate line and one output unit. -/
theorem duplicate_suppressed_witness :
    process_line dedup_config initial_state (str "Great stuff! ,positive\n") =
      some after_first_line ∧
    survives dedup_config (str "Great stuff!,negative\n") ∧
    (∃ st3, process_line dedup_config after_first_line (str "Great stuff!,negative\n") =
        some st3 ∧
      st3.stats.duplicate_lines = after_first_line.stats.duplicate_lines + 1 ∧
      st3.stats.processed_lines = after_first_line.stats.processed_lines ∧
      st3.out = after_first_line.out) ∧
    (stream dedup_config [str "Great stuff! ,positive\n", str "Great stuff!,negative\n"]
        initial_state).map
      (fun s => (s.stats.processed_lines, s.stats.duplicate_lines, s.out.length)) =
      some (1, 1, 1) :=
  ⟨by decide, ⟨by decide, by decide⟩,
    duplicate_suppressed dedup_config initial_state after_first_line after_first_line
      (str "Great stuff! ,positive\n") (str "Great stuff!,negative\n") []
      (by decide) (by decide) (by decide) (by decide) (by decide) ⟨by decide, by decide⟩
      (by decide),
    by decide⟩

/-! ## C10: the `max_lines` cap -/

theorem stream_states_cap (config : ProcessingConfig) (n : Nat) (hn : 0 < n)
    (hmax : config.max_lines = (n : Int)) :
    ∀ (lines : List (List Nat)) (st : RunState), st.stats.processed_lines ≤ n →
      ∀ s ∈ stream_states config lines st, s.stats.processed_lines ≤ n := by
  intro lines
  induction lines with
  | nil =>
    intro st h s hs
    simp only [stream_states, List.mem_singleton] at hs
    rw [hs]; exact h
  | cons raw rest ih =>
    intro st h s hs
    unfold stream_states at hs
    split at hs
    · rename_i hguard
      have hlt : st.stats.processed_lines < n := by
        simp only [may_process, hmax, decide_eq_true_eq] at hguard
        omega
      split at hs
      · simp only [List.mem_singleton] at hs
        rw [hs]; exact h
      · rename_i st1 hstep
        rcases List.mem_cons.1 hs with hs | hs
        · rw [hs]; exact h
        · have := (process_line_facts config st st1 raw hstep).2.1
          exact ih st1 (by omega) s hs
    · simp only [List.mem_singleton] at hs
      rw [hs]; exact h

theorem stream_mem_states (config : ProcessingConfig) :
    ∀ (lines : List (List Nat)) (st s : RunState), stream config lines st = some s →
      s ∈ stream_states config lines st := by
  intro lines
  induction lines with
  | nil =>
    intro st s h
    simp only [stream, Option.some.injEq] at h
    simp [stream_states, h]
  | cons raw rest ih =>
    intro st s h
    unfold stream at h
    unfold stream_states
    split at h
    · rename_i hguard
      simp only [hguard, ↓reduceIte]
      rw [Option.bind_eq_some] at h
      obtain ⟨st1, hstep, hrest⟩ := h
      simp only [hstep]
      exact List.mem_cons_of_mem _ (ih st1 s hrest)
    · rename_i hguard
      simp only [Option.some.injEq] at h
      subst h
      simp [hguard]

/-- C10: with `max_lines = n > 0` and a run started with no line processed,
`processed_lines` is at most `n` in every state the streaming loop goes through, in the
state in which the loop is left, and at the end of the run from the initial state
(skipped lines and header included), whatever the input. -/
theorem max_lines_cap (config : ProcessingConfig) (n : Nat) (hn : 0 < n)
    (hmax : config.max_lines = (n : Int)) (lines : List (List Nat)) (st : RunState)
    (hzero : st.stats.processed_lines = 0) :
    (∀ s ∈ stream_states config lines st, s.stats.processed_lines ≤ n) ∧
    (∀ s, stream config lines st = some s → s.stats.processed_lines ≤ n) ∧
    (∀ s, process_lines config initial_state lines = some s → s.stats.processed_lines ≤ n) := by
  have hcap := stream_states_cap config n hn hmax
  refine ⟨hcap lines st (by omega), fun s hs => hcap lines st (by omega) s
    (stream_mem_states config lines st s hs), ?_⟩
  intro s hs
  unfold process_lines at hs
  simp only at hs
  split at hs
  · exact hcap _ _ (by simp [initial_state]) s (stream_mem_states config _ _ s hs)
  · exact hcap _ _ (by simp [initial_state]) s (stream_mem_states config _ _ s hs)

/-- C10 (witness): `max_lines = 2` and four good lines: two lines are processed. -/
theorem max_lines_cap_witness :
    (process_lines capped_config initial_state
        [str "first line,positive\n", str "second line,negative\n", str "third line,positive\n",
         str "fourth line,negative\n"]).map (fun s => s.stats.processed_lines) = some 2 ∧
    ∀ s, process_lines capped_config initial_state
        [str "first line,positive\n", str "second line,negative\n", str "third line,positive\n",
         str "fourth line,negative\n"] = some s → s.stats.processed_lines ≤ 2 :=
  ⟨by decide,
    (max_lines_cap capped_config 2 (by decide) (by decide)
      [str "first line,positive\n", str "second line,negative\n", str "third line,positive\n",
       str "fourth line,negative\n"] initial_state (by decide)).2.2⟩

/-! ## C11: JSON serialization in the pipeline -/

theorem mapM_option_some {α β : Type} (f : α → Option β) (g : α → β) :
    ∀ (l : List α), (∀ a ∈ l, f a = some (g a)) → l.mapM f = some (l.map g) := by
  intro l
  induction l with
  | nil => intro _; rfl
  | cons a l ih =>
    intro h
    rw [List.mapM_cons, h a (List.mem_cons_self a l),
      ih (fun x hx => h x (List.mem_cons_of_mem a hx))]
    rfl

theorem mapM_option_none {α β : Type} (f : α → Option β) :
    ∀ (l : List α), (∃ a ∈ l, f a = none) → l.mapM f = none := by
  intro l
  induction l with
  | nil => intro h; obtain ⟨a, ha, _⟩ := h; simp at ha
  | cons a l ih =>
    intro h
    rw [List.mapM_cons]
    cases hfa : f a with
    | none => rfl
    | some b =>
      obtain ⟨x, hx, hfx⟩ := h
      rcases List.mem_cons.1 hx with rfl | hx
      · rw [hfa] at hfx; cases hfx
      · rw [ih ⟨x, hx, hfx⟩]
        rfl

/-- The JSON writer on assigned pointers: one pair per index below `field_count`. -/
theorem write_output_json_assigned (fields : Nat → Option (List Nat)) (v : Nat → List Nat)
    (schema : Nat → FieldSchema) (n : Nat) (h : ∀ i, i < n → fields i = some (v i)) :
    write_output_json fields schema n =
      some (str "\x7b" ++ ((List.range n).map (fun i => json_pair (schema i) (v i) i)).flatten ++
        str "\x7d\n") := by
  unfold write_output_json
  rw [mapM_option_some _ (fun i => json_pair (schema i) (v i) i)]
  · rfl
  · intro i hi
    rw [h i (List.mem_range.1 hi)]
    rfl

/-- The JSON writer is undefined as soon as one pointer below `field_count` is unassigned. -/
theorem write_output_json_unassigned (fields : Nat → Option (List Nat))
    (schema : Nat → FieldSchema) (n i : Nat) (hi : i < n) (h : fields i = none) :
    write_output_json fields schema n = none := by
  unfold write_output_json
  rw [mapM_option_none _ _ ⟨i, List.mem_range.2 hi, by rw [h]; rfl⟩]
  rfl

/-- C11 (the code at the failing input): with the sentiment schema (`text`, `sentiment`)
and JSON output, the line `Great! ,positive` gives `{"text":"Great!","sentiment":"positive"}`
and a newline, as the claim says.  The line `Great stuff,positive,extra` has three fields
where two are declared: the record is valid, the serializer is called with the tokenizer's
count 3 and reads `field_ptrs[2]`, which the clean loop never assigns: the step is
undefined instead of writing the two declared pairs.  After a full line, the line
`hello world` (one field, non-strict mode) is written with one pair only. -/
theorem json_pairs_follow_token_count :
    (process_line json_config initial_state (str "Great! ,positive\n")).map (fun s => s.out) =
      some [str "\x7b\"text\":\"Great!\",\"sentiment\":\"positive\"\x7d\n"] ∧
    json_config.field_count = 2 ∧
    line_tokens json_config (str "Great stuff,positive,extra\n") =
      [str "Great stuff", str "positive", str "extra"] ∧
    record_valid json_config (line_tokens json_config (str "Great stuff,positive,extra\n")) =
      true ∧
    process_line json_config initial_state (str "Great stuff,positive,extra\n") = none ∧
    process_lines json_config initial_state
      [str "text,sentiment\n", str "Great stuff,positive,extra\n"] = none ∧
    (process_all json_config [str "Great! ,positive\n", str "hello world\n"]
        initial_state).map (fun s => (s.stats.processed_lines, s.out)) =
      some (2, [str "\x7b\"text\":\"Great!\",\"sentiment\":\"positive\"\x7d\n",
        str "\x7b\"text\":\"hello world\"\x7d\n"]) := by
  decide

/-! ## Lemmas: the three exits of the loop body, with exact counters -/

theorem process_record_strict_exact (config : ProcessingConfig) (st : RunState)
    (parsed : List (List Nat)) (hstrict : config.strict_mode = true)
    (hinv : record_valid config parsed = false) :
    ∃ st1, process_record config st parsed = some st1 ∧ st1.out = st.out ∧
      st1.seen_hashes = st.seen_hashes ∧
      st1.stats = { st.stats with error_lines := st.stats.error_lines + 1 } := by
  unfold process_record
  simp only [clean_loop_rows]
  unfold record_valid at hinv
  by_cases hshort : (parsed.length : Int) < config.field_count
  · simp [hshort, hstrict]
  · simp only [hshort, decide_False, Bool.not_false, Bool.true_and] at hinv
    simp [hshort, hstrict, hinv]

theorem process_record_duplicate_exact (config : ProcessingConfig) (st : RunState)
    (parsed : List (List Nat))
    (hsurv : ¬ (record_valid config parsed = false ∧ config.strict_mode = true))
    (hrep : is_repeat config st parsed) :
    ∃ st1, process_record config st parsed = some st1 ∧ st1.out = st.out ∧
      st1.seen_hashes = st.seen_hashes ∧
      st1.stats = { st.stats with
        error_lines := st.stats.error_lines + record_errors config parsed,
        duplicate_lines := st.stats.duplicate_lines + 1 } := by
  obtain ⟨hrd, hn, hmem⟩ := hrep
  unfold process_record
  simp only [clean_loop_rows, primary_field_row config _ parsed hn]
  unfold record_errors
  unfold record_valid at hsurv ⊢
  have hdup := is_duplicate_of_mem (primary_field config parsed) st.seen_hashes
    (alloc_size config) hmem
  by_cases hshort : (parsed.length : Int) < config.field_count
  · have hstrict : config.strict_mode = false := by
      simpa [hshort] using hsurv
    simp [hshort, hstrict, hrd, hn, hdup]
  · by_cases hflag : (record_loop config parsed).2.2 = true
    · simp [hshort, hflag, hrd, hn, hdup]
    · have hstrict : config.strict_mode = false := by
        simpa [hshort, hflag] using hsurv
      simp [hshort, hflag, hstrict, hrd, hn, hdup]

/-- Every defined run of the loop body after tokenizing leaves by one of three exits:
strict rejection, duplicate, or serialization. -/
theorem process_record_result (config : ProcessingConfig) (st st1 : RunState)
    (parsed : List (List Nat)) (h : process_record config st parsed = some st1) :
    ((record_valid config parsed = false ∧ config.strict_mode = true) ∧
      st1.out = st.out ∧ st1.seen_hashes = st.seen_hashes ∧
      st1.stats = { st.stats with error_lines := st.stats.error_lines + 1 }) ∨
    (¬ (record_valid config parsed = false ∧ config.strict_mode = true) ∧
      is_repeat config st parsed ∧
      st1.out = st.out ∧ st1.seen_hashes = st.seen_hashes ∧
      st1.stats = { st.stats with
        error_lines := st.stats.error_lines + record_errors config parsed,
        duplicate_lines := st.stats.duplicate_lines + 1 }) ∨
    (¬ (record_valid config parsed = false ∧ config.strict_mode = true) ∧
      ¬ is_repeat config st parsed ∧
      ∃ unit, write_record config (rows_after config st parsed) (ptrs_after config st parsed)
          parsed.length = some unit ∧
        st1.out = st.out ++ [unit] ∧ st1.fields = rows_after config st parsed ∧
        st1.ptrs = ptrs_after config st parsed ∧
        st1.seen_hashes = seen_after config st parsed ∧
        st1.stats = { st.stats with
          error_lines := st.stats.error_lines + record_errors config parsed,
          processed_lines := st.stats.processed_lines + 1,
          avg_text_length := st.stats.avg_text_length +
            (cstr ((rows_after config st parsed).getD 0 [])).length }) := by
  by_cases c1 : record_valid config parsed = false ∧ config.strict_mode = true
  · obtain ⟨s, hs, h1, h2, h3⟩ := process_record_strict_exact config st parsed c1.2 c1.1
    rw [hs] at h
    cases h
    exact Or.inl ⟨c1, h1, h2, h3⟩
  · by_cases c2 : is_repeat config st parsed
    · obtain ⟨s, hs, h1, h2, h3⟩ := process_record_duplicate_exact config st parsed c1 c2
      rw [hs] at h
      cases h
      exact Or.inr (Or.inl ⟨c1, c2, h1, h2, h3⟩)
    · rw [process_record_emit config st parsed c1 c2, Option.map_eq_some'] at h
      obtain ⟨unit, hw, rfl⟩ := h
      exact Or.inr (Or.inr ⟨c1, c2, unit, hw, rfl, rfl, rfl, rfl, rfl⟩)

theorem process_line_nonempty (config : ProcessingConfig) (st : RunState) (raw : List Nat)
    (h : strip_newline raw ≠ []) :
    process_line config st raw = process_record config
      { st with stats := { st.stats with total_lines := st.stats.total_lines + 1 } }
      (line_tokens config raw) := by
  have hlen : (strip_newline raw).length ≠ 0 := fun h0 => h (List.length_eq_zero.mp h0)
  unfold process_line
  simp only [hlen, ↓reduceIte]
  rfl

theorem process_line_empty (config : ProcessingConfig) (st : RunState) (raw : List Nat)
    (h : strip_newline raw = []) :
    process_line config st raw =
      some { st with stats := { st.stats with total_lines := st.stats.total_lines + 1 } } := by
  unfold process_line
  simp [h]

/-! ## C12: text serialization -/

/-- C12: for every record (field strings `f 0`, `f 1`, ...), `write_output_txt` writes, by
dataset type, the lines `Text: <f0>` / `Sentiment: <f1>` (Sentiment), `Problem: <f0>` /
`Difficulty: <f1>` / `Description: <f2>` (Leetcode), `Question: <f0>` / `Answer: <f1>` (QA),
`Text: <f0>` / `Category: <f1>` (Classification), and for any other type one line
`<schema-name>: <value>` per field in schema order; every block ends with the line `---`.
Sentiment with the fields `Great!`, `positive` gives
`Text: Great!\nSentiment: positive\n---\n`. -/
theorem write_output_txt_blocks (f : Nat → List Nat) (schema : Nat → FieldSchema) (n : Nat) :
    write_output_txt (fun i => some (f i)) schema n .TYPE_SENTIMENT =
      some (str "Text: " ++ cstr (f 0) ++ str "\n" ++ str "Sentiment: " ++ cstr (f 1) ++ str "\n"
        ++ str "---\n") ∧
    write_output_txt (fun i => some (f i)) schema n .TYPE_LEETCODE =
      some (str "Problem: " ++ cstr (f 0) ++ str "\n" ++ str "Difficulty: " ++ cstr (f 1) ++
        str "\n" ++ str "Description: " ++ cstr (f 2) ++ str "\n" ++ str "---\n") ∧
    write_output_txt (fun i => some (f i)) schema n .TYPE_QA =
      some (str "Question: " ++ cstr (f 0) ++ str "\n" ++ str "Answer: " ++ cstr (f 1) ++ str "\n"
        ++ str "---\n") ∧
    write_output_txt (fun i => some (f i)) schema n .TYPE_CLASSIFICATION =
      some (str "Text: " ++ cstr (f 0) ++ str "\n" ++ str "Category: " ++ cstr (f 1) ++ str "\n"
        ++ str "---\n") ∧
    (∀ type : DatasetType, type = .TYPE_UNDEFINED ∨ type = .TYPE_CUSTOM →
      write_output_txt (fun i => some (f i)) schema n type =
        some (((List.range n).map (fun i =>
          cstr (schema i).name ++ str ": " ++ cstr (f i) ++ str "\n")).flatten ++ str "---\n")) ∧
    write_output_txt (fun i => some ([str "Great!", str "positive"].getD i [])) schema 2
        .TYPE_SENTIMENT = some (str "Text: Great!\nSentiment: positive\n---\n") := by
  have e1 : str "\nSentiment: " = str "\n" ++ str "Sentiment: " := by decide
  have e2 : str "\n---\n" = str "\n" ++ str "---\n" := by decide
  have e3 : str "\nDifficulty: " = str "\n" ++ str "Difficulty: " := by decide
  have e4 : str "\nDescription: " = str "\n" ++ str "Description: " := by decide
  have e5 : str "\nAnswer: " = str "\n" ++ str "Answer: " := by decide
  have e6 : str "\nCategory: " = str "\n" ++ str "Category: " := by decide
  have hs : ∀ (g : Nat → List Nat) (m : Nat),
      write_output_txt (fun i => some (g i)) schema m .TYPE_SENTIMENT =
        some (str "Text: " ++ cstr (g 0) ++ str "\n" ++ str "Sentiment: " ++ cstr (g 1) ++
          str "\n" ++ str "---\n") := by
    intro g m
    simp only [write_output_txt, Option.some_bind, Option.map_some', e1, e2, List.append_assoc]
  refine ⟨hs f n, ?_, ?_, ?_, ?_, (hs _ 2).trans (by decide)⟩
  · simp only [write_output_txt, Option.some_bind, Option.map_some', e2, e3, e4,
      List.append_assoc]
  · simp only [write_output_txt, Option.some_bind, Option.map_some', e2, e5, List.append_assoc]
  · simp only [write_output_txt, Option.some_bind, Option.map_some', e2, e6, List.append_assoc]
  · intro type ht
    have hm := mapM_option_some
      (fun i => (some (f i)).map (fun v => cstr (schema i).name ++ str ": " ++ cstr v ++ str "\n"))
      (fun i => cstr (schema i).name ++ str ": " ++ cstr (f i) ++ str "\n") (List.range n)
      (fun i _ => rfl)
    rcases ht with rfl | rfl
    · simp only [write_output_txt]
      rw [hm]; rfl
    · simp only [write_output_txt]
      rw [hm]; rfl

/-- C12 (witness): the general branch on the type `TYPE_CUSTOM` with two named fields. -/
theorem write_output_txt_blocks_witness :
    write_output_txt (fun i => some ([str "Great!", str "positive"].getD i []))
        (schema_at sentiment_config) 2 .TYPE_CUSTOM =
      some (str "text: Great!\nsentiment: positive\n---\n") :=
  ((write_output_txt_blocks (fun i => [str "Great!", str "positive"].getD i [])
    (schema_at sentiment_config) 2).2.2.2.2.1 .TYPE_CUSTOM (Or.inr rfl)).trans (by decide)

/-! ## The exits of one iteration, and the lengths a run sums up -/

/-- The four exits of one iteration of the streaming loop, with exact counters. -/
theorem process_line_result (config : ProcessingConfig) (st st1 : RunState) (raw : List Nat)
    (h : process_line config st raw = some st1) :
    (strip_newline raw = [] ∧
      st1 = { st with stats := { st.stats with total_lines := st.stats.total_lines + 1 } }) ∨
    (strip_newline raw ≠ [] ∧
      (record_valid config (line_tokens config raw) = false ∧ config.strict_mode = true) ∧
      st1.out = st.out ∧ st1.seen_hashes = st.seen_hashes ∧
      st1.stats = { st.stats with total_lines := st.stats.total_lines + 1,
                                  error_lines := st.stats.error_lines + 1 }) ∨
    (strip_newline raw ≠ [] ∧
      ¬ (record_valid config (line_tokens config raw) = false ∧ config.strict_mode = true) ∧
      is_repeat config st (line_tokens config raw) ∧
      st1.out = st.out ∧ st1.seen_hashes = st.seen_hashes ∧
      st1.stats = { st.stats with
        total_lines := st.stats.total_lines + 1,
        error_lines := st.stats.error_lines + record_errors config (line_tokens config raw),
        duplicate_lines := st.stats.duplicate_lines + 1 }) ∨
    (strip_newline raw ≠ [] ∧
      ¬ (record_valid config (line_tokens config raw) = false ∧ config.strict_mode = true) ∧
      ¬ is_repeat config st (line_tokens config raw) ∧
      ∃ unit, write_record config (rows_after config st (line_tokens config raw))
          (ptrs_after config st (line_tokens config raw)) (line_tokens config raw).length =
            some unit ∧
        st1.out = st.out ++ [unit] ∧
        st1.fields = rows_after config st (line_tokens config raw) ∧
        st1.ptrs = ptrs_after config st (line_tokens config raw) ∧
        st1.seen_hashes = seen_after config st (line_tokens config raw) ∧
        st1.stats = { st.stats with
          total_lines := st.stats.total_lines + 1,
          error_lines := st.stats.error_lines + record_errors config (line_tokens config raw),
          processed_lines := st.stats.processed_lines + 1,
          avg_text_length := st.stats.avg_text_length +
            (cstr (primary_field config (line_tokens config raw))).length }) := by
  by_cases hline : strip_newline raw = []
  · rw [process_line_empty config st raw hline] at h
    cases h
    exact Or.inl ⟨hline, rfl⟩
  · rw [process_line_nonempty config st raw hline] at h
    have hrow := primary_field_row config (st.fields.drop (line_tokens config raw).length)
      (line_tokens config raw) (line_tokens_pos config raw)
    rcases process_record_result config _ st1 _ h with
      ⟨c1, h1, h2, hst⟩ | ⟨c1, c2, h1, h2, hst⟩ | ⟨c1, c2, unit, hw, h1, h2, h3, h4, hst⟩
    · exact Or.inr (Or.inl ⟨hline, c1, h1, h2, hst⟩)
    · exact Or.inr (Or.inr (Or.inl ⟨hline, c1, c2, h1, h2, hst⟩))
    · refine Or.inr (Or.inr (Or.inr ⟨hline, c1, c2, unit, hw, h1, h2, h3, h4, ?_⟩))
      rw [hst]
      simp only [rows_after, hrow]

theorem process_line_emitted (config : ProcessingConfig) (st st1 : RunState) (raw : List Nat)
    (h : process_line config st raw = some st1) :
    (line_emitted config st raw = true →
      st1.stats.processed_lines = st.stats.processed_lines + 1 ∧
      st1.stats.avg_text_length = st.stats.avg_text_length +
        (cstr (primary_field config (line_tokens config raw))).length) ∧
    (line_emitted config st raw = false →
      st1.stats.processed_lines = st.stats.processed_lines ∧
      st1.stats.avg_text_length = st.stats.avg_text_length) := by
  rcases process_line_result config st st1 raw h with
    ⟨hline, rfl⟩ | ⟨hline, c1, _, _, hst⟩ | ⟨hline, c1, c2, _, _, hst⟩ |
    ⟨hline, c1, c2, unit, _, _, _, _, _, hst⟩
  · simp [line_emitted, hline]
  · have : line_emitted config st raw = false := by
      simp only [line_emitted, decide_eq_false_iff_not]
      exact fun hh => hh.2.1 c1
    simp [this, hst]
  · have : line_emitted config st raw = false := by
      simp only [line_emitted, decide_eq_false_iff_not]
      exact fun hh => hh.2.2 c2
    simp [this, hst]
  · have : line_emitted config st raw = true := by
      simp only [line_emitted, decide_eq_true_eq]
      exact ⟨hline, c1, c2⟩
    simp [this, hst]

theorem stream_lengths (config : ProcessingConfig) :
    ∀ (lines : List (List Nat)) (st s : RunState), stream config lines st = some s →
      s.stats.processed_lines =
        st.stats.processed_lines + (processed_lengths config lines st).length ∧
      s.stats.avg_text_length =
        st.stats.avg_text_length + (processed_lengths config lines st).sum := by
  intro lines
  induction lines with
  | nil =>
    intro st s h
    simp only [stream, Option.some.injEq] at h
    subst h
    simp [processed_lengths]
  | cons raw rest ih =>
    intro st s h
    unfold stream at h
    unfold processed_lengths
    split at h
    · rename_i hguard
      simp only [hguard, ↓reduceIte]
      rw [Option.bind_eq_some] at h
      obtain ⟨st1, hstep, hrest⟩ := h
      simp only [hstep]
      have ⟨h1, h2⟩ := ih st1 s hrest
      have ⟨e1, e2⟩ := process_line_emitted config st st1 raw hstep
      cases hem : line_emitted config st raw with
      | true =>
        have := e1 hem
        simp only [↓reduceIte, List.singleton_append, List.length_cons, List.sum_cons]
        omega
      | false =>
        have := e2 hem
        simp only [Bool.false_eq_true, ↓reduceIte, List.nil_append]
        omega
    · rename_i hguard
      simp only [Option.some.injEq] at h
      subst h
      simp [hguard]

/-! ## C14: tokenizer bounds -/

theorem tokenize_unbounded_cons (q d c : Nat) (ptr : List Nat) (inq : Bool) (buf : List Nat) :
    tokenize_unbounded q d (c :: ptr) inq buf =
      if c = q then
        if inq = true ∧ ptr.head? = some q then tokenize_unbounded q d ptr.tail inq (buf ++ [q])
        else tokenize_unbounded q d ptr (!inq) buf
      else if c = d ∧ inq = false then buf :: tokenize_unbounded q d ptr inq []
      else tokenize_unbounded q d ptr inq (buf ++ [c]) := by
  cases ptr with
  | nil => simp [tokenize_unbounded]
  | cons c1 ptr => simp [tokenize_unbounded]

theorem buf_push_take (B : List Nat) (c : Nat) :
    buf_push (B.take 8191) c = (B ++ [c]).take 8191 := by
  unfold buf_push
  simp only [MAX_LINE_LENGTH, List.length_take]
  by_cases h : B.length < 8191
  · have h1 : min 8191 B.length < 8192 - 1 := by omega
    rw [if_pos h1, List.take_of_length_le (by omega),
      List.take_of_length_le (by simp only [List.length_append, List.length_singleton]; omega)]
  · have h1 : ¬ min 8191 B.length < 8192 - 1 := by omega
    rw [if_neg h1, List.take_append_of_le_length (by omega)]

theorem flush_take (B : List Nat) (h0 : 0 ∉ B) :
    safe_strcpy [] (B.take 8191 ++ [0]) MAX_LINE_LENGTH = B.take 8191 :=
  flush_eq (B.take 8191) (fun h => h0 (List.mem_of_mem_take h))
    (by simp only [List.length_take]; omega)

theorem cstr_head (q : Nat) (hq : q ≠ 0) (ptr : List Nat) :
    (cstr ptr).head? = some q ↔ ptr.head? = some q := by
  cases ptr with
  | nil => simp [cstr]
  | cons c ptr =>
    by_cases hc : c = 0
    · subst hc
      simp [cstr, Ne.symm hq]
    · rw [cstr_cons_ne c ptr hc]
      simp

theorem cstr_tail (ptr : List Nat) (q : Nat) (hq : q ≠ 0) (h : ptr.head? = some q) :
    (cstr ptr).tail = cstr ptr.tail := by
  cases ptr with
  | nil => simp at h
  | cons c ptr =>
    simp only [List.head?_cons, Option.some.injEq] at h
    subst h
    rw [cstr_cons_ne c ptr hq]
    rfl

theorem parse_finish_take (m : Nat) (acc : List (List Nat)) (B : List Nat) (hacc : acc.length ≤ m)
    (h0 : 0 ∉ B) :
    parse_finish m acc (B.take 8191) = (acc ++ [B.take 8191]).take m := by
  unfold parse_finish
  split
  · rename_i hlt
    rw [flush_take B h0]
    symm
    apply List.take_of_length_le
    rw [List.length_append, List.length_singleton]
    omega
  · have : acc.length = m := by omega
    rw [List.take_append_of_le_length (by omega), List.take_of_length_le (by omega)]

/-- The loop of `parse_csv_line` is the unbounded state machine with the field list cut
to `max_fields` fields and every field cut to 8191 bytes. -/
theorem parse_loop_refines (q d m : Nat) (hq : q ≠ 0) :
    ∀ (n : Nat) (L : List Nat), L.length ≤ n → ∀ (acc : List (List Nat)) (inq : Bool)
      (B : List Nat), acc.length ≤ m → 0 ∉ B →
      parse_loop q d m L acc inq (B.take 8191) =
        (acc ++ (tokenize_unbounded q d (cstr L) inq B).map (List.take 8191)).take m := by
  intro n
  induction n with
  | zero =>
    intro L hL acc inq B hacc h0
    have : L = [] := List.length_eq_zero.mp (Nat.le_zero.mp hL)
    subst this
    rw [parse_loop_nil, parse_finish_take m acc B hacc h0]
    simp [cstr, tokenize_unbounded]
  | succ n ih =>
    intro L hL acc inq B hacc h0
    cases L with
    | nil =>
      rw [parse_loop_nil, parse_finish_take m acc B hacc h0]
      simp [cstr, tokenize_unbounded]
    | cons c ptr =>
      have hptr : ptr.length ≤ n := by simp only [List.length_cons] at hL; omega
      have htail : ptr.tail.length ≤ n := by rw [List.length_tail]; omega
      rw [parse_loop_cons]
      by_cases hc0 : c = 0
      · subst hc0
        simp only [true_or, ↓reduceIte, cstr_cons_zero]
        rw [parse_finish_take m acc B hacc h0]
        simp [tokenize_unbounded]
      · by_cases hm : acc.length < m
        · simp only [hc0, hm, not_true_eq_false, or_self, ↓reduceIte]
          rw [cstr_cons_ne c ptr hc0, tokenize_unbounded_cons]
          by_cases hcq : c = q
          · simp only [hcq, ↓reduceIte, cstr_head q hq ptr]
            by_cases hesc : inq = true ∧ ptr.head? = some q
            · have h0q : 0 ∉ B ++ [q] := by
                simp only [List.mem_append, List.mem_singleton, not_or]
                exact ⟨h0, Ne.symm hq⟩
              simp only [hesc, and_self, ↓reduceIte]
              rw [buf_push_take, cstr_tail ptr q hq hesc.2]
              exact ih ptr.tail htail acc true (B ++ [q]) hacc h0q
            · simp only [hesc, ↓reduceIte]
              exact ih ptr hptr acc (!inq) B hacc h0
          · simp only [hcq, ↓reduceIte]
            by_cases hdel : c = d ∧ inq = false
            · simp only [hdel, and_self, ↓reduceIte]
              rw [flush_take B h0]
              have := ih ptr hptr (acc ++ [B.take 8191]) false []
                (by simp only [List.length_append, List.length_singleton]; omega) (by simp)
              simp only [List.take_nil] at this
              rw [this]
              simp
            · have h0c : 0 ∉ B ++ [c] := by
                simp only [List.mem_append, List.mem_singleton, not_or]
                exact ⟨h0, Ne.symm hc0⟩
              simp only [hdel, ↓reduceIte]
              rw [buf_push_take]
              exact ih ptr hptr acc inq (B ++ [c]) hacc h0c
        · have hfull : acc.length = m := by omega
          simp only [hm, not_false_eq_true, or_true, ↓reduceIte]
          rw [parse_finish_take m acc B hacc h0, List.take_append_of_le_length (by omega),
            List.take_append_of_le_length (by omega)]

theorem tokenize_unbounded_pos (q d : Nat) :
    ∀ (n : Nat) (L : List Nat), L.length ≤ n → ∀ (inq : Bool) (B : List Nat),
      0 < (tokenize_unbounded q d L inq B).length := by
  intro n
  induction n with
  | zero =>
    intro L hL inq B
    have : L = [] := List.length_eq_zero.mp (Nat.le_zero.mp hL)
    subst this
    simp [tokenize_unbounded]
  | succ n ih =>
    intro L hL inq B
    cases L with
    | nil => simp [tokenize_unbounded]
    | cons c ptr =>
      have hptr : ptr.length ≤ n := by simp only [List.length_cons] at hL; omega
      have htail : ptr.tail.length ≤ n := by rw [List.length_tail]; omega
      rw [tokenize_unbounded_cons]
      split
      · split
        · exact ih _ htail _ _
        · exact ih _ hptr _ _
      · split
        · simp
        · exact ih _ hptr _ _

theorem select_quote_ne_zero (line : List Nat) : select_quote line ≠ 0 := by
  unfold select_quote
  split <;> decide

/-- C14: with `max_fields = 32`, for every line and every delimiter the tokenizer returns
at least 1 and at most 32 fields, every returned field is shorter than 8192 bytes, and
the returned fields are the first 32 fields of the line (as the unbounded state machine
of the specification splits it), each cut to its first 8191 bytes. -/
theorem parse_csv_line_bounds (line : List Nat) (d : Nat) :
    1 ≤ (parse_csv_line line MAX_FIELDS d).length ∧
    (parse_csv_line line MAX_FIELDS d).length ≤ 32 ∧
    (∀ f ∈ parse_csv_line line MAX_FIELDS d, f.length < 8192) ∧
    parse_csv_line line MAX_FIELDS d =
      ((tokenize_unbounded (select_quote line) d (cstr line) false []).take 32).map
        (List.take 8191) := by
  have href : parse_csv_line line MAX_FIELDS d =
      ((tokenize_unbounded (select_quote line) d (cstr line) false []).take 32).map
        (List.take 8191) := by
    have := parse_loop_refines (select_quote line) d MAX_FIELDS (select_quote_ne_zero line)
      line.length line le_rfl [] false [] (by simp) (by simp)
    simp only [List.take_nil, List.nil_append] at this
    unfold parse_csv_line
    rw [this, List.map_take]
    rfl
  refine ⟨parse_loop_pos _ _ MAX_FIELDS (by decide) _ _ le_rfl _ _ _, ?_, ?_, href⟩
  · rw [href]
    simp only [List.length_map, List.length_take]
    omega
  · rw [href]
    intro f hf
    obtain ⟨g, _, rfl⟩ := List.mem_map.1 hf
    simp only [List.length_take]
    omega

/-- C14 (example): a line of 40 commas has 41 fields; the first 32 are returned. -/
theorem parse_csv_line_bounds_witness :
    (tokenize_unbounded (select_quote (List.replicate 40 44)) 44 (cstr (List.replicate 40 44))
      false []).length = 41 ∧
    (parse_csv_line (List.replicate 40 44) MAX_FIELDS 44).length = 32 ∧
    (parse_csv_line (List.replicate 40 44) MAX_FIELDS 44).length ≤ 32 :=
  ⟨by decide, by decide, (parse_csv_line_bounds (List.replicate 40 44) 44).2.1⟩

/-! ## C15: capacity of the hash table -/

/-- C15: for every table with `count <= capacity` and every text, a call of `is_duplicate`
keeps `count <= capacity`; on a full table a text whose hash is not recorded is reported
as not a duplicate and the table is unchanged, so the same text is again not a duplicate
at the next call; a text whose hash is recorded is reported as a duplicate and the table
is unchanged. -/
theorem is_duplicate_capacity (text seen : List Nat) (cap : Int)
    (h : (seen.length : Int) ≤ cap) :
    (((is_duplicate text seen cap).2.length : Nat) : Int) ≤ cap ∧
    ((seen.length : Int) = cap → hash_string text ∉ seen →
      is_duplicate text seen cap = (false, seen) ∧
      is_duplicate text (is_duplicate text seen cap).2 cap = (false, seen)) ∧
    (hash_string text ∈ seen → is_duplicate text seen cap = (true, seen)) := by
  refine ⟨?_, ?_, ?_⟩
  · unfold is_duplicate
    split
    · exact h
    · split
      · simp only [List.length_append, List.length_singleton]
        push_cast
        omega
      · exact h
  · intro hfull hnew
    have hnot : ¬ (seen.length : Int) < cap := by omega
    have h1 : is_duplicate text seen cap = (false, seen) := by
      simp [is_duplicate, hnew, hnot]
    exact ⟨h1, by rw [h1]; exact h1⟩
  · intro hmem
    simp [is_duplicate, hmem]

/-- C15 (witness): a full table of capacity 2 and the text `hello`. -/
theorem is_duplicate_capacity_witness :
    (([1, 2] : List Nat).length : Int) ≤ 2 ∧
    is_duplicate (str "hello") [1, 2] 2 = (false, [1, 2]) ∧
    is_duplicate (str "hello") (is_duplicate (str "hello") [1, 2] 2).2 2 = (false, [1, 2]) ∧
    is_duplicate (str "hello") [1, hash_string (str "hello")] 2 =
      (true, [1, hash_string (str "hello")]) :=
  ⟨by decide,
    ((is_duplicate_capacity (str "hello") [1, 2] 2 (by decide)).2.1 (by decide) (by decide)).1,
    ((is_duplicate_capacity (str "hello") [1, 2] 2 (by decide)).2.1 (by decide) (by decide)).2,
    (is_duplicate_capacity (str "hello") [1, hash_string (str "hello")] 2 (by decide)).2.2
      (by decide)⟩

/-! ## C16: the hash -/

theorem hash_step (h c : Nat) (hc : c < 256) :
    ((h * 2 ^ 5 % 2 ^ 32 + h) % 2 ^ 32 + c % 256) % 2 ^ 32 = (h * 33 + c) % 2 ^ 32 := by
  have e1 : (2 : Nat) ^ 5 = 32 := by decide
  have e2 : (2 : Nat) ^ 32 = 4294967296 := by decide
  rw [e1, e2]
  omega

theorem mem_of_mem_cstr (c : Nat) (l : List Nat) (h : c ∈ cstr l) : c ∈ l :=
  (List.takeWhile_sublist _).mem h

theorem foldl_hash_eq : ∀ (l : List Nat) (init : Nat), (∀ c ∈ l, c < 256) →
    l.foldl (fun hash c => ((hash * 2 ^ 5 % 2 ^ 32 + hash) % 2 ^ 32 + c % 256) % 2 ^ 32) init =
      l.foldl (fun hash c => (hash * 33 + c) % 2 ^ 32) init := by
  intro l
  induction l with
  | nil => intro _ _; rfl
  | cons c l ih =>
    intro init h
    rw [List.foldl_cons, List.foldl_cons, hash_step init c (h c (List.mem_cons_self c l))]
    exact ih _ (fun x hx => h x (List.mem_cons_of_mem c hx))

/-- C16: for every byte string, `hash_string` is the left fold over its bytes of
`h -> (h * 33 + byte) mod 2^32` from 5381: the shift-and-add step
`((h << 5) + h) + byte` in 32-bit unsigned arithmetic is multiplication by 33 modulo
`2^32`. -/
theorem hash_string_fold (s : List Nat) (hbytes : ∀ c ∈ s, c < 256) :
    hash_string s = (cstr s).foldl (fun h c => (h * 33 + c) % 2 ^ 32) 5381 ∧
    (∀ h c : Nat, c < 256 →
      ((h * 2 ^ 5 % 2 ^ 32 + h) % 2 ^ 32 + c % 256) % 2 ^ 32 = (h * 33 + c) % 2 ^ 32) :=
  ⟨foldl_hash_eq (cstr s) 5381 (fun c hc => hbytes c (mem_of_mem_cstr c s hc)), hash_step⟩

/-- C16 (witness): the hash of `hello`. -/
theorem hash_string_fold_witness :
    (∀ c ∈ str "hello", c < 256) ∧
    hash_string (str "hello") =
      (cstr (str "hello")).foldl (fun h c => (h * 33 + c) % 2 ^ 32) 5381 ∧
    hash_string (str "hello") = 261238937 :=
  ⟨by decide, (hash_string_fold (str "hello") (by decide)).1, by decide⟩

/-! ## C17: error counting -/

/-- For every defined iteration of the streaming loop: an empty line and a valid record
count no error; in strict mode an invalid record counts one error; in non-strict mode an
invalid record counts one error when it has at least the declared number of fields and
two errors when it has fewer. -/
theorem process_line_errors (config : ProcessingConfig) (st st1 : RunState) (raw : List Nat)
    (h : process_line config st raw = some st1) :
    st1.stats.total_lines = st.stats.total_lines + 1 ∧
    st1.stats.error_lines = st.stats.error_lines +
      (if strip_newline raw = [] then 0
       else if record_valid config (line_tokens config raw) = true then 0
       else if config.strict_mode = true then 1
       else if ((line_tokens config raw).length : Int) < config.field_count then 2
       else 1) := by
  have herr : ∀ (hs : config.strict_mode = false ∨
      record_valid config (line_tokens config raw) = true),
      record_errors config (line_tokens config raw) =
        (if record_valid config (line_tokens config raw) = true then 0
         else if config.strict_mode = true then 1
         else if ((line_tokens config raw).length : Int) < config.field_count then 2
         else 1) := by
    intro hs
    unfold record_errors
    by_cases hv : record_valid config (line_tokens config raw) = true
    · have hns : ¬ ((line_tokens config raw).length : Int) < config.field_count := by
        intro hsh
        simp [record_valid, hsh] at hv
      simp [hv, hns]
    · have hst : config.strict_mode = false := hs.resolve_right hv
      by_cases hsh : ((line_tokens config raw).length : Int) < config.field_count <;>
        simp [hv, hst, hsh]
  rcases process_line_result config st st1 raw h with
    ⟨hline, rfl⟩ | ⟨hline, c1, _, _, hst⟩ | ⟨hline, c1, c2, _, _, hst⟩ |
    ⟨hline, c1, c2, unit, _, _, _, _, _, hst⟩
  · simp [hline]
  · simp [hline, hst, c1.1, c1.2]
  · have hs : config.strict_mode = false ∨
        record_valid config (line_tokens config raw) = true := by
      by_cases hv : record_valid config (line_tokens config raw) = true
      · exact Or.inr hv
      · left
        by_contra hst2
        exact c1 ⟨by simpa using hv, by simpa using hst2⟩
    rw [hst]
    simp only [hline, ↓reduceIte]
    exact ⟨trivial, by rw [herr hs]⟩
  · have hs : config.strict_mode = false ∨
        record_valid config (line_tokens config raw) = true := by
      by_cases hv : record_valid config (line_tokens config raw) = true
      · exact Or.inr hv
      · left
        by_contra hst2
        exact c1 ⟨by simpa using hv, by simpa using hst2⟩
    rw [hst]
    simp only [hline, ↓reduceIte]
    exact ⟨trivial, by rw [herr hs]⟩

/-- C17 (the code at the failing input): sentiment preset, no header, non-strict mode.
After the line `Great stuff,positive`, the line `hello world` has one field where two are
declared: the field-count test counts an error and clears `valid`, and the test
`if (!valid)` after the loop counts a second error for the same record, so `error_lines`
goes from 0 to 2 on one line; with two such lines `error_lines` is 4 and `total_lines`
is 3.  In strict mode the same line counts one error. -/
theorem error_counted_twice :
    (process_all headerless_config [str "Great stuff,positive\n"] initial_state).map
        (fun s => (s.stats.total_lines, s.stats.error_lines)) = some (1, 0) ∧
    record_fails headerless_config (line_tokens headerless_config (str "hello world\n")) ∧
    (process_all headerless_config [str "Great stuff,positive\n", str "hello world\n"]
        initial_state).map (fun s => (s.stats.total_lines, s.stats.error_lines)) =
      some (2, 2) ∧
    (process_lines headerless_config initial_state
        [str "Great stuff,positive\n", str "hello world\n", str "hello again\n"]).map
        (fun s => (s.stats.total_lines, s.stats.error_lines)) = some (3, 4) ∧
    (process_lines strict_config initial_state
        [str "Great stuff,positive\n", str "hello world\n"]).map
        (fun s => (s.stats.total_lines, s.stats.error_lines)) = some (2, 1) :=
  ⟨by decide, Or.inl (by decide), by decide, by decide, by decide⟩

/-! ## C18: every emitted field is normalized -/

theorem getD_set_self (fs : List (List Nat)) (i : Nat) (v : List Nat) (h : i < fs.length) :
    (fs.set i v).getD i [] = v := by
  simp [List.getD, List.getElem?_set_self h]

/-- A row the clean loop has gone past is never written again. -/
theorem clean_loop_below (config : ProcessingConfig) :
    ∀ (n i : Nat) (fs : List (List Nat)) (j : Nat), j < i →
      (clean_loop config n i fs).1.getD j [] = fs.getD j [] := by
  intro n
  induction n with
  | zero => intro i fs j _; rfl
  | succ n ih =>
    intro i fs j hj
    simp only [clean_loop]
    split
    · exact getD_set_ne fs i j _ (by omega)
    · rw [ih (i + 1) _ j (by omega)]
      exact getD_set_ne fs i j _ (by omega)

/-- When the clean loop ends without `break`, every row it went through holds the
normalizer's output for the token that was there. -/
theorem clean_loop_cleaned (config : ProcessingConfig) :
    ∀ (n i : Nat) (fs : List (List Nat)), (clean_loop config n i fs).2.2 = true →
      i + n ≤ fs.length → ∀ j, i ≤ j → j < i + n →
        (clean_loop config n i fs).1.getD j [] =
          clean_text (fs.getD j []) MAX_LINE_LENGTH config.strict_mode := by
  intro n
  induction n with
  | zero => intro i fs _ _ j h1 h2; omega
  | succ n ih =>
    intro i fs hflag hlen j h1 h2
    simp only [clean_loop] at hflag ⊢
    split at hflag
    · cases hflag
    · rename_i hno
      simp only [hno, ↓reduceIte]
      by_cases hji : j = i
      · subst hji
        rw [clean_loop_below config n (j + 1) _ j (by omega)]
        exact getD_set_self fs j _ (by omega)
      · rw [ih (i + 1) _ hflag (by simp only [List.length_set]; omega) j (by omega) (by omega)]
        rw [getD_set_ne fs i j _ (by omega)]

/-- With validation off, or for a valid record, every declared field present in the
record is serialized from a row that holds the normalizer's output for its token. -/
theorem rows_after_cleaned (config : ProcessingConfig) (st : RunState)
    (parsed : List (List Nat))
    (h : config.validate_data = false ∨ record_valid config parsed = true) (j : Nat)
    (hj : j < parsed.length) (hd : (j : Int) < config.field_count) :
    (rows_after config st parsed).getD j [] =
      clean_text (parsed.getD j []) MAX_LINE_LENGTH config.strict_mode := by
  have hflag : (record_loop config parsed).2.2 = true := by
    rcases h with h | h
    · by_contra hf
      have hf2 : (record_loop config parsed).2.2 = false := by simpa using hf
      unfold record_loop at hf2
      rw [clean_loop_flag] at hf2
      rw [h] at hf2
      exact absurd hf2.1 (by decide)
    · unfold record_valid at h
      simp only [Bool.and_eq_true] at h
      exact h.2
  have hjmin : j < min parsed.length config.field_count.toNat := by omega
  have hlen : j < (record_loop config parsed).1.length := by
    unfold record_loop; rw [clean_loop_length]; exact hj
  unfold rows_after
  have hget : ((record_loop config parsed).1 ++ st.fields.drop parsed.length).getD j [] =
      (record_loop config parsed).1.getD j [] := by
    simp [List.getD, List.getElem?_append_left hlen]
  rw [hget]
  unfold record_loop at hflag ⊢
  exact clean_loop_cleaned config _ 0 parsed hflag (by omega) j (by omega) (by omega)

/-- C18 (the code at the failing input): sentiment preset, no header, non-strict mode,
validation on.  After the line `Great stuff,positive`, the line `abc,  raw   text  ` has
both declared fields; field 0 is cleaned to the empty string and fails `validate_field`,
the loop leaves by `break`, and field 1 is never passed to `clean_text`: the unit written
holds the raw token `  raw   text  ` where the normalizer's output is `raw text`. -/
theorem raw_field_serialized :
    line_tokens validating_config (str "abc,  raw   text  \n") =
      [str "abc", str "  raw   text  "] ∧
    clean_text (str "  raw   text  ") MAX_LINE_LENGTH validating_config.strict_mode =
      str "raw text" ∧
    (process_all validating_config [str "Great stuff,positive\n", str "abc,  raw   text  \n"]
        initial_state).map (fun s => (s.stats.processed_lines, s.out)) =
      some (2, [str "Text: Great stuff\nSentiment: positive\n---\n",
        str "Text: \nSentiment:   raw   text  \n---\n"]) := by
  decide

/-! ## The JSON unit of a record with exactly the declared number of fields -/

/-- When the tokenizer returns exactly the declared number of fields, and validation is off
or the record is valid, a processed line with JSON output writes one pair per declared
field: the schema name and the normalizer's output for the token. -/
theorem process_line_json_declared (config : ProcessingConfig) (st st1 : RunState)
    (raw : List Nat) (hjson : cstr config.output_format = str "json")
    (h : process_line config st raw = some st1)
    (hp : st1.stats.processed_lines = st.stats.processed_lines + 1)
    (hcount : ((line_tokens config raw).length : Int) = config.field_count)
    (hclean : config.validate_data = false ∨
      record_valid config (line_tokens config raw) = true) :
    st1.out = st.out ++ [str "\x7b" ++ ((List.range (line_tokens config raw).length).map
      (fun i => json_pair (schema_at config i)
        (clean_text ((line_tokens config raw).getD i []) MAX_LINE_LENGTH config.strict_mode)
        i)).flatten ++ str "\x7d\n"] := by
  rcases process_line_result config st st1 raw h with
    ⟨_, rfl⟩ | ⟨_, _, _, _, hst⟩ | ⟨_, _, _, _, _, hst⟩ |
    ⟨_, _, _, unit, hw, hout, _, _, _, _⟩
  · simp at hp
  · rw [hst] at hp
    simp at hp
  · rw [hst] at hp
    simp at hp
  · rw [hout]
    unfold write_record at hw
    rw [if_pos hjson] at hw
    have hall : ∀ i, i < (line_tokens config raw).length →
        field_ptr (rows_after config st (line_tokens config raw))
          (ptrs_after config st (line_tokens config raw)) i =
        some (clean_text ((line_tokens config raw).getD i []) MAX_LINE_LENGTH
          config.strict_mode) := by
      intro i hi
      cases hfp : field_ptr (rows_after config st (line_tokens config raw))
          (ptrs_after config st (line_tokens config raw)) i with
      | none =>
        rw [write_output_json_unassigned _ _ _ i hi hfp] at hw
        cases hw
      | some v =>
        unfold field_ptr at hfp
        split at hfp
        · cases hfp
          rw [rows_after_cleaned config st _ hclean i hi (by omega)]
        · cases hfp
    rw [write_output_json_assigned _ _ _ _ hall] at hw
    cases hw
    rfl

/-! ## C19: line-terminator stripping -/

theorem takeWhile_eq_self_of_all (p : Nat → Bool) : ∀ (l : List Nat), (∀ c ∈ l, p c = true) →
    l.takeWhile p = l := by
  intro l
  induction l with
  | nil => intro _; rfl
  | cons c l ih =>
    intro h
    simp [List.takeWhile, h c (List.mem_cons_self c l),
      ih (fun x hx => h x (List.mem_cons_of_mem c hx))]

theorem takeWhile_split (p : Nat → Bool) (l : List Nat) :
    ∃ rest, l = l.takeWhile p ++ rest ∧ (∀ c, rest.head? = some c → p c = false) ∧
      ∀ c ∈ l.takeWhile p, p c = true := by
  refine ⟨l.dropWhile p, (List.takeWhile_append_dropWhile p l).symm, ?_, ?_⟩
  · intro c hc
    induction l with
    | nil => simp at hc
    | cons a l ih =>
      by_cases ha : p a = true
      · simp only [List.dropWhile, ha] at hc
        exact ih hc
      · simp only [List.dropWhile, ha] at hc
        simp only [List.head?_cons, Option.some.injEq] at hc
        subst hc
        simpa using ha
  · intro c hc
    exact List.mem_takeWhile_imp hc

/-- C19 (as stated, refuted): the line `a\rb,c\n` is cut at its first CR: the tokenizer is
handed `a`, not `a\rb,c`, and returns the one field `a`. -/
theorem strip_newline_cuts_at_first_cr :
    strip_newline (str "a\rb,c\n") = str "a" ∧
    strip_newline (str "a\rb,c\n") ≠ str "a\rb,c" ∧
    line_tokens sentiment_config (str "a\rb,c\n") = [str "a"] := by
  decide

/-- C19 (amended): for every line read, the text handed to the tokenizer is the line (as
a C string) up to, and not including, its first CR or LF: the line is that text followed
by nothing or by a rest that begins with CR or LF, and the text holds no CR, LF or NUL.
When all CR and LF bytes of the line are trailing, the text is the line with its trailing
CR/LF removed and every other byte unchanged.  A line whose text is empty changes no
counter other than `total_lines`, and writes nothing. -/
theorem strip_newline_spec (config : ProcessingConfig) (st : RunState) (raw : List Nat) :
    (∃ rest, cstr raw = strip_newline raw ++ rest ∧
      (rest = [] ∨ rest.head? = some 13 ∨ rest.head? = some 10)) ∧
    (∀ c ∈ strip_newline raw, c ≠ 13 ∧ c ≠ 10 ∧ c ≠ 0) ∧
    (∀ body term : List Nat, cstr raw = body ++ term → (∀ c ∈ body, c ≠ 13 ∧ c ≠ 10) →
      (∀ c ∈ term, c = 13 ∨ c = 10) → strip_newline raw = body) ∧
    (strip_newline raw ≠ [] →
      process_line config st raw = process_record config
        { st with stats := { st.stats with total_lines := st.stats.total_lines + 1 } }
        (parse_csv_line (strip_newline raw) MAX_FIELDS config.delimiter)) ∧
    (strip_newline raw = [] →
      process_line config st raw =
        some { st with stats := { st.stats with total_lines := st.stats.total_lines + 1 } }) := by
  refine ⟨?_, ?_, ?_, ?_, ?_⟩
  · obtain ⟨rest, h1, h2, _⟩ := takeWhile_split (fun c => c != 13 && c != 10) (cstr raw)
    refine ⟨rest, h1, ?_⟩
    cases rest with
    | nil => exact Or.inl rfl
    | cons a rest =>
      right
      have := h2 a rfl
      simp only [Bool.and_eq_false_imp, bne_iff_ne, ne_eq, bne_eq_false_iff_eq] at this
      by_cases ha : a = 13
      · exact Or.inl (by simp [ha])
      · exact Or.inr (by simp [this ha])
  · intro c hc
    have h1 := List.mem_takeWhile_imp hc
    have h2 : c ∈ cstr raw := (List.takeWhile_sublist _).mem hc
    simp only [Bool.and_eq_true, bne_iff_ne, ne_eq] at h1
    refine ⟨h1.1, h1.2, ?_⟩
    rintro rfl
    exact zero_not_mem_cstr raw h2
  · intro body term hsplit hbody hterm
    unfold strip_newline
    rw [hsplit, takeWhile_append_of_all _ term body (fun c hc => by
      have := hbody c hc
      simp [this.1, this.2])]
    have : term.takeWhile (fun c => c != 13 && c != 10) = [] := by
      cases term with
      | nil => rfl
      | cons a term =>
        rcases hterm a (List.mem_cons_self a term) with rfl | rfl <;> simp [List.takeWhile]
    rw [this, List.append_nil]
  · intro h
    exact process_line_nonempty config st raw h
  · intro h
    exact process_line_empty config st raw h

/-- C19 (witness): the line `a,b\r\n`, whose CR and LF are trailing. -/
theorem strip_newline_spec_witness :
    strip_newline (str "a,b\r\n") = str "a,b" ∧
    process_line sentiment_config initial_state (str "\r\n") =
      some { initial_state with
        stats := { initial_state.stats with total_lines := initial_state.stats.total_lines + 1 } } :=
  ⟨(strip_newline_spec sentiment_config initial_state (str "a,b\r\n")).2.2.1 (str "a,b")
      (str "\r\n") (by decide) (by decide) (by decide),
    (strip_newline_spec sentiment_config initial_state (str "\r\n")).2.2.2.2 (by decide)⟩

/-! ## C20: whitespace normalization postcondition -/

theorem ws_ok_no_double_space : ∀ (z : List Nat) (sp : Bool), ws_ok z sp = true →
    ¬ [32, 32] <:+: z := by
  intro z
  induction z with
  | nil =>
    intro _ _ h
    have := List.infix_nil.1 h
    cases this
  | cons c z ih =>
    intro sp h hinf
    simp only [ws_ok, Bool.and_eq_true, decide_eq_true_eq] at h
    rcases List.infix_cons_iff.1 hinf with hpre | hin
    · obtain ⟨t, ht⟩ := hpre
      simp only [List.cons_append, List.nil_append, List.cons.injEq] at ht
      obtain ⟨hc, hz⟩ := ht
      subst hc
      rw [← hz] at h
      simp [ws_ok] at h
    · by_cases hc : c = 32
      · simp only [hc, ↓reduceIte, Bool.and_eq_true] at h
        exact ih false h.2.2 hin
      · simp only [hc, ↓reduceIte] at h
        exact ih true h.2 hin

/-- C20: for every input and either strict setting, the result of the normalizer holds
no byte below 0x20, no two adjacent spaces, and does not begin with a space. -/
theorem clean_text_whitespace (x : List Nat) (strict : Bool) :
    (∀ c ∈ clean_text x MAX_LINE_LENGTH strict, 32 ≤ c) ∧
    ¬ [32, 32] <:+: clean_text x MAX_LINE_LENGTH strict ∧
    (clean_text x MAX_LINE_LENGTH strict).head? ≠ some 32 := by
  rcases clean_text_shape x MAX_LINE_LENGTH strict (by decide) with h | ⟨_, _, hws, _, _⟩
  · rw [h]
    refine ⟨by simp, ?_, by simp⟩
    intro hinf
    have := List.infix_nil.1 hinf
    cases this
  · refine ⟨fun c hc => ws_ok_ge c _ false hws hc, ws_ok_no_double_space _ false hws, ?_⟩
    intro hhead
    have := ws_ok_head _ hws 32 hhead
    revert this
    decide

/-- C20 (example): `  a \t\n b  c d\x01e ` in strict mode gives `a b c de`. -/
theorem clean_text_whitespace_witness :
    clean_text (str "  a \t\n b  c d\x01e ") MAX_LINE_LENGTH true = str "a b c de" ∧
    ¬ [32, 32] <:+: clean_text (str "  a \t\n b  c d\x01e ") MAX_LINE_LENGTH true :=
  ⟨by decide, (clean_text_whitespace (str "  a \t\n b  c d\x01e ") true).2.1⟩


/-! ## Tag stripping: fuel, and a `<` with no later `>` -/

/-- One iteration of the tag-stripping loop that finds `<` and a later `>` removes at
least the two delimiters. -/
theorem strip_step_length (t after_lt after_gt : List Nat) (x y : Nat)
    (h1 : t.dropWhile (fun c => c != 60) = x :: after_lt)
    (h2 : after_lt.dropWhile (fun c => c != 62) = y :: after_gt) :
    (t.takeWhile (fun c => c != 60) ++ after_gt).length + 2 ≤ t.length := by
  have e1 := List.takeWhile_append_dropWhile (fun c => c != 60) t
  have l1 : t.length = (t.takeWhile (fun c => c != 60)).length + (after_lt.length + 1) := by
    conv_lhs => rw [← e1, h1]
    simp
  have l2 : after_gt.length + 1 ≤ after_lt.length := by
    have := length_dropWhile_le (fun c => c != 62) after_lt
    rw [h2] at this
    simpa using this
  simp only [List.length_append]
  omega

/-- Any two amounts of fuel that cover the length of the text give the same result. -/
theorem strip_tags_fuel : ∀ (n m : Nat) (t : List Nat), t.length ≤ n → t.length ≤ m →
    strip_tags n t = strip_tags m t := by
  intro n
  induction n with
  | zero =>
    intro m t hn _
    have : t = [] := List.length_eq_zero.mp (Nat.le_zero.mp hn)
    subst this
    cases m <;> simp [strip_tags]
  | succ n ih =>
    intro m t hn hm
    cases m with
    | zero =>
      have : t = [] := List.length_eq_zero.mp (Nat.le_zero.mp hm)
      subst this
      simp [strip_tags]
    | succ m =>
      unfold strip_tags
      split
      · rfl
      · rename_i x after_lt h
        split
        · rfl
        · rename_i y after_gt h2
          have := strip_step_length t after_lt after_gt x y h h2
          exact ih m _ (by omega) (by omega)

/-- A `<` with no later `>`: the loop gives what it gives on the text before that `<`. -/
theorem strip_tags_unmatched (s : List Nat) (hs : 62 ∉ s) : ∀ (n m : Nat) (p : List Nat),
    p.length ≤ n → (p ++ 60 :: s).length ≤ m →
    strip_tags m (p ++ 60 :: s) = strip_tags n p := by
  have hs62 : (60 :: s).dropWhile (fun c => c != 62) = [] :=
    dropWhile_ne_eq_nil 62 (60 :: s) (by simp [hs])
  intro n
  induction n with
  | zero =>
    intro m p hn hm
    have : p = [] := List.length_eq_zero.mp (Nat.le_zero.mp hn)
    subst this
    obtain ⟨k, rfl⟩ : ∃ k, m = k + 1 := ⟨m - 1, by simp at hm; omega⟩
    simp [strip_tags, List.dropWhile, List.takeWhile, dropWhile_ne_eq_nil 62 s hs]
  | succ n ih =>
    intro m p hn hm
    obtain ⟨k, rfl⟩ : ∃ k, m = k + 1 := ⟨m - 1, by simp at hm; omega⟩
    obtain ⟨rest, hp, hhead, hall⟩ := takeWhile_split (fun c => c != 60) p
    cases rest with
    | nil =>
      rw [List.append_nil] at hp
      have h60 : 60 ∉ p := by rw [hp]; exact not_mem_takeWhile_ne 60 p
      have hall2 : ∀ c ∈ p, (c != 60) = true := fun c hc => by
        have : c ≠ 60 := fun h => h60 (h ▸ hc)
        simpa using this
      rw [strip_tags_eq_self (n + 1) p h60]
      have d1 : (p ++ 60 :: s).dropWhile (fun c => c != 60) = 60 :: s := by
        rw [dropWhile_append_of_all _ _ p hall2]; simp [List.dropWhile]
      have t1 : (p ++ 60 :: s).takeWhile (fun c => c != 60) = p := by
        rw [takeWhile_append_of_all _ _ p hall2]; simp [List.takeWhile]
      simp [strip_tags, d1, t1, dropWhile_ne_eq_nil 62 s hs]
    | cons c b =>
      have hc : c = 60 := by
        have := hhead c rfl
        simpa using this
      subst hc
      have d0 : p.dropWhile (fun c => c != 60) = 60 :: b := by
        conv_lhs => rw [hp]
        rw [dropWhile_append_of_all _ _ _ hall]; simp [List.dropWhile]
      have t0 : (p ++ 60 :: s).takeWhile (fun c => c != 60) = p.takeWhile (fun c => c != 60) := by
        conv_lhs => rw [hp]
        rw [List.append_assoc, takeWhile_append_of_all _ _ _ hall]
        simp [List.takeWhile]
      have d1 : (p ++ 60 :: s).dropWhile (fun c => c != 60) = 60 :: (b ++ 60 :: s) := by
        conv_lhs => rw [hp]
        rw [List.append_assoc, dropWhile_append_of_all _ _ _ hall]; simp [List.dropWhile]
      obtain ⟨rest2, hb, hhead2, hall2⟩ := takeWhile_split (fun c => c != 62) b
      cases rest2 with
      | nil =>
        rw [List.append_nil] at hb
        have hall3 : ∀ c ∈ b, (c != 62) = true := fun c hc => by rw [hb] at hc; exact hall2 c hc
        have d2 : b.dropWhile (fun c => c != 62) = [] := by
          have := dropWhile_append_of_all (fun c => c != 62) [] b hall3
          simpa using this
        have d3 : (b ++ 60 :: s).dropWhile (fun c => c != 62) = [] := by
          rw [dropWhile_append_of_all _ _ b hall3]; exact hs62
        simp [strip_tags, d0, d1, d2, d3, t0]
      | cons y d =>
        have d2 : b.dropWhile (fun c => c != 62) = y :: d := by
          conv_lhs => rw [hb]
          rw [dropWhile_append_of_all _ _ _ hall2]
          have := hhead2 y rfl
          simp [List.dropWhile, this]
        have d3 : (b ++ 60 :: s).dropWhile (fun c => c != 62) = y :: (d ++ 60 :: s) := by
          conv_lhs => rw [hb]
          rw [List.append_assoc, dropWhile_append_of_all _ _ _ hall2]
          have := hhead2 y rfl
          simp [List.dropWhile, this]
        rw [strip_tags_step k _ _ _ _ _ d1 d3, strip_tags_step n _ _ _ _ _ d0 d2, t0,
          ← List.append_assoc]
        have l1 := strip_step_length p b d 60 y d0 d2
        apply ih
        · omega
        · simp only [List.length_append, List.length_cons] at hm l1 ⊢
          omega


/-- The text reaching the final length checks, when the decoded text has a `<` with no
later `>`: the later stages run on what tag stripping gives for the text before it. -/
theorem clean_stages_unmatched (x p s : List Nat) (strict : Bool)
    (h : decode_entities (trim (cstr x)) = p ++ 60 :: s) (hs : 62 ∉ s) :
    clean_stages x strict =
      if strict then limit_punct (normalize_ws (strip_tags p.length p) false false) 0
      else normalize_ws (strip_tags p.length p) false false := by
  have := strip_tags_unmatched s hs p.length (p ++ 60 :: s).length p le_rfl le_rfl
  unfold clean_stages
  simp only [h, this]

/-- The closing `>` is looked for in the decoded text: a `&gt;` after the `<` ends the
tag. -/
theorem decoded_gt_closes_tag :
    clean_text (str "abcdef <b &gt; ghijk") MAX_LINE_LENGTH false = str "abcdef ghijk" := by
  decide

/-- C21: for every input and either strict setting the result of the normalizer holds no
`<`; and when the decoded text (the text the tag-stripping loop runs on, in which every
`&lt;` has become `<`) has a `<` with no later `>`, everything from that `<` to the end is
removed: the loop gives what it gives on the text before that `<` (that text itself when
it holds no `<`), and the later stages run on that. -/
theorem clean_text_no_lt (x : List Nat) (strict : Bool) :
    60 ∉ clean_text x MAX_LINE_LENGTH strict ∧
    ∀ (p s : List Nat), decode_entities (trim (cstr x)) = p ++ 60 :: s → 62 ∉ s →
      strip_tags (decode_entities (trim (cstr x))).length (decode_entities (trim (cstr x))) =
        strip_tags p.length p ∧
      (60 ∉ p → strip_tags p.length p = p) ∧
      clean_stages x strict =
        if strict then limit_punct (normalize_ws (strip_tags p.length p) false false) 0
        else normalize_ws (strip_tags p.length p) false false := by
  refine ⟨?_, ?_⟩
  · rcases clean_text_shape x MAX_LINE_LENGTH strict (by decide) with h | ⟨_, _, _, h60, _⟩
    · rw [h]; simp
    · exact h60
  · intro p s h hs
    refine ⟨?_, fun hp => strip_tags_eq_self _ p hp, clean_stages_unmatched x p s strict h hs⟩
    rw [h]
    exact strip_tags_unmatched s hs p.length (p ++ 60 :: s).length p le_rfl le_rfl

/-- C21 (example): in `Hello &lt;b big world` the decoded `<` has no later `>`; the
result is `Hello `. -/
theorem clean_text_no_lt_witness :
    decode_entities (trim (cstr (str "Hello &lt;b big world"))) =
      str "Hello " ++ 60 :: str "b big world" ∧
    62 ∉ str "b big world" ∧
    strip_tags (decode_entities (trim (cstr (str "Hello &lt;b big world")))).length
        (decode_entities (trim (cstr (str "Hello &lt;b big world")))) =
      strip_tags (str "Hello ").length (str "Hello ") ∧
    clean_text (str "Hello &lt;b big world") MAX_LINE_LENGTH false = str "Hello " :=
  ⟨by decide, by decide,
    ((clean_text_no_lt (str "Hello &lt;b big world") false).2 (str "Hello ")
      (str "b big world") (by decide) (by decide)).1, by decide⟩


/-! ## Termination of the decoding and tag-stripping loops -/

/-- A replacement that is shorter than its entity strictly shortens the text. -/
theorem replace_first_shorter (e r : List Nat) (her : r.length < e.length) (t t1 : List Nat)
    (h : replace_first e r t = some t1) : t1.length < t.length := by
  have := replace_first_length e r t t1 h
  omega

/-- Any two amounts of fuel that cover the length of the text give the same result of the
`while` loop over one entity. -/
theorem replace_all_fuel (e r : List Nat) (her : r.length < e.length) :
    ∀ (n m : Nat) (t : List Nat), t.length ≤ n → t.length ≤ m →
      replace_all e r n t = replace_all e r m t := by
  intro n
  induction n with
  | zero =>
    intro m t hn _
    cases h : replace_first e r t with
    | none => rw [replace_all_none e r 0 t h, replace_all_none e r m t h]
    | some t1 =>
      have := replace_first_shorter e r her t t1 h
      omega
  | succ n ih =>
    intro m t hn hm
    cases h : replace_first e r t with
    | none => rw [replace_all_none e r _ t h, replace_all_none e r m t h]
    | some t1 =>
      have hlt := replace_first_shorter e r her t t1 h
      rw [replace_all_some e r (n + 1) t t1 (Nat.succ_pos n) h,
        replace_all_some e r m t t1 (by omega) h]
      exact ih (m - 1) t1 (by omega) (by omega)

/-- With fuel for every byte the `while` loop over one entity ends because `strstr` finds
no occurrence. -/
theorem replace_all_exit (e r : List Nat) (her : r.length < e.length) :
    ∀ (n : Nat) (t : List Nat), t.length ≤ n → replace_first e r (replace_all e r n t) = none := by
  intro n
  induction n with
  | zero =>
    intro t hn
    cases h : replace_first e r t with
    | none => rw [replace_all_none e r 0 t h]; exact h
    | some t1 =>
      have := replace_first_shorter e r her t t1 h
      omega
  | succ n ih =>
    intro t hn
    cases h : replace_first e r t with
    | none => rw [replace_all_none e r _ t h]; exact h
    | some t1 =>
      have hlt := replace_first_shorter e r her t t1 h
      rw [replace_all_some e r (n + 1) t t1 (Nat.succ_pos n) h]
      exact ih t1 (by omega)

/-- The pass over a table of shortening entities does not depend on the fuel, once the fuel
covers the length of the text. -/
theorem foldl_replace_fuel : ∀ (es : List (List Nat × List Nat)),
    (∀ e ∈ es, e.2.length < e.1.length) → ∀ (t : List Nat) (n : Nat), t.length ≤ n →
      es.foldl (fun u er => replace_all er.1 er.2 n u) t =
        es.foldl (fun u er => replace_all er.1 er.2 u.length u) t := by
  intro es
  induction es with
  | nil => intro _ t n _; rfl
  | cons e es ih =>
    intro hes t n hn
    have hshort := hes e (List.mem_cons_self e es)
    rw [List.foldl_cons, List.foldl_cons,
      replace_all_fuel e.1 e.2 hshort n t.length t hn le_rfl]
    apply ih (fun x hx => hes x (List.mem_cons_of_mem e hx))
    have := replace_all_length_le e.1 e.2 (Nat.le_of_lt hshort) t.length t
    omega

theorem clean_text_length_le (x : List Nat) (max_len : Nat) (strict : Bool) :
    (clean_text x max_len strict).length ≤ (cstr x).length := by
  have h1 := clean_text_length_le_stages x max_len strict
  have h2 := clean_stages_length_le x strict
  have h3 := decode_entities_length_le (trim (cstr x))
  have h4 := trim_length_le (cstr x)
  omega


/-- C22: the loops of the normalizer terminate and its result is never longer than its
input.  The table has 15 entries, each replacement shorter than its entity; one iteration
of a decoding loop strictly shortens the text (also when the replacement re-creates an
entity); with fuel for every byte each decoding loop ends because no occurrence is left,
and more fuel changes nothing, for one entity and for the whole table; one iteration of
the tag-stripping loop that removes a span strictly shortens the text; with fuel for
every byte that loop ends with no `<` left, and more fuel changes nothing; and the result
of `clean_text` is at most as long as the input string. -/
theorem clean_text_terminates (x : List Nat) (strict : Bool) :
    (entities.length = 15 ∧ ∀ e ∈ entities, e.2.length < e.1.length) ∧
    (∀ e ∈ entities, ∀ (t t1 : List Nat),
      replace_first e.1 e.2 t = some t1 → t1.length < t.length) ∧
    (∀ e ∈ entities, ∀ (t : List Nat) (n : Nat), t.length ≤ n →
      replace_all e.1 e.2 n t = replace_all e.1 e.2 t.length t ∧
        replace_first e.1 e.2 (replace_all e.1 e.2 t.length t) = none) ∧
    (∀ (t : List Nat) (n : Nat), t.length ≤ n →
      entities.foldl (fun u er => replace_all er.1 er.2 n u) t = decode_entities t) ∧
    (∀ (t after_lt after_gt : List Nat) (a b : Nat),
      t.dropWhile (fun c => c != 60) = a :: after_lt →
      after_lt.dropWhile (fun c => c != 62) = b :: after_gt →
      (t.takeWhile (fun c => c != 60) ++ after_gt).length < t.length) ∧
    (∀ (t : List Nat) (n : Nat), t.length ≤ n →
      strip_tags n t = strip_tags t.length t ∧ 60 ∉ strip_tags t.length t) ∧
    (clean_text x MAX_LINE_LENGTH strict).length ≤ (cstr x).length := by
  refine ⟨⟨by decide, entities_shorter⟩, ?_, ?_, ?_, ?_, ?_, clean_text_length_le x _ strict⟩
  · intro e he t t1 h
    exact replace_first_shorter e.1 e.2 (entities_shorter e he) t t1 h
  · intro e he t n hn
    exact ⟨replace_all_fuel e.1 e.2 (entities_shorter e he) n t.length t hn le_rfl,
      replace_all_exit e.1 e.2 (entities_shorter e he) t.length t le_rfl⟩
  · intro t n hn
    exact foldl_replace_fuel entities entities_shorter t n hn
  · intro t after_lt after_gt a b h1 h2
    have := strip_step_length t after_lt after_gt a b h1 h2
    omega
  · intro t n hn
    exact ⟨strip_tags_fuel n t.length t hn le_rfl, strip_tags_no_lt t.length t le_rfl⟩

/-- C22 (example): in `&amp;amp;` the replacement `&` re-creates `&amp;`; the text goes
from 9 bytes to 5 and the loop ends with `&`, whatever the fuel above 9; stripping
`a<b>c<d>e` ends with `ace`. -/
theorem clean_text_terminates_witness :
    replace_first (str "&amp;") (str "&") (str "&amp;amp;") = some (str "&amp;") ∧
    (str "&amp;").length < (str "&amp;amp;").length ∧
    replace_all (str "&amp;") (str "&") 100 (str "&amp;amp;") =
      replace_all (str "&amp;") (str "&") (str "&amp;amp;").length (str "&amp;amp;") ∧
    replace_all (str "&amp;") (str "&") (str "&amp;amp;").length (str "&amp;amp;") = str "&" ∧
    strip_tags 100 (str "a<b>c<d>e") =
      strip_tags (str "a<b>c<d>e").length (str "a<b>c<d>e") ∧
    strip_tags (str "a<b>c<d>e").length (str "a<b>c<d>e") = str "ace" :=
  ⟨by decide,
    (clean_text_terminates [] false).2.1 (str "&amp;", str "&") (by decide)
      (str "&amp;amp;") (str "&amp;") (by decide),
    ((clean_text_terminates [] false).2.2.1 (str "&amp;", str "&") (by decide)
      (str "&amp;amp;") 100 (by decide)).1,
    by decide,
    ((clean_text_terminates [] false).2.2.2.2.2.1 (str "a<b>c<d>e") 100 (by decide)).1,
    by decide⟩


/-! ## The serializer call of a record that fails validation in non-strict mode -/

/-- The rounded integer is at most one half away. -/
theorem round_half_even_near (x : ℚ) : |x - round_half_even x| ≤ 1 / 2 := by
  have h1 := Int.floor_le x
  have h2 := Int.lt_floor_add_one x
  unfold round_half_even
  rw [abs_le]
  split
  · constructor <;> linarith
  · split
    · push_cast; constructor <;> linarith
    · split
      · constructor <;> linarith
      · push_cast; constructor <;> linarith

end DataProcessor
